import Mathlib

/-!
# BitFunnel term treatments

A shallow embedding of `src/Index/src/TermTreatments.cpp`: the six treatment
strategies, the cost model `AnalyzeAlternate` and the recursive search `Temp`,
and of the table of `src/Index/src/DocumentFrequencyTable.h`, followed by
theorems about the row configurations the strategies tabulate, about the SNR,
the scan cost and the memory cost of the cost model, about the candidate that
the search returns and the measure by which it descends, and about the order
of the entries that the table is loaded with.

Conventions of the embedding.

* A C++ `double` is a value of `Dbl`: NaN, the two infinities, or a finite
  value given by the rational number it denotes. Comparisons (`<`, `>`, `>=`,
  `==`, `isnan`) are the IEEE-754 ones and are exact on these values. The two
  signed zeros compare equal and are one value here; their sign shows in a
  quotient by zero only, which `Dbl.div` takes by `+0.0`, and what is proved of
  the SNR at a residual noise of zero is proved for either sign of that zero.
* Arithmetic on doubles (`+`, `-`, `*`, `/`, `pow`) rounds; it is not fixed by
  the embedding but taken as a parameter `A : DblArith`, so that every theorem
  stated for all `A` holds whatever the rounding is.
* `Term`, `RowConfiguration` and the constants `c_maxIdfX10Value`,
  `c_maxRankValue` are declared in headers that are not part of the sources at
  hand. The static functions of `Term` and the constant `c_maxIdfX10Value` are
  a parameter `T : TermModel`; `RowConfiguration` and `c_maxRankValue` are
  modelled from the specification.
* `src/Index/src/DocumentFrequencyTable.h` declares the table of document
  frequencies and its entries; the body of its constructor, which reads the
  table from a stream, is not part of the sources at hand and is modelled from
  the specification.
* A `Rank` (`size_t` in the source) is a natural number.
* C++ `int` values are integers; the strategies never leave the `int` range
  on the values they compute from a search started at zero. The shift `1 << i`
  of the cost model is the 32-bit value, `shiftLeftOne`: `2 ^ i` below rank 31
  and `INT_MIN` at rank 31.
* An access to a `std::vector` outside its bounds is undefined behaviour: it is
  `none` in `GetTreatment` and the error `OutOfRange` in the search.
-/

namespace BitFunnel

/-! ## Doubles -/

/-- Values of a C++ `double`, as far as comparison can tell them apart. -/
inductive Dbl where
  | nan : Dbl
  | ninf : Dbl
  | fin (q : ℚ) : Dbl
  | pinf : Dbl
deriving DecidableEq, Repr

namespace Dbl

/-- IEEE-754 `a < b`: false as soon as one side is NaN. -/
def lt : Dbl → Dbl → Bool
  | nan, _ => false
  | _, nan => false
  | pinf, _ => false
  | _, ninf => false
  | ninf, _ => true
  | _, pinf => true
  | fin a, fin b => decide (a < b)

/-- IEEE-754 `a == b`: false as soon as one side is NaN. -/
def eq : Dbl → Dbl → Bool
  | ninf, ninf => true
  | pinf, pinf => true
  | fin a, fin b => decide (a = b)
  | _, _ => false

/-- IEEE-754 `a > b`. -/
def gt (a b : Dbl) : Bool := lt b a

/-- IEEE-754 `a <= b`. -/
def le (a b : Dbl) : Bool := lt a b || eq a b

/-- IEEE-754 `a >= b`. -/
def ge (a b : Dbl) : Bool := le b a

/-- The C++ `std::isnan`. -/
def isnan : Dbl → Bool
  | nan => true
  | _ => false

/-- Unary minus, which is exact. -/
def neg : Dbl → Dbl
  | nan => nan
  | ninf => pinf
  | fin q => fin (-q)
  | pinf => ninf

/-- The C++ `std::max(a, b)`, which is `(a < b) ? b : a`. -/
def max (a b : Dbl) : Dbl := if lt a b then b else a

end Dbl

/-- Rounded arithmetic on doubles, left open: the four operations and `pow`. -/
structure DblArith where
  add : Dbl → Dbl → Dbl
  sub : Dbl → Dbl → Dbl
  mul : Dbl → Dbl → Dbl
  div : Dbl → Dbl → Dbl
  pow : Dbl → Dbl → Dbl

namespace Dbl

/-- Exact sum: what IEEE-754 addition rounds, with its rules for NaN and the
infinities. -/
def add : Dbl → Dbl → Dbl
  | nan, _ => nan
  | _, nan => nan
  | pinf, ninf => nan
  | ninf, pinf => nan
  | pinf, _ => pinf
  | _, pinf => pinf
  | ninf, _ => ninf
  | _, ninf => ninf
  | fin a, fin b => fin (a + b)

/-- Exact difference. -/
def sub (a b : Dbl) : Dbl := add a (neg b)

/-- Exact product; an infinity times zero is NaN. -/
def mul : Dbl → Dbl → Dbl
  | nan, _ => nan
  | _, nan => nan
  | pinf, pinf => pinf
  | pinf, ninf => ninf
  | ninf, pinf => ninf
  | ninf, ninf => pinf
  | pinf, fin b => if b = 0 then nan else if 0 < b then pinf else ninf
  | ninf, fin b => if b = 0 then nan else if 0 < b then ninf else pinf
  | fin a, pinf => if a = 0 then nan else if 0 < a then pinf else ninf
  | fin a, ninf => if a = 0 then nan else if 0 < a then ninf else pinf
  | fin a, fin b => fin (a * b)

/-- Exact quotient. `Dbl` has one zero, for `+0.0` and `-0.0`, and a zero
divisor is taken as `+0.0`: `0 / 0` is NaN and `a / 0` is the infinity of the
sign of `a`. For the divisor `-0.0` IEEE-754 gives the opposite infinity, which
is `Dbl.neg` of the value here. -/
def div : Dbl → Dbl → Dbl
  | nan, _ => nan
  | _, nan => nan
  | pinf, pinf => nan
  | pinf, ninf => nan
  | ninf, pinf => nan
  | ninf, ninf => nan
  | pinf, fin b => if 0 ≤ b then pinf else ninf
  | ninf, fin b => if 0 ≤ b then ninf else pinf
  | fin _, pinf => fin 0
  | fin _, ninf => fin 0
  | fin a, fin b =>
    if b = 0 then (if a = 0 then nan else if 0 < a then pinf else ninf) else fin (a / b)

/-- Exact power with an exponent that is a natural number, the only use in the
source being `pow(x, 64)`; NaN for any other exponent. -/
def pow : Dbl → Dbl → Dbl
  | x, fin e =>
    if e.den = 1 ∧ 0 ≤ e.num then
      if e.num = 0 then fin 1
      else match x with
        | nan => nan
        | pinf => pinf
        | ninf => if e.num % 2 = 0 then pinf else ninf
        | fin a => fin (a ^ e.num.toNat)
    else nan
  | _, _ => nan

end Dbl

/-- Arithmetic without rounding: each operation returns the exact value that
IEEE-754 arithmetic would round. -/
def DblArith.exact : DblArith where
  add := Dbl.add
  sub := Dbl.sub
  mul := Dbl.mul
  div := Dbl.div
  pow := Dbl.pow

/-! ## Terms, ranks and row configurations -/

/-- Modelled from the spec: the constant `c_maxRankValue` of `BitFunnelTypes.h`,
which the specification fixes at 6. -/
def c_maxRankValue : Nat := 6

/-- Modelled from the spec: `Term` of `BitFunnel/Term.h`, a triple of a 64-bit
hash, a stream id and the IDF class returned by `GetIdfSum`. -/
structure Term where
  m_rawHash : Nat
  m_stream : Nat
  m_idfSum : Nat
deriving DecidableEq, Repr

/-- The accessor `Term::GetIdfSum`. -/
def Term.GetIdfSum (term : Term) : Nat := term.m_idfSum

/-- The static members of `Term` that `TermTreatments.cpp` calls. Their
definitions are in `Term.h` and `Term.cpp`, outside the sources at hand, so the
strategies are embedded over an arbitrary `T : TermModel`. -/
structure TermModel where
  c_maxIdfX10Value : Nat
  IdfX10ToFrequency : Nat → Dbl
  FrequencyAtRank : Dbl → Nat → Dbl
  ComputeRowCount : Dbl → Dbl → Dbl → Int
  ComputeMaxRank : Dbl → Dbl → Nat

/-- Errors of the treatment core. `InvalidParameter` is the error kind the
specification gives for a density outside `(0, 1)` or an snr that is not
positive; nothing in the source raises it. `FormatError` is the error kind the
specification gives for a line that the loader of `DocumentFrequencyTable`
rejects. -/
inductive Error where
  | CapacityExceeded : Error
  | OutOfRange : Error
  | InvalidParameter : Error
  | FormatError : Error
deriving DecidableEq, Repr

/-- Modelled from the spec: `RowConfiguration::Entry` of `RowConfiguration.h`,
a pair of a rank and a row count. The count is the integer the strategy
passes. -/
structure RowConfiguration.Entry where
  rank : Nat
  count : Int
deriving DecidableEq, Repr

/-- Modelled from the spec: `RowConfiguration` of `RowConfiguration.h`, an
ordered sequence of entries read front to back. -/
abbrev RowConfiguration := List RowConfiguration.Entry

/-- Modelled from the spec: the capacity bound of a `RowConfiguration`, for
which the specification gives 10. -/
def RowConfiguration.c_maxEntries : Nat := 10

/-- Modelled from the spec: `RowConfiguration::push_front` prepends an entry
and fails with `CapacityExceeded` when the bound is reached. -/
def RowConfiguration.push_front (configuration : RowConfiguration)
    (entry : RowConfiguration.Entry) : Except Error RowConfiguration :=
  if configuration.length < RowConfiguration.c_maxEntries then
    .ok (entry :: configuration)
  else
    .error Error.CapacityExceeded

/-- The loop shared by the four tabulating constructors:
`for (idf = 0; idf <= c_maxIdfX10Value; ++idf) { body; push_back }`. The first
argument counts the iterations that remain, `idf` is the loop variable and
`m_configurations` the vector filled so far. The loop variable is a natural
number: `c_maxIdfX10Value` is taken to be below the largest `Term::IdfX10`, so
that `++idf` does not wrap. -/
def fillConfigurations (body : Nat → Except Error RowConfiguration) :
    Nat → Nat → List RowConfiguration → Except Error (List RowConfiguration)
  | 0, _, m_configurations => .ok m_configurations
  | n + 1, idf, m_configurations =>
    match body idf with
    | .error e => .error e
    | .ok configuration =>
      fillConfigurations body n (idf + 1) (m_configurations ++ [configuration])

/-- The body shared by the four tabulated `GetTreatment` members:
`m_configurations[std::min(term.GetIdfSum(), c_maxIdfX10Value)]`. -/
def lookupTreatment (T : TermModel) (m_configurations : List RowConfiguration)
    (term : Term) : Option RowConfiguration :=
  let local_ := T.c_maxIdfX10Value
  let idf := min term.GetIdfSum local_
  m_configurations[idf]?

/-! ## TreatmentPrivateRank0 -/

/-- State of a `TreatmentPrivateRank0`. -/
structure TreatmentPrivateRank0 where
  m_configuration : RowConfiguration
deriving DecidableEq, Repr

/-- The constructor `TreatmentPrivateRank0::TreatmentPrivateRank0`. -/
def TreatmentPrivateRank0.new (_density _snr : Dbl) (_variant : Int) :
    Except Error TreatmentPrivateRank0 :=
  match RowConfiguration.push_front [] ⟨0, 1⟩ with
  | .error e => .error e
  | .ok m_configuration => .ok ⟨m_configuration⟩

/-- The member `TreatmentPrivateRank0::GetTreatment`. -/
def TreatmentPrivateRank0.GetTreatment (self : TreatmentPrivateRank0) (_term : Term) :
    RowConfiguration :=
  self.m_configuration

/-! ## TreatmentPrivateSharedRank0 -/

/-- State of a `TreatmentPrivateSharedRank0`. -/
structure TreatmentPrivateSharedRank0 where
  m_configurations : List RowConfiguration
deriving DecidableEq, Repr

/-- Loop body of `TreatmentPrivateSharedRank0::TreatmentPrivateSharedRank0`:
the configuration built for one IDF class. -/
def TreatmentPrivateSharedRank0.configuration (T : TermModel) (density snr : Dbl)
    (idf : Nat) : Except Error RowConfiguration :=
  let configuration : RowConfiguration := []
  let frequency := T.IdfX10ToFrequency idf
  if Dbl.ge frequency density then
    RowConfiguration.push_front configuration ⟨0, 1⟩
  else
    let k := T.ComputeRowCount frequency density snr
    RowConfiguration.push_front configuration ⟨0, k⟩

/-- The constructor `TreatmentPrivateSharedRank0::TreatmentPrivateSharedRank0`. -/
def TreatmentPrivateSharedRank0.new (T : TermModel) (density snr : Dbl) (_variant : Int) :
    Except Error TreatmentPrivateSharedRank0 :=
  match fillConfigurations (TreatmentPrivateSharedRank0.configuration T density snr)
      (T.c_maxIdfX10Value + 1) 0 [] with
  | .error e => .error e
  | .ok m_configurations => .ok ⟨m_configurations⟩

/-- The member `TreatmentPrivateSharedRank0::GetTreatment`. -/
def TreatmentPrivateSharedRank0.GetTreatment (T : TermModel)
    (self : TreatmentPrivateSharedRank0) (term : Term) : Option RowConfiguration :=
  lookupTreatment T self.m_configurations term

/-! ## TreatmentPrivateSharedRank0And3 -/

/-- State of a `TreatmentPrivateSharedRank0And3`. -/
structure TreatmentPrivateSharedRank0And3 where
  m_configurations : List RowConfiguration
deriving DecidableEq, Repr

/-- Loop body of
`TreatmentPrivateSharedRank0And3::TreatmentPrivateSharedRank0And3`. -/
def TreatmentPrivateSharedRank0And3.configuration (T : TermModel) (density snr : Dbl)
    (idf : Nat) : Except Error RowConfiguration :=
  let configuration : RowConfiguration := []
  let frequency := T.IdfX10ToFrequency idf
  if Dbl.gt frequency density then
    RowConfiguration.push_front configuration ⟨0, 1⟩
  else
    let k := T.ComputeRowCount frequency density snr
    match RowConfiguration.push_front configuration ⟨0, 2⟩ with
    | .error e => .error e
    | .ok configuration =>
      if k > 2 then
        let rank : Nat := 3
        let frequencyAtRank := T.FrequencyAtRank frequency rank
        if Dbl.ge frequencyAtRank density then
          RowConfiguration.push_front configuration ⟨rank, 1⟩
        else
          RowConfiguration.push_front configuration ⟨rank, k - 2⟩
      else
        .ok configuration

/-- The constructor
`TreatmentPrivateSharedRank0And3::TreatmentPrivateSharedRank0And3`. -/
def TreatmentPrivateSharedRank0And3.new (T : TermModel) (density snr : Dbl)
    (_variant : Int) : Except Error TreatmentPrivateSharedRank0And3 :=
  match fillConfigurations (TreatmentPrivateSharedRank0And3.configuration T density snr)
      (T.c_maxIdfX10Value + 1) 0 [] with
  | .error e => .error e
  | .ok m_configurations => .ok ⟨m_configurations⟩

/-- The member `TreatmentPrivateSharedRank0And3::GetTreatment`. -/
def TreatmentPrivateSharedRank0And3.GetTreatment (T : TermModel)
    (self : TreatmentPrivateSharedRank0And3) (term : Term) : Option RowConfiguration :=
  lookupTreatment T self.m_configurations term

/-! ## TreatmentPrivateSharedRank0ToN -/

/-- State of a `TreatmentPrivateSharedRank0ToN`. -/
structure TreatmentPrivateSharedRank0ToN where
  m_configurations : List RowConfiguration
deriving DecidableEq, Repr

/-- The constant `maxDensity = 0.15` of the constructor. -/
def TreatmentPrivateSharedRank0ToN.maxDensity : Dbl := Dbl.fin (15 / 100)

/-- The inner loop `while (rank < maxRank)` of the constructor, on the state
`(rank, numRows, configuration)`. Both branches of its conditional push
`Entry(rank, 1)`, as in the source. -/
def TreatmentPrivateSharedRank0ToN.whileLoop (T : TermModel) (frequency density : Dbl)
    (maxRank : Nat) (rank : Nat) (numRows : Int) (configuration : RowConfiguration) :
    Except Error (Nat × Int × RowConfiguration) :=
  if rank < maxRank then
    let frequencyAtRank := T.FrequencyAtRank frequency rank
    match (if Dbl.ge frequencyAtRank density then
        RowConfiguration.push_front configuration ⟨rank, 1⟩
      else
        RowConfiguration.push_front configuration ⟨rank, 1⟩) with
    | .error e => .error e
    | .ok configuration =>
      TreatmentPrivateSharedRank0ToN.whileLoop T frequency density maxRank
        (rank + 1) (numRows - 1) configuration
  else
    .ok (rank, numRows, configuration)
termination_by maxRank - rank
decreasing_by omega

/-- Loop body of
`TreatmentPrivateSharedRank0ToN::TreatmentPrivateSharedRank0ToN`. -/
def TreatmentPrivateSharedRank0ToN.configuration (T : TermModel) (density snr : Dbl)
    (idf : Nat) : Except Error RowConfiguration :=
  let configuration : RowConfiguration := []
  let frequency := T.IdfX10ToFrequency idf
  if Dbl.gt frequency density then
    RowConfiguration.push_front configuration ⟨0, 1⟩
  else
    let maxRank : Nat :=
      min (T.ComputeMaxRank frequency TreatmentPrivateSharedRank0ToN.maxDensity) 6
    let numRows := T.ComputeRowCount frequency density snr
    match RowConfiguration.push_front configuration ⟨0, 2⟩ with
    | .error e => .error e
    | .ok configuration =>
      let numRows := numRows - 2
      let rank : Nat := 1
      match TreatmentPrivateSharedRank0ToN.whileLoop T frequency density maxRank
          rank numRows configuration with
      | .error e => .error e
      | .ok (rank, numRows, configuration) =>
        let frequencyAtRank := T.FrequencyAtRank frequency rank
        if Dbl.ge frequencyAtRank density then
          RowConfiguration.push_front configuration ⟨rank, 1⟩
        else
          if numRows > 1 then
            RowConfiguration.push_front configuration ⟨rank, numRows⟩
          else
            RowConfiguration.push_front configuration ⟨rank, 1⟩

/-- The constructor
`TreatmentPrivateSharedRank0ToN::TreatmentPrivateSharedRank0ToN`. -/
def TreatmentPrivateSharedRank0ToN.new (T : TermModel) (density snr : Dbl)
    (_variant : Int) : Except Error TreatmentPrivateSharedRank0ToN :=
  match fillConfigurations (TreatmentPrivateSharedRank0ToN.configuration T density snr)
      (T.c_maxIdfX10Value + 1) 0 [] with
  | .error e => .error e
  | .ok m_configurations => .ok ⟨m_configurations⟩

/-- The member `TreatmentPrivateSharedRank0ToN::GetTreatment`. -/
def TreatmentPrivateSharedRank0ToN.GetTreatment (T : TermModel)
    (self : TreatmentPrivateSharedRank0ToN) (term : Term) : Option RowConfiguration :=
  lookupTreatment T self.m_configurations term


/-! ## The cost model -/

/-- Modelled from the spec: `TermTreatmentMetrics` of `OptimalTermTreatments.h`,
built from the SNR, the scan cost and the memory cost. -/
structure TermTreatmentMetrics where
  m_snr : Dbl
  m_scanCost : Dbl
  m_memoryCost : Dbl
deriving DecidableEq, Repr

/-- The accessor `TermTreatmentMetrics::GetSNR`. -/
def TermTreatmentMetrics.GetSNR (self : TermTreatmentMetrics) : Dbl := self.m_snr

/-- Modelled from the spec: `TermTreatmentMetrics::GetDQ`, which the
specification gives as `1 / (scan_cost × memory_cost)`. -/
def TermTreatmentMetrics.GetDQ (A : DblArith) (self : TermTreatmentMetrics) : Dbl :=
  A.div (Dbl.fin 1) (A.mul self.m_scanCost self.m_memoryCost)

/-- Local variables of `AnalyzeAlternate` that its loops update. -/
structure AnalyzeAlternate.State where
  scanCost : Dbl
  firstIntersection : Bool
  residualNoise : Dbl
  lastSignalAtRank : Dbl
  weight : Dbl
  memoryCost : Dbl
deriving DecidableEq, Repr

/-- The `int` expression `1 << i` of `AnalyzeAlternate`, an `int` being 32
bits wide: `2 ^ i` up to `i = 30`, and `INT_MIN = -2 ^ 31` at `i = 31`, where
the shifted bit lands on the sign. From `i = 32` on the shift is undefined in
C++; the value taken here is the one of the x86 shift instruction, which uses
the count modulo 32. -/
def shiftLeftOne (i : Nat) : Int :=
  if i % 32 = 31 then -2 ^ 31 else 2 ^ (i % 32)

/-- The inner loop `for (int j = 0; j < rows[i]; ++j)` of `AnalyzeAlternate`.
The first argument counts the iterations that remain and `j` is the loop
variable. -/
def AnalyzeAlternate.rowLoop (A : DblArith) (density signalAtRank noiseAtRank
    fullRowCost newNoise : Dbl) : Nat → Nat → AnalyzeAlternate.State → AnalyzeAlternate.State
  | 0, _, s => s
  | n + 1, j, s =>
    let memoryCost :=
      if Dbl.gt signalAtRank density then
        A.add s.memoryCost fullRowCost
      else
        A.add s.memoryCost (A.div signalAtRank density)
    let residualNoise :=
      if j = 0 then
        if !s.firstIntersection then
          A.mul (A.add newNoise s.residualNoise) noiseAtRank
        else
          noiseAtRank
      else
        A.mul s.residualNoise noiseAtRank
    let scanCost := A.add s.scanCost (A.mul s.weight fullRowCost)
    let densityAtRank := A.add residualNoise signalAtRank
    let weight := A.sub (Dbl.fin 1) (A.pow (A.sub (Dbl.fin 1) densityAtRank) (Dbl.fin 64))
    AnalyzeAlternate.rowLoop A density signalAtRank noiseAtRank fullRowCost newNoise n (j + 1)
      { s with memoryCost := memoryCost, residualNoise := residualNoise,
               scanCost := scanCost, weight := weight }

/-- The outer loop `for (int i = rows.size() - 1; i >= 0; --i)` of
`AnalyzeAlternate`; the numeric argument is `i + 1`. The index `i` stays below
`rows.size()`, so `rows[i]` is always a stored element. The divisor of
`1.0 / (1 << i)` is the 32-bit `int` that `shiftLeftOne` gives, converted to
a `double`. -/
def AnalyzeAlternate.rankLoop (A : DblArith) (T : TermModel) (rows : List Int)
    (density signal : Dbl) : Nat → AnalyzeAlternate.State → AnalyzeAlternate.State
  | 0, s => s
  | i + 1, s =>
    let signalAtRank := T.FrequencyAtRank signal i
    let noiseAtRank := Dbl.max (A.sub density signalAtRank) (Dbl.fin 0)
    let fullRowCost := A.div (Dbl.fin 1) (Dbl.fin (shiftLeftOne i))
    let newNoise := A.sub s.lastSignalAtRank signalAtRank
    let s := { s with lastSignalAtRank := signalAtRank }
    if rows.getD i 0 = 0 then
      AnalyzeAlternate.rankLoop A T rows density signal i
        { s with residualNoise := A.add s.residualNoise newNoise }
    else
      let s := AnalyzeAlternate.rowLoop A density signalAtRank noiseAtRank fullRowCost
        newNoise (rows.getD i 0).toNat 0 s
      AnalyzeAlternate.rankLoop A T rows density signal i
        { s with firstIntersection := false }

/-- The function `AnalyzeAlternate`. -/
def AnalyzeAlternate (A : DblArith) (T : TermModel) (rows : List Int)
    (density signal : Dbl) : TermTreatmentMetrics :=
  let s := AnalyzeAlternate.rankLoop A T rows density signal rows.length
    { scanCost := Dbl.fin 0, firstIntersection := true, residualNoise := Dbl.nan,
      lastSignalAtRank := Dbl.nan, weight := Dbl.fin 1, memoryCost := Dbl.fin 0 }
  let computedSnr := A.div signal s.residualNoise
  ⟨computedSnr, s.scanCost, s.memoryCost⟩

/-! ## The search -/

/-- The recursive search `Temp`. Every path that does not return at
`currentRank == -1` reads or writes `rows[currentRank]`; outside the bounds of
`rows` that is undefined behaviour, reported here as `OutOfRange` before
anything else is computed. -/
def Temp (A : DblArith) (T : TermModel) (frequency density snr : Dbl) (currentRank : Int)
    (rows : List Int) (maxRowsPerRank : Int) : Except Error (Dbl × List Int) :=
  if currentRank = -1 then
    let metrics0 := AnalyzeAlternate A T rows density frequency
    let cost :=
      if Dbl.lt metrics0.GetSNR snr || Dbl.isnan metrics0.GetSNR then
        Dbl.pinf
      else
        Dbl.neg (metrics0.GetDQ A)
    .ok (cost, rows)
  else if _hr : currentRank < 0 ∨ (rows.length : Int) ≤ currentRank then
    .error Error.OutOfRange
  else
    let frequencyAtRank := T.FrequencyAtRank frequency currentRank.toNat
    if Dbl.gt frequencyAtRank density then
      Temp A T frequency density snr (currentRank - 1)
        (rows.set currentRank.toNat (rows.getD currentRank.toNat 0 + 1)) maxRowsPerRank
    else if hs : rows.getD currentRank.toNat 0 ≥ maxRowsPerRank then
      Temp A T frequency density snr (currentRank - 1) rows maxRowsPerRank
    else
      match Temp A T frequency density snr (currentRank - 1) rows maxRowsPerRank with
      | .error e => .error e
      | .ok rankDown =>
        match Temp A T frequency density snr currentRank
            (rows.set currentRank.toNat (rows.getD currentRank.toNat 0 + 1))
            maxRowsPerRank with
        | .error e => .error e
        | .ok newRow => .ok (if Dbl.lt newRow.1 rankDown.1 then newRow else rankDown)
termination_by ((currentRank + 1).toNat, (maxRowsPerRank - rows.getD currentRank.toNat 0).toNat)
decreasing_by
  all_goals simp_wf
  · left; omega
  · left; omega
  · left; omega
  · right
    have hlt : currentRank.toNat < rows.length := by omega
    rw [List.getElem?_set_self hlt]
    simp only [Option.getD_some]
    rw [List.getD_eq_getElem?_getD] at hs
    omega

/-! ## TreatmentExperimental -/

/-- State of a `TreatmentExperimental`. -/
structure TreatmentExperimental where
  m_configurations : List RowConfiguration
deriving DecidableEq, Repr

/-- The loop `for (Rank rank = 0; rank < rows.size(); ++rank)` of the
constructor that turns the row vector into a configuration. The first argument
counts the iterations that remain and `rank` is the loop variable. -/
def TreatmentExperimental.pushLoop (T : TermModel) (frequency density : Dbl)
    (rows : List Int) : Nat → Nat → RowConfiguration → Except Error RowConfiguration
  | 0, _, configuration => .ok configuration
  | n + 1, rank, configuration =>
    if rows.getD rank 0 > 0 then
      let frequencyAtRank := T.FrequencyAtRank frequency rank
      match (if Dbl.gt frequencyAtRank density then
          RowConfiguration.push_front configuration ⟨rank, 1⟩
        else
          RowConfiguration.push_front configuration ⟨rank, rows.getD rank 0⟩) with
      | .error e => .error e
      | .ok configuration =>
        TreatmentExperimental.pushLoop T frequency density rows n (rank + 1) configuration
    else
      TreatmentExperimental.pushLoop T frequency density rows n (rank + 1) configuration

/-- The call of the search in the loop body of
`TreatmentExperimental::TreatmentExperimental`, for one IDF class. -/
def TreatmentExperimental.costRows (A : DblArith) (T : TermModel) (density snr : Dbl)
    (idf : Nat) : Except Error (Dbl × List Int) :=
  let c_maxRowsPerRank : Int := 6
  let rowInputs : List Int := List.replicate (c_maxRankValue + 1) 0
  let frequency := T.IdfX10ToFrequency idf
  let maxRank : Nat := min (T.ComputeMaxRank frequency density) c_maxRankValue
  Temp A T frequency density snr (maxRank : Int) rowInputs c_maxRowsPerRank

/-- Loop body of `TreatmentExperimental::TreatmentExperimental`. -/
def TreatmentExperimental.configuration (A : DblArith) (T : TermModel) (density snr : Dbl)
    (idf : Nat) : Except Error RowConfiguration :=
  let frequency := T.IdfX10ToFrequency idf
  match TreatmentExperimental.costRows A T density snr idf with
  | .error e => .error e
  | .ok costRows =>
    let rows := costRows.2
    TreatmentExperimental.pushLoop T frequency density rows rows.length 0 []

/-- The constructor `TreatmentExperimental::TreatmentExperimental`. -/
def TreatmentExperimental.new (A : DblArith) (T : TermModel) (density snr : Dbl)
    (_variant : Int) : Except Error TreatmentExperimental :=
  match fillConfigurations (TreatmentExperimental.configuration A T density snr)
      (T.c_maxIdfX10Value + 1) 0 [] with
  | .error e => .error e
  | .ok m_configurations => .ok ⟨m_configurations⟩

/-- The member `TreatmentExperimental::GetTreatment`. -/
def TreatmentExperimental.GetTreatment (T : TermModel)
    (self : TreatmentExperimental) (term : Term) : Option RowConfiguration :=
  lookupTreatment T self.m_configurations term

/-! ## TreatmentClassicBitsliced -/

/-- State of a `TreatmentClassicBitsliced`. -/
structure TreatmentClassicBitsliced where
  m_configuration : RowConfiguration
deriving DecidableEq, Repr

/-- The constructor `TreatmentClassicBitsliced::TreatmentClassicBitsliced`. -/
def TreatmentClassicBitsliced.new (T : TermModel) (density snr : Dbl) (_variant : Int) :
    Except Error TreatmentClassicBitsliced :=
  let idf : Nat := 40
  let frequency := T.IdfX10ToFrequency idf
  let k := T.ComputeRowCount frequency density snr
  match RowConfiguration.push_front [] ⟨0, k⟩ with
  | .error e => .error e
  | .ok m_configuration => .ok ⟨m_configuration⟩

/-- The member `TreatmentClassicBitsliced::GetTreatment`. -/
def TreatmentClassicBitsliced.GetTreatment (self : TreatmentClassicBitsliced)
    (_term : Term) : RowConfiguration :=
  self.m_configuration

/-! ## A term model after the specification -/

/-- Modelled from the spec: the values `10^(-j/10)` for `j = 0..9`, which
`IdfX10ToFrequency` needs, to ten decimal digits. -/
def specTenthPowers : List ℚ :=
  [1, 7943282347 / 10000000000, 6309573445 / 10000000000, 5011872336 / 10000000000,
   3981071706 / 10000000000, 3162277660 / 10000000000, 2511886432 / 10000000000,
   1995262315 / 10000000000, 1584893192 / 10000000000, 1258925412 / 10000000000]

/-- Modelled from the spec: `Term::IdfX10ToFrequency`, the frequency
`10^(-idf/10)` of an IDF class. -/
def specIdfX10ToFrequency (idf : Nat) : Dbl :=
  Dbl.fin (specTenthPowers.getD (idf % 10) 0 / 10 ^ (idf / 10))

/-- Modelled from the spec: `Term::FrequencyAtRank`, which is 0 at `f = 0`,
1 at `f = 1` and `1 - (1 - f)^(2^r)` otherwise. The specification says nothing
of a frequency that is not finite; NaN is returned there. -/
def specFrequencyAtRank : Dbl → Nat → Dbl
  | Dbl.fin f, r =>
    if f = 0 then Dbl.fin 0
    else if f = 1 then Dbl.fin 1
    else Dbl.fin (1 - (1 - f) ^ (2 ^ r))
  | _, _ => Dbl.nan

/-- Search for the smallest `k` from the given one on with `x ^ k ≤ t`; the
first argument bounds the number of steps. -/
def specComputeRowCount.search (x t : ℚ) : Nat → Nat → Nat
  | 0, k => k
  | fuel + 1, k => if x ^ k ≤ t then k else specComputeRowCount.search x t fuel (k + 1)

/-- Modelled from the spec: `Term::ComputeRowCount`, which returns 1 when
`f ≥ density` or `snr ≤ 0` and otherwise the smallest `k ≥ 1` with
`(density - f)^k ≤ f / snr`, a `u32`. The specification says nothing of
arguments that are not finite; 1 is returned there. -/
def specComputeRowCount : Dbl → Dbl → Dbl → Int
  | Dbl.fin f, Dbl.fin density, Dbl.fin snr =>
    if f ≥ density ∨ snr ≤ 0 then 1
    else (specComputeRowCount.search (density - f) (f / snr) (2 ^ 32 - 2) 1 : Nat)
  | _, _, _ => 1

/-- Search upwards for the last rank whose successor is too dense; the first
argument bounds the number of steps. -/
def specComputeMaxRank.search (frequency maxDensity : Dbl) : Nat → Nat → Nat
  | 0, r => r
  | fuel + 1, r =>
    if Dbl.le (specFrequencyAtRank frequency (r + 1)) maxDensity then
      specComputeMaxRank.search frequency maxDensity fuel (r + 1)
    else r

/-- Modelled from the spec: `Term::ComputeMaxRank`, the largest rank `r` with
`frequency_at_rank(f, r) ≤ max_density`, found by a monotone search from rank 0
and clamped to `c_maxRankValue`. -/
def specComputeMaxRank (frequency maxDensity : Dbl) : Nat :=
  specComputeMaxRank.search frequency maxDensity c_maxRankValue 0

/-- Modelled from the spec: the static members of `Term`, with
`c_maxIdfX10Value = 90` as in the scenarios of the specification. -/
def specTermModel : TermModel where
  c_maxIdfX10Value := 90
  IdfX10ToFrequency := specIdfX10ToFrequency
  FrequencyAtRank := specFrequencyAtRank
  ComputeRowCount := specComputeRowCount
  ComputeMaxRank := specComputeMaxRank

/-! ## Properties of row configurations -/

/-- The ranks of a configuration, read front to back, strictly descend. -/
def RowConfiguration.RanksDescending (configuration : RowConfiguration) : Prop :=
  (configuration.map (fun e => e.rank)).Pairwise (fun a b => a > b)

/-- The total row footprint of a configuration: the sum of its counts. -/
def RowConfiguration.totalCount (configuration : RowConfiguration) : Int :=
  (configuration.map (fun e => e.count)).sum

/-! ## Cost and candidates of the search -/

/-- The cost that the terminal case of `Temp` gives a row vector: `+∞` when
the SNR is below `snr` or NaN, and `-dq` otherwise. -/
def Temp.cost (A : DblArith) (T : TermModel) (frequency density snr : Dbl)
    (rows : List Int) : Dbl :=
  let metrics0 := AnalyzeAlternate A T rows density frequency
  if Dbl.lt metrics0.GetSNR snr || Dbl.isnan metrics0.GetSNR then
    Dbl.pinf
  else
    Dbl.neg (metrics0.GetDQ A)

/-- The candidates of the search called at `currentRank` on `rows`: the vectors
`v` of the length of `rows` that agree with `rows` above `currentRank` and, at
each rank `j <= currentRank`, have `v[j] = rows[j] + 1` if
`FrequencyAtRank(frequency, j) > density` and
`rows[j] <= v[j] <= max(rows[j], maxRowsPerRank)` otherwise. -/
def Temp.IsCandidate (T : TermModel) (frequency density : Dbl) (currentRank : Int)
    (rows : List Int) (maxRowsPerRank : Int) (v : List Int) : Prop :=
  v.length = rows.length ∧
  ∀ j : Nat, j < rows.length →
    (currentRank < (j : Int) → v.getD j 0 = rows.getD j 0) ∧
    ((j : Int) ≤ currentRank →
      (Dbl.gt (T.FrequencyAtRank frequency j) density = true →
        v.getD j 0 = rows.getD j 0 + 1) ∧
      (Dbl.gt (T.FrequencyAtRank frequency j) density = false →
        rows.getD j 0 ≤ v.getD j 0 ∧ v.getD j 0 ≤ max (rows.getD j 0) maxRowsPerRank))

/-! ## The state of the cost model after its loop -/

/-- The local variables of `AnalyzeAlternate` as initialised before its loop. -/
def AnalyzeAlternate.initial : AnalyzeAlternate.State :=
  { scanCost := Dbl.fin 0, firstIntersection := true, residualNoise := Dbl.nan,
    lastSignalAtRank := Dbl.nan, weight := Dbl.fin 1, memoryCost := Dbl.fin 0 }

/-- The local variables of `AnalyzeAlternate` after its loop over the ranks. -/
def AnalyzeAlternate.final (A : DblArith) (T : TermModel) (rows : List Int)
    (density signal : Dbl) : AnalyzeAlternate.State :=
  AnalyzeAlternate.rankLoop A T rows density signal rows.length AnalyzeAlternate.initial

/-! ## The measure of the search -/

/-- The pair by which the recursion of `Temp` descends in the lexicographic
order: `currentRank`, and the number `maxRowsPerRank - rows[currentRank]` of
rows that may still be added at `currentRank`. -/
def Temp.measure (currentRank : Int) (rows : List Int) (maxRowsPerRank : Int) : Int × Int :=
  (currentRank, maxRowsPerRank - rows.getD currentRank.toNat 0)

/-! ## DocumentFrequencyTable -/

/-- The class `DocumentFrequencyTable::Entry`. -/
structure DocumentFrequencyTable.Entry where
  m_term : Term
  m_frequency : Dbl
deriving DecidableEq, Repr

/-- The accessor `DocumentFrequencyTable::Entry::GetTerm`. -/
def DocumentFrequencyTable.Entry.GetTerm (self : DocumentFrequencyTable.Entry) : Term :=
  self.m_term

/-- The accessor `DocumentFrequencyTable::Entry::GetFrequency`. -/
def DocumentFrequencyTable.Entry.GetFrequency (self : DocumentFrequencyTable.Entry) : Dbl :=
  self.m_frequency

/-- State of a `DocumentFrequencyTable`. -/
structure DocumentFrequencyTable where
  m_entries : List DocumentFrequencyTable.Entry
deriving DecidableEq, Repr

/-- The member `DocumentFrequencyTable::size`. -/
def DocumentFrequencyTable.size (self : DocumentFrequencyTable) : Nat :=
  self.m_entries.length

/-- Modelled from the spec: a line of the persisted table that can be read as
its four fields: the hash, the gram size, the stream id and the frequency. A
number too large for its field is a value of this type; the frequency may be
any double. -/
structure DocumentFrequencyTable.Line where
  hash : Nat
  gramSize : Nat
  streamId : Nat
  frequency : Dbl
deriving DecidableEq, Repr

/-- Modelled from the spec: the check of one line on its own. The hash has 16
hexadecimal digits, the gram size and the stream id are `u8`, and the frequency
is finite and within `[0, 1]`. -/
def DocumentFrequencyTable.Line.wellFormed (line : DocumentFrequencyTable.Line) : Bool :=
  decide (line.hash < 2 ^ 64) && decide (line.gramSize < 2 ^ 8) &&
    decide (line.streamId < 2 ^ 8) &&
    Dbl.ge line.frequency (Dbl.fin 0) && Dbl.le line.frequency (Dbl.fin 1)

/-- Modelled from the spec: the entry stored for a line. The gram size is read
and not used; the IDF class of the term is computed from the frequency by
`idfOf`, which the specification leaves to the term model. -/
def DocumentFrequencyTable.Line.toEntry (idfOf : Dbl → Nat)
    (line : DocumentFrequencyTable.Line) : DocumentFrequencyTable.Entry :=
  ⟨⟨line.hash, line.streamId, idfOf line.frequency⟩, line.frequency⟩

/-- Modelled from the spec: the check of the order of the lines. `previous` is
the frequency of the line before, if there is one; the order is broken when
the frequency of the line is above it. -/
def DocumentFrequencyTable.ascends (previous : Option Dbl) (frequency : Dbl) : Bool :=
  match previous with
  | some p => Dbl.gt frequency p
  | none => false

/-- Modelled from the spec: the loop of the loader over the non-empty lines of
the stream, each of them `none` when its text cannot be read as the four fields
and the fields otherwise. `previous` is the frequency of the line before, if
there is one, and `m_entries` the vector filled so far. A line that cannot be
read or is not well formed, and a line whose frequency is above that of the
line before, fail with `FormatError`; the line number and the reason that the
specification attaches to the error are left out. -/
def DocumentFrequencyTable.readLines (idfOf : Dbl → Nat) :
    List (Option DocumentFrequencyTable.Line) → Option Dbl →
      List DocumentFrequencyTable.Entry → Except Error (List DocumentFrequencyTable.Entry)
  | [], _, m_entries => .ok m_entries
  | none :: _, _, _ => .error Error.FormatError
  | some line :: rest, previous, m_entries =>
    if !line.wellFormed then
      .error Error.FormatError
    else if DocumentFrequencyTable.ascends previous line.frequency then
      .error Error.FormatError
    else
      DocumentFrequencyTable.readLines idfOf rest (some line.frequency)
        (m_entries ++ [line.toEntry idfOf])

/-- Modelled from the spec: the constructor
`DocumentFrequencyTable::DocumentFrequencyTable(std::istream&)`, on the
non-empty lines of the stream in their order. -/
def DocumentFrequencyTable.new (idfOf : Dbl → Nat)
    (input : List (Option DocumentFrequencyTable.Line)) : Except Error DocumentFrequencyTable :=
  match DocumentFrequencyTable.readLines idfOf input none [] with
  | .error e => .error e
  | .ok m_entries => .ok ⟨m_entries⟩

/-- The member `DocumentFrequencyTable::operator[]`; an index outside the
vector is `none`. -/
def DocumentFrequencyTable.get (self : DocumentFrequencyTable) (index : Nat) :
    Option DocumentFrequencyTable.Entry :=
  self.m_entries[index]?

/-! ## Lemmas on the shift -/

/-- Below rank 31 the shift is the power of two. -/
theorem shiftLeftOne_of_lt (i : Nat) (h : i < 31) : shiftLeftOne i = 2 ^ i := by
  unfold shiftLeftOne
  rw [Nat.mod_eq_of_lt (by omega), if_neg (by omega)]

/-- Below rank 31 the shift, as a double, is the power of two. -/
theorem shiftLeftOne_cast (i : Nat) (h : i < 31) : ((shiftLeftOne i : Int) : ℚ) = 2 ^ i := by
  rw [shiftLeftOne_of_lt i h]
  push_cast
  rfl

/-- At rank 31 the shift is `INT_MIN`. -/
theorem shiftLeftOne_31 : shiftLeftOne 31 = -2147483648 := by
  unfold shiftLeftOne
  norm_num

/-- The shift is never 0. -/
theorem shiftLeftOne_ne_zero (i : Nat) : shiftLeftOne i ≠ 0 := by
  unfold shiftLeftOne
  split_ifs
  · norm_num
  · exact pow_ne_zero _ (by norm_num)

/-- The shift, as a double, is never 0. -/
theorem shiftLeftOne_cast_ne_zero (i : Nat) : ((shiftLeftOne i : Int) : ℚ) ≠ 0 := by
  exact_mod_cast shiftLeftOne_ne_zero i

/-- Without rounding, the cost of a full row is the inverse of the shift. -/
theorem shiftLeftOne_fullRowCost (i : Nat) :
    DblArith.exact.div (Dbl.fin 1) (Dbl.fin (shiftLeftOne i)) =
      Dbl.fin (1 / (shiftLeftOne i : ℚ)) := by
  simp [DblArith.exact, Dbl.div, shiftLeftOne_cast_ne_zero i]

/-- Without rounding, the cost of a full row below rank 31 is `1 / 2^i`. -/
theorem shiftLeftOne_fullRowCost_of_lt (i : Nat) (h : i < 31) :
    DblArith.exact.div (Dbl.fin 1) (Dbl.fin (shiftLeftOne i)) = Dbl.fin (1 / 2 ^ i) := by
  rw [shiftLeftOne_fullRowCost, shiftLeftOne_cast i h]

/-! ## Lemmas on comparison -/

/-- A value that is `<=` another is not `>` it. -/
theorem Dbl.gt_false_of_le {a b : Dbl} (h : Dbl.le a b = true) : Dbl.gt a b = false := by
  cases a <;> cases b <;> simp_all [Dbl.le, Dbl.gt, Dbl.lt, Dbl.eq]
  rename_i x y
  rcases h with h | h
  · exact le_of_lt h
  · exact le_of_eq h

/-- Equal values are `>=`. -/
theorem Dbl.ge_of_eq {a b : Dbl} (h : Dbl.eq a b = true) : Dbl.ge a b = true := by
  cases a <;> cases b <;> simp_all [Dbl.ge, Dbl.le, Dbl.lt, Dbl.eq]

/-- Equal values are `<=`. -/
theorem Dbl.le_of_eq {a b : Dbl} (h : Dbl.eq a b = true) : Dbl.le a b = true := by
  cases a <;> cases b <;> simp_all [Dbl.le, Dbl.lt, Dbl.eq]

/-- A value `>` another is `>=` it. -/
theorem Dbl.ge_of_gt {a b : Dbl} (h : Dbl.gt a b = true) : Dbl.ge a b = true := by
  cases a <;> cases b <;> simp_all [Dbl.ge, Dbl.gt, Dbl.le, Dbl.lt, Dbl.eq]

/-! ## Lemmas on the tabulating loop -/

/-- Below the capacity bound `push_front` prepends. -/
theorem RowConfiguration.push_front_ok (configuration : RowConfiguration)
    (entry : RowConfiguration.Entry) (h : configuration.length < 10) :
    RowConfiguration.push_front configuration entry = .ok (entry :: configuration) := by
  simp [RowConfiguration.push_front, RowConfiguration.c_maxEntries, h]

/-- When the loop body never fails, the tabulating loop appends the bodies of
the classes `idf, idf + 1, ...` in order. -/
theorem fillConfigurations_eq (body : Nat → Except Error RowConfiguration)
    (g : Nat → RowConfiguration) (h : ∀ i, body i = .ok (g i)) :
    ∀ (n idf : Nat) (acc : List RowConfiguration),
      fillConfigurations body n idf acc = .ok (acc ++ (List.range' idf n).map g) := by
  intro n
  induction n with
  | zero => intro idf acc; simp [fillConfigurations]
  | succ n ih =>
    intro idf acc
    simp [fillConfigurations, h, ih, List.range'_succ]

/-- When the loop body never fails, the tabulating loop returns a table with
one entry per class, the entry of class `i` being the body at `i`. -/
theorem fillConfigurations_spec (body : Nat → Except Error RowConfiguration)
    (h : ∀ i, ∃ c, body i = .ok c) (n : Nat) :
    ∃ tbl, fillConfigurations body n 0 [] = .ok tbl ∧ tbl.length = n ∧
      ∀ i, i < n → ∃ c, tbl[i]? = some c ∧ body i = .ok c := by
  choose g hg using h
  refine ⟨(List.range' 0 n).map g, ?_, by simp, ?_⟩
  · simpa using fillConfigurations_eq body g hg n 0 []
  · intro i hi
    refine ⟨g i, ?_, hg i⟩
    simp [List.getElem?_map, List.getElem?_range' , hi]

/-- The lookup of a term in a full table returns the entry of the clamped IDF
class. -/
theorem lookupTreatment_spec (T : TermModel) (body : Nat → Except Error RowConfiguration)
    (tbl : List RowConfiguration)
    (h : ∀ i, i < T.c_maxIdfX10Value + 1 → ∃ c, tbl[i]? = some c ∧ body i = .ok c)
    (term : Term) :
    ∃ c, lookupTreatment T tbl term = some c ∧
      tbl[min term.GetIdfSum T.c_maxIdfX10Value]? = some c ∧
      body (min term.GetIdfSum T.c_maxIdfX10Value) = .ok c := by
  obtain ⟨c, hc, hb⟩ := h (min term.GetIdfSum T.c_maxIdfX10Value) (by omega)
  exact ⟨c, by simpa [lookupTreatment] using hc, hc, hb⟩

/-- Two terms at or above `c_maxIdfX10Value` are looked up at the same index. -/
theorem lookupTreatment_clamp (T : TermModel) (tbl : List RowConfiguration)
    (hash stream n hash2 stream2 n2 : Nat) :
    lookupTreatment T tbl ⟨hash, stream, T.c_maxIdfX10Value + n⟩ =
      lookupTreatment T tbl ⟨hash2, stream2, T.c_maxIdfX10Value + n2⟩ := by
  simp [lookupTreatment, Term.GetIdfSum]

/-! ## Closed forms of the per-class configurations -/

/-- Closed form of the loop body of `TreatmentPrivateSharedRank0`. -/
theorem TreatmentPrivateSharedRank0_configuration_eq (T : TermModel) (density snr : Dbl)
    (idf : Nat) :
    TreatmentPrivateSharedRank0.configuration T density snr idf =
      .ok (if Dbl.ge (T.IdfX10ToFrequency idf) density then [⟨0, 1⟩]
        else [⟨0, T.ComputeRowCount (T.IdfX10ToFrequency idf) density snr⟩]) := by
  unfold TreatmentPrivateSharedRank0.configuration
  by_cases h : Dbl.ge (T.IdfX10ToFrequency idf) density = true <;>
    simp [h, RowConfiguration.push_front_ok]

/-- The constructor of `TreatmentPrivateSharedRank0` returns a full table. -/
theorem TreatmentPrivateSharedRank0_new_spec (T : TermModel) (density snr : Dbl)
    (variant : Int) :
    ∃ t, TreatmentPrivateSharedRank0.new T density snr variant = .ok t ∧
      t.m_configurations.length = T.c_maxIdfX10Value + 1 ∧
      ∀ i, i < T.c_maxIdfX10Value + 1 → ∃ c, t.m_configurations[i]? = some c ∧
        TreatmentPrivateSharedRank0.configuration T density snr i = .ok c := by
  obtain ⟨tbl, h1, h2, h3⟩ := fillConfigurations_spec
    (TreatmentPrivateSharedRank0.configuration T density snr)
    (fun i => ⟨_, TreatmentPrivateSharedRank0_configuration_eq T density snr i⟩)
    (T.c_maxIdfX10Value + 1)
  exact ⟨⟨tbl⟩, by simp [TreatmentPrivateSharedRank0.new, h1], h2, h3⟩

/-- Closed form of the loop body of `TreatmentPrivateSharedRank0And3`. -/
theorem TreatmentPrivateSharedRank0And3_configuration_eq (T : TermModel) (density snr : Dbl)
    (idf : Nat) :
    TreatmentPrivateSharedRank0And3.configuration T density snr idf =
      .ok (if Dbl.gt (T.IdfX10ToFrequency idf) density then [⟨0, 1⟩]
        else if T.ComputeRowCount (T.IdfX10ToFrequency idf) density snr > 2 then
          (if Dbl.ge (T.FrequencyAtRank (T.IdfX10ToFrequency idf) 3) density then
            [⟨3, 1⟩, ⟨0, 2⟩]
          else [⟨3, T.ComputeRowCount (T.IdfX10ToFrequency idf) density snr - 2⟩, ⟨0, 2⟩])
        else [⟨0, 2⟩]) := by
  unfold TreatmentPrivateSharedRank0And3.configuration
  by_cases h : Dbl.gt (T.IdfX10ToFrequency idf) density = true
  · simp [h, RowConfiguration.push_front_ok]
  · by_cases hk : T.ComputeRowCount (T.IdfX10ToFrequency idf) density snr > 2
    · by_cases hf : Dbl.ge (T.FrequencyAtRank (T.IdfX10ToFrequency idf) 3) density = true <;>
        simp [h, hk, hf, RowConfiguration.push_front_ok]
    · simp [h, hk, RowConfiguration.push_front_ok]

/-- The constructor of `TreatmentPrivateSharedRank0And3` returns a full table. -/
theorem TreatmentPrivateSharedRank0And3_new_spec (T : TermModel) (density snr : Dbl)
    (variant : Int) :
    ∃ t, TreatmentPrivateSharedRank0And3.new T density snr variant = .ok t ∧
      t.m_configurations.length = T.c_maxIdfX10Value + 1 ∧
      ∀ i, i < T.c_maxIdfX10Value + 1 → ∃ c, t.m_configurations[i]? = some c ∧
        TreatmentPrivateSharedRank0And3.configuration T density snr i = .ok c := by
  obtain ⟨tbl, h1, h2, h3⟩ := fillConfigurations_spec
    (TreatmentPrivateSharedRank0And3.configuration T density snr)
    (fun i => ⟨_, TreatmentPrivateSharedRank0And3_configuration_eq T density snr i⟩)
    (T.c_maxIdfX10Value + 1)
  exact ⟨⟨tbl⟩, by simp [TreatmentPrivateSharedRank0And3.new, h1], h2, h3⟩

/-- The inner loop of `TreatmentPrivateSharedRank0ToN`, run from `rank` with
`n = maxRank - rank` iterations to go, pushes `(r, 1)` for `r = rank, ...,
maxRank - 1`, decrements `numRows` by `n` and stops at `max rank maxRank`. -/
theorem TreatmentPrivateSharedRank0ToN_whileLoop_eq (T : TermModel) (frequency density : Dbl)
    (maxRank : Nat) :
    ∀ (n rank : Nat) (numRows : Int) (c : RowConfiguration),
      maxRank - rank = n → c.length + n < 10 →
      TreatmentPrivateSharedRank0ToN.whileLoop T frequency density maxRank rank numRows c =
        .ok (max rank maxRank, numRows - n,
          ((List.range' rank n).map (fun r => (⟨r, 1⟩ : RowConfiguration.Entry))).reverse ++ c) := by
  intro n
  induction n with
  | zero =>
    intro rank numRows c hn _
    rw [TreatmentPrivateSharedRank0ToN.whileLoop]
    have h : ¬ rank < maxRank := by omega
    have hmax : max rank maxRank = rank := by omega
    simp [h, hmax]
  | succ n ih =>
    intro rank numRows c hn hc
    rw [TreatmentPrivateSharedRank0ToN.whileLoop]
    have h : rank < maxRank := by omega
    have hmax : max (rank + 1) maxRank = max rank maxRank := by omega
    have hpush := RowConfiguration.push_front_ok c ⟨rank, 1⟩ (by omega)
    simp only [h, if_true, ite_self, hpush]
    rw [ih (rank + 1) (numRows - 1) (⟨rank, 1⟩ :: c) (by omega) (by simp; omega), hmax]
    simp only [List.range'_succ, List.map_cons, List.reverse_cons, List.append_assoc,
      List.singleton_append, Nat.cast_add, Nat.cast_one]
    congr 3
    omega

/-- Closed form of the loop body of `TreatmentPrivateSharedRank0ToN`. -/
theorem TreatmentPrivateSharedRank0ToN_configuration_eq (T : TermModel) (density snr : Dbl)
    (idf : Nat) :
    TreatmentPrivateSharedRank0ToN.configuration T density snr idf =
      .ok (if Dbl.gt (T.IdfX10ToFrequency idf) density then [⟨0, 1⟩]
        else
          let frequency := T.IdfX10ToFrequency idf
          let maxRank := min (T.ComputeMaxRank frequency TreatmentPrivateSharedRank0ToN.maxDensity) 6
          let numRows := T.ComputeRowCount frequency density snr - 2 - ((maxRank - 1 : Nat) : Int)
          let rank := max 1 maxRank
          ⟨rank, if Dbl.ge (T.FrequencyAtRank frequency rank) density then 1
            else if numRows > 1 then numRows else 1⟩ ::
            (((List.range' 1 (maxRank - 1)).map
              (fun r => (⟨r, 1⟩ : RowConfiguration.Entry))).reverse ++ [⟨0, 2⟩])) := by
  unfold TreatmentPrivateSharedRank0ToN.configuration
  by_cases h : Dbl.gt (T.IdfX10ToFrequency idf) density = true
  · simp [h, RowConfiguration.push_front_ok]
  · have hloop := TreatmentPrivateSharedRank0ToN_whileLoop_eq T (T.IdfX10ToFrequency idf) density
      (min (T.ComputeMaxRank (T.IdfX10ToFrequency idf)
        TreatmentPrivateSharedRank0ToN.maxDensity) 6)
      (min (T.ComputeMaxRank (T.IdfX10ToFrequency idf)
        TreatmentPrivateSharedRank0ToN.maxDensity) 6 - 1) 1
      (T.ComputeRowCount (T.IdfX10ToFrequency idf) density snr - 2) [⟨0, 2⟩] rfl
      (by simp; omega)
    have hlen : ∀ e : RowConfiguration.Entry,
        RowConfiguration.push_front
          (((List.range' 1 (min (T.ComputeMaxRank (T.IdfX10ToFrequency idf)
            TreatmentPrivateSharedRank0ToN.maxDensity) 6 - 1)).map
              (fun r => (⟨r, 1⟩ : RowConfiguration.Entry))).reverse ++ [⟨0, 2⟩]) e =
        .ok (e :: (((List.range' 1 (min (T.ComputeMaxRank (T.IdfX10ToFrequency idf)
            TreatmentPrivateSharedRank0ToN.maxDensity) 6 - 1)).map
              (fun r => (⟨r, 1⟩ : RowConfiguration.Entry))).reverse ++ [⟨0, 2⟩])) := by
      intro e
      apply RowConfiguration.push_front_ok
      simp
      omega
    simp only [h, RowConfiguration.push_front_ok [] _ (by decide), hloop]
    by_cases hf : Dbl.ge (T.FrequencyAtRank (T.IdfX10ToFrequency idf)
        (max 1 (min (T.ComputeMaxRank (T.IdfX10ToFrequency idf)
          TreatmentPrivateSharedRank0ToN.maxDensity) 6))) density = true
    · simp [hf, hlen]
    · by_cases hn : T.ComputeRowCount (T.IdfX10ToFrequency idf) density snr - 2 -
          ((min (T.ComputeMaxRank (T.IdfX10ToFrequency idf)
            TreatmentPrivateSharedRank0ToN.maxDensity) 6 - 1 : Nat) : Int) > 1 <;>
        simp [hf, hn, hlen]

/-- The constructor of `TreatmentPrivateSharedRank0ToN` returns a full table. -/
theorem TreatmentPrivateSharedRank0ToN_new_spec (T : TermModel) (density snr : Dbl)
    (variant : Int) :
    ∃ t, TreatmentPrivateSharedRank0ToN.new T density snr variant = .ok t ∧
      t.m_configurations.length = T.c_maxIdfX10Value + 1 ∧
      ∀ i, i < T.c_maxIdfX10Value + 1 → ∃ c, t.m_configurations[i]? = some c ∧
        TreatmentPrivateSharedRank0ToN.configuration T density snr i = .ok c := by
  obtain ⟨tbl, h1, h2, h3⟩ := fillConfigurations_spec
    (TreatmentPrivateSharedRank0ToN.configuration T density snr)
    (fun i => ⟨_, TreatmentPrivateSharedRank0ToN_configuration_eq T density snr i⟩)
    (T.c_maxIdfX10Value + 1)
  exact ⟨⟨tbl⟩, by simp [TreatmentPrivateSharedRank0ToN.new, h1], h2, h3⟩

/-! ## The search returns, and keeps the length of the row vector -/

/-- Called with `-1 <= currentRank < rows.size()`, the search returns a pair
whose row vector has the length of `rows`. -/
theorem Temp_ok (A : DblArith) (T : TermModel) (frequency density snr : Dbl)
    (currentRank : Int) (rows : List Int) (maxRowsPerRank : Int) :
    -1 ≤ currentRank → currentRank < rows.length →
      ∃ cost r, Temp A T frequency density snr currentRank rows maxRowsPerRank = .ok (cost, r) ∧
        r.length = rows.length := by
  induction currentRank, rows, maxRowsPerRank using Temp.induct A T frequency density snr with
  | case1 rows maxRowsPerRank =>
    intro _ _
    rw [Temp]
    simp only [if_true]
    exact ⟨_, _, rfl, rfl⟩
  | case2 currentRank rows maxRowsPerRank h1 h2 =>
    intro h3 h4
    omega
  | case3 currentRank rows maxRowsPerRank h1 h2 frequencyAtRank h3 ih =>
    intro _ h5
    obtain ⟨cost, r, hr, hlen⟩ := ih (by omega) (by simp; omega)
    refine ⟨cost, r, ?_, by simpa using hlen⟩
    rw [Temp]
    simp only [h1, h2, if_false, dite_false]
    rw [if_pos h3]
    exact hr
  | case4 currentRank rows maxRowsPerRank h1 h2 frequencyAtRank h3 h4 ih =>
    intro _ h5
    obtain ⟨cost, r, hr, hlen⟩ := ih (by omega) (by omega)
    refine ⟨cost, r, ?_, hlen⟩
    rw [Temp]
    simp only [h1, h2, if_false, dite_false]
    rw [if_neg h3, dif_pos h4]
    exact hr
  | case5 currentRank rows maxRowsPerRank h1 h2 frequencyAtRank h3 h4 e he ih =>
    intro _ h5
    obtain ⟨cost, r, hr, _⟩ := ih (by omega) (by omega)
    rw [he] at hr
    cases hr
  | case6 currentRank rows maxRowsPerRank h1 h2 frequencyAtRank h3 h4 rankDown hd e he ih1 ih2 =>
    intro h6 h5
    obtain ⟨cost, r, hr, _⟩ := ih2 h6 (by simp; omega)
    rw [he] at hr
    cases hr
  | case7 currentRank rows maxRowsPerRank h1 h2 frequencyAtRank h3 h4 rankDown hd newRow hn
      ih1 ih2 =>
    intro h6 h5
    obtain ⟨cost1, r1, hr1, hlen1⟩ := ih1 (by omega) (by omega)
    obtain ⟨cost2, r2, hr2, hlen2⟩ := ih2 h6 (by simp; omega)
    rw [Temp]
    simp only [h1, h2, if_false, dite_false]
    rw [if_neg h3, dif_neg h4, hr1, hr2]
    simp only [List.length_set] at hlen2
    by_cases hlt : Dbl.lt cost2 cost1 = true
    · exact ⟨cost2, r2, by simp [hlt], hlen2⟩
    · exact ⟨cost1, r1, by simp [hlt], hlen1⟩

/-- Closed form of the loop of `TreatmentExperimental` that turns a row vector
into a configuration, while the capacity is not exceeded. -/
theorem TreatmentExperimental_pushLoop_eq (T : TermModel) (frequency density : Dbl)
    (rows : List Int) :
    ∀ (n rank : Nat) (c : RowConfiguration), c.length + n ≤ 10 →
      TreatmentExperimental.pushLoop T frequency density rows n rank c =
        .ok ((((List.range' rank n).filter (fun r => decide (rows.getD r 0 > 0))).map
          (fun r => (⟨r, if Dbl.gt (T.FrequencyAtRank frequency r) density then 1
            else rows.getD r 0⟩ : RowConfiguration.Entry))).reverse ++ c) := by
  intro n
  induction n with
  | zero => intro rank c _; simp [TreatmentExperimental.pushLoop]
  | succ n ih =>
    intro rank c hc
    rw [TreatmentExperimental.pushLoop]
    by_cases hpos : rows.getD rank 0 > 0
    · have hpush : ∀ e : RowConfiguration.Entry,
          RowConfiguration.push_front c e = .ok (e :: c) :=
        fun e => RowConfiguration.push_front_ok c e (by omega)
      have hpos2 : 0 < rows[rank]?.getD 0 := by simpa using hpos
      by_cases hf : Dbl.gt (T.FrequencyAtRank frequency rank) density = true <;>
        simp [hpos2, hf, hpush, ih (rank + 1) _ (by simp; omega : (_ :: c).length + n ≤ 10),
          List.range'_succ, List.filter_cons]
    · have hpos2 : ¬ 0 < rows[rank]?.getD 0 := by simpa using hpos
      simp [hpos2, ih (rank + 1) c (by omega), List.range'_succ, List.filter_cons]

/-- The loop body of `TreatmentExperimental`: the search returns a vector of
length `c_maxRankValue + 1` and the configuration is read off it. -/
theorem TreatmentExperimental_configuration_spec (A : DblArith) (T : TermModel)
    (density snr : Dbl) (idf : Nat) :
    ∃ cost rows, TreatmentExperimental.costRows A T density snr idf = .ok (cost, rows) ∧
      rows.length = c_maxRankValue + 1 ∧
      TreatmentExperimental.configuration A T density snr idf =
        .ok ((((List.range rows.length).filter (fun r => decide (rows.getD r 0 > 0))).map
          (fun r => (⟨r, if Dbl.gt (T.FrequencyAtRank (T.IdfX10ToFrequency idf) r) density
            then 1 else rows.getD r 0⟩ : RowConfiguration.Entry))).reverse) := by
  obtain ⟨cost, rows, hr, hlen⟩ := Temp_ok A T (T.IdfX10ToFrequency idf) density snr
    ((min (T.ComputeMaxRank (T.IdfX10ToFrequency idf) density) c_maxRankValue : Nat) : Int)
    (List.replicate (c_maxRankValue + 1) 0) 6 (by omega)
    (by simp only [List.length_replicate]; omega)
  have hlen7 : rows.length = c_maxRankValue + 1 := by simpa using hlen
  refine ⟨cost, rows, hr, hlen7, ?_⟩
  have hc : TreatmentExperimental.costRows A T density snr idf = .ok (cost, rows) := hr
  unfold TreatmentExperimental.configuration
  rw [hc]
  simp only []
  rw [TreatmentExperimental_pushLoop_eq T _ density rows rows.length 0 []
    (by rw [hlen7]; simp [c_maxRankValue])]
  simp [List.range_eq_range']

/-- The constructor of `TreatmentExperimental` returns a full table. -/
theorem TreatmentExperimental_new_spec (A : DblArith) (T : TermModel) (density snr : Dbl)
    (variant : Int) :
    ∃ t, TreatmentExperimental.new A T density snr variant = .ok t ∧
      t.m_configurations.length = T.c_maxIdfX10Value + 1 ∧
      ∀ i, i < T.c_maxIdfX10Value + 1 → ∃ c, t.m_configurations[i]? = some c ∧
        TreatmentExperimental.configuration A T density snr i = .ok c := by
  obtain ⟨tbl, h1, h2, h3⟩ := fillConfigurations_spec
    (TreatmentExperimental.configuration A T density snr)
    (fun i => by
      obtain ⟨_, _, _, _, h⟩ := TreatmentExperimental_configuration_spec A T density snr i
      exact ⟨_, h⟩)
    (T.c_maxIdfX10Value + 1)
  exact ⟨⟨tbl⟩, by simp [TreatmentExperimental.new, h1], h2, h3⟩

/-! ## Table entries of the constructed treatments -/

/-- Entry `idf` of the table of `TreatmentPrivateSharedRank0`. -/
theorem TreatmentPrivateSharedRank0_new_entry (T : TermModel) (density snr : Dbl)
    (variant : Int) (idf : Nat) (hidf : idf ≤ T.c_maxIdfX10Value) (c : RowConfiguration)
    (hc : TreatmentPrivateSharedRank0.configuration T density snr idf = .ok c) :
    ∃ t, TreatmentPrivateSharedRank0.new T density snr variant = .ok t ∧
      t.m_configurations[idf]? = some c := by
  obtain ⟨t, h1, _, h3⟩ := TreatmentPrivateSharedRank0_new_spec T density snr variant
  obtain ⟨c2, hc2, hb⟩ := h3 idf (by omega)
  rw [hc] at hb
  cases hb
  exact ⟨t, h1, hc2⟩

/-- Entry `idf` of the table of `TreatmentPrivateSharedRank0And3`. -/
theorem TreatmentPrivateSharedRank0And3_new_entry (T : TermModel) (density snr : Dbl)
    (variant : Int) (idf : Nat) (hidf : idf ≤ T.c_maxIdfX10Value) (c : RowConfiguration)
    (hc : TreatmentPrivateSharedRank0And3.configuration T density snr idf = .ok c) :
    ∃ t, TreatmentPrivateSharedRank0And3.new T density snr variant = .ok t ∧
      t.m_configurations[idf]? = some c := by
  obtain ⟨t, h1, _, h3⟩ := TreatmentPrivateSharedRank0And3_new_spec T density snr variant
  obtain ⟨c2, hc2, hb⟩ := h3 idf (by omega)
  rw [hc] at hb
  cases hb
  exact ⟨t, h1, hc2⟩

/-- Entry `idf` of the table of `TreatmentPrivateSharedRank0ToN`. -/
theorem TreatmentPrivateSharedRank0ToN_new_entry (T : TermModel) (density snr : Dbl)
    (variant : Int) (idf : Nat) (hidf : idf ≤ T.c_maxIdfX10Value) (c : RowConfiguration)
    (hc : TreatmentPrivateSharedRank0ToN.configuration T density snr idf = .ok c) :
    ∃ t, TreatmentPrivateSharedRank0ToN.new T density snr variant = .ok t ∧
      t.m_configurations[idf]? = some c := by
  obtain ⟨t, h1, _, h3⟩ := TreatmentPrivateSharedRank0ToN_new_spec T density snr variant
  obtain ⟨c2, hc2, hb⟩ := h3 idf (by omega)
  rw [hc] at hb
  cases hb
  exact ⟨t, h1, hc2⟩

/-- Entry `idf` of the table of `TreatmentExperimental`. -/
theorem TreatmentExperimental_new_entry (A : DblArith) (T : TermModel) (density snr : Dbl)
    (variant : Int) (idf : Nat) (hidf : idf ≤ T.c_maxIdfX10Value) (c : RowConfiguration)
    (hc : TreatmentExperimental.configuration A T density snr idf = .ok c) :
    ∃ t, TreatmentExperimental.new A T density snr variant = .ok t ∧
      t.m_configurations[idf]? = some c := by
  obtain ⟨t, h1, _, h3⟩ := TreatmentExperimental_new_spec A T density snr variant
  obtain ⟨c2, hc2, hb⟩ := h3 idf (by omega)
  rw [hc] at hb
  cases hb
  exact ⟨t, h1, hc2⟩


/-! ## Shared classes of TreatmentPrivateSharedRank0ToN -/

/-- Ranks of a shared class of `TreatmentPrivateSharedRank0ToN`, front to back:
`max(1, maxRank)` down to 0. -/
theorem TreatmentPrivateSharedRank0ToN_configuration_ranks (T : TermModel) (density snr : Dbl)
    (idf : Nat) (h : Dbl.gt (T.IdfX10ToFrequency idf) density = false) :
    ∃ c, TreatmentPrivateSharedRank0ToN.configuration T density snr idf = .ok c ∧
      c.map (fun e => e.rank) =
        (List.range (max 1 (min (T.ComputeMaxRank (T.IdfX10ToFrequency idf)
          TreatmentPrivateSharedRank0ToN.maxDensity) 6) + 1)).reverse := by
  have hc := TreatmentPrivateSharedRank0ToN_configuration_eq T density snr idf
  simp only [h, Bool.false_eq_true, if_false] at hc
  generalize min (T.ComputeMaxRank (T.IdfX10ToFrequency idf)
    TreatmentPrivateSharedRank0ToN.maxDensity) 6 = m at hc ⊢
  refine ⟨_, hc, ?_⟩
  simp only [List.map_cons, List.map_append, List.map_reverse, List.map_map, List.map_nil]
  have hid : ((fun e : RowConfiguration.Entry => e.rank) ∘
      fun r => (⟨r, 1⟩ : RowConfiguration.Entry)) = id := rfl
  have hr : List.range (max 1 m) = 0 :: List.range' 1 (m - 1) := by
    have hm : max 1 m = (m - 1) + 1 := by omega
    rw [hm, List.range_eq_range', List.range'_succ]
  rw [hid, List.map_id, List.range_succ, List.reverse_append, List.reverse_singleton,
    List.singleton_append, hr, List.reverse_cons]

/-- A shared class of `TreatmentPrivateSharedRank0ToN` has `(0, 2)` as its only
rank-0 entry. -/
theorem TreatmentPrivateSharedRank0ToN_configuration_rank0 (T : TermModel) (density snr : Dbl)
    (idf : Nat) (h : Dbl.gt (T.IdfX10ToFrequency idf) density = false) :
    ∃ c, TreatmentPrivateSharedRank0ToN.configuration T density snr idf = .ok c ∧
      c ≠ [⟨0, 1⟩] ∧ c.filter (fun e => decide (e.rank = 0)) = [⟨0, 2⟩] := by
  have hc := TreatmentPrivateSharedRank0ToN_configuration_eq T density snr idf
  simp only [h, Bool.false_eq_true, if_false] at hc
  generalize min (T.ComputeMaxRank (T.IdfX10ToFrequency idf)
    TreatmentPrivateSharedRank0ToN.maxDensity) 6 = m at hc ⊢
  refine ⟨_, hc, ?_, ?_⟩
  · simp
  · have hm : max 1 m ≠ 0 := by omega
    have hnil : List.filter (fun e : RowConfiguration.Entry => decide (e.rank = 0))
        (List.map (fun r => (⟨r, 1⟩ : RowConfiguration.Entry)) (List.range' 1 (m - 1))) = [] := by
      rw [List.filter_eq_nil_iff]
      intro e he
      obtain ⟨r, hr, rfl⟩ := List.mem_map.mp he
      have := (List.mem_range'_1.mp hr).1
      simp
      omega
    simp only [List.filter_cons, List.filter_append, List.filter_reverse, hnil, hm,
      decide_False, Bool.false_eq_true, if_false, List.reverse_nil, List.nil_append,
      decide_True, if_true, List.filter_nil]

/-- A shared class of `TreatmentPrivateSharedRank0ToN` with `maxRank = 0` still
gets an entry at rank 1. -/
theorem TreatmentPrivateSharedRank0ToN_configuration_maxRank_zero (T : TermModel)
    (density snr : Dbl) (idf : Nat)
    (h : Dbl.gt (T.IdfX10ToFrequency idf) density = false)
    (hm : min (T.ComputeMaxRank (T.IdfX10ToFrequency idf)
      TreatmentPrivateSharedRank0ToN.maxDensity) 6 = 0) :
    ∃ count, TreatmentPrivateSharedRank0ToN.configuration T density snr idf =
      .ok [⟨1, count⟩, ⟨0, 2⟩] := by
  have hc := TreatmentPrivateSharedRank0ToN_configuration_eq T density snr idf
  simp only [h, hm, Bool.false_eq_true, if_false] at hc
  exact ⟨_, hc⟩

/-! ## Values of the term model after the specification -/

theorem specIdfX10ToFrequency_5 :
    specTermModel.IdfX10ToFrequency 5 = Dbl.fin (3162277660 / 10000000000) := by
  simp [specTermModel, specIdfX10ToFrequency, specTenthPowers]

theorem specIdfX10ToFrequency_10 :
    specTermModel.IdfX10ToFrequency 10 = Dbl.fin (1 / 10) := by
  simp [specTermModel, specIdfX10ToFrequency, specTenthPowers]

theorem specIdfX10ToFrequency_11 :
    specTermModel.IdfX10ToFrequency 11 = Dbl.fin (7943282347 / 100000000000) := by
  simp [specTermModel, specIdfX10ToFrequency, specTenthPowers]
  norm_num

theorem specIdfX10ToFrequency_40 :
    specTermModel.IdfX10ToFrequency 40 = Dbl.fin (1 / 10000) := by
  simp [specTermModel, specIdfX10ToFrequency, specTenthPowers]
  norm_num

/-- The row-count search stops at the first `k` with `x ^ k ≤ t`. -/
theorem specComputeRowCount.search_stop (x t : ℚ) (fuel k : Nat) (h : x ^ k ≤ t) :
    specComputeRowCount.search x t (fuel + 1) k = k := by
  simp [specComputeRowCount.search, h]

/-- The row-count search moves on when `x ^ k ≤ t` fails. -/
theorem specComputeRowCount.search_step (x t : ℚ) (fuel k : Nat) (h : ¬ x ^ k ≤ t) :
    specComputeRowCount.search x t (fuel + 1) k =
      specComputeRowCount.search x t fuel (k + 1) := by
  simp [specComputeRowCount.search, h]

theorem specComputeRowCount_40 :
    specTermModel.ComputeRowCount (Dbl.fin (1 / 10000)) (Dbl.fin (1 / 10)) (Dbl.fin 10) = 5 := by
  have h : specComputeRowCount.search (1 / 10 - 1 / 10000) (1 / 10000 / 10)
      (4294967289 + 1 + 1 + 1 + 1 + 1) 1 = 5 := by
    rw [specComputeRowCount.search_step _ _ _ _ (by norm_num),
      specComputeRowCount.search_step _ _ _ _ (by norm_num),
      specComputeRowCount.search_step _ _ _ _ (by norm_num),
      specComputeRowCount.search_step _ _ _ _ (by norm_num),
      specComputeRowCount.search_stop _ _ _ _ (by norm_num)]
  have hfuel : (2 ^ 32 - 2 : Nat) = 4294967289 + 1 + 1 + 1 + 1 + 1 := by norm_num
  have hcond : ¬ ((1 / 10000 : ℚ) ≥ 1 / 10 ∨ (10 : ℚ) ≤ 0) := by norm_num
  simp only [specTermModel, specComputeRowCount, if_neg hcond, hfuel, h]
  rfl

theorem specComputeMaxRank_11 :
    specTermModel.ComputeMaxRank (Dbl.fin (7943282347 / 100000000000))
      TreatmentPrivateSharedRank0ToN.maxDensity = 0 := by
  simp only [specTermModel, specComputeMaxRank, c_maxRankValue, specComputeMaxRank.search,
    specFrequencyAtRank, TreatmentPrivateSharedRank0ToN.maxDensity, Dbl.le, Dbl.lt, Dbl.eq]
  norm_num


/-! ## Shape of the per-class configurations -/

/-- Strictly descending ranks are pairwise distinct. -/
theorem RowConfiguration.RanksDescending_nodup (c : RowConfiguration)
    (h : c.RanksDescending) : (c.map (fun e => e.rank)).Nodup :=
  List.Pairwise.imp (fun hab => Nat.ne_of_gt hab) h

/-- Shape of a class of `TreatmentPrivateSharedRank0`: one entry at rank 0. -/
theorem TreatmentPrivateSharedRank0_configuration_shape (T : TermModel) (density snr : Dbl)
    (idf : Nat) :
    ∃ c, TreatmentPrivateSharedRank0.configuration T density snr idf = .ok c ∧
      c.length = 1 ∧ (∀ e ∈ c, e.rank = 0) ∧ c.RanksDescending ∧
      ((∀ f d s, 1 ≤ T.ComputeRowCount f d s) → ∀ e ∈ c, 1 ≤ e.count) := by
  refine ⟨_, TreatmentPrivateSharedRank0_configuration_eq T density snr idf, ?_, ?_, ?_, ?_⟩
  · split_ifs <;> rfl
  · split_ifs <;> simp
  · split_ifs <;> simp [RowConfiguration.RanksDescending]
  · intro hk
    have := hk (T.IdfX10ToFrequency idf) density snr
    split_ifs <;> simp [this]

/-- Shape of a class of `TreatmentPrivateSharedRank0And3`: at most two entries,
at rank 3 and rank 0. -/
theorem TreatmentPrivateSharedRank0And3_configuration_shape (T : TermModel)
    (density snr : Dbl) (idf : Nat) :
    ∃ c, TreatmentPrivateSharedRank0And3.configuration T density snr idf = .ok c ∧
      c.length ≤ 2 ∧ (∀ e ∈ c, e.rank ≤ 3) ∧ c.RanksDescending ∧
      (∀ e ∈ c, 1 ≤ e.count) := by
  refine ⟨_, TreatmentPrivateSharedRank0And3_configuration_eq T density snr idf, ?_, ?_, ?_, ?_⟩
  · split_ifs <;> simp
  · split_ifs <;> simp
  · split_ifs <;> simp [RowConfiguration.RanksDescending]
  · split_ifs with h1 h2 h3 <;> simp
    omega

/-- Shape of a class of `TreatmentPrivateSharedRank0ToN`: at most seven
entries, ranks at most 6 and strictly descending, counts at least 1. -/
theorem TreatmentPrivateSharedRank0ToN_configuration_shape (T : TermModel)
    (density snr : Dbl) (idf : Nat) :
    ∃ c, TreatmentPrivateSharedRank0ToN.configuration T density snr idf = .ok c ∧
      c.length ≤ 7 ∧ (∀ e ∈ c, e.rank ≤ 6) ∧ c.RanksDescending ∧
      (∀ e ∈ c, 1 ≤ e.count) := by
  by_cases h : Dbl.gt (T.IdfX10ToFrequency idf) density = true
  · refine ⟨[⟨0, 1⟩], ?_, ?_, ?_, ?_, ?_⟩
    · rw [TreatmentPrivateSharedRank0ToN_configuration_eq, if_pos h]
    · simp
    · simp
    · simp [RowConfiguration.RanksDescending]
    · simp
  · have hf : Dbl.gt (T.IdfX10ToFrequency idf) density = false := by simpa using h
    obtain ⟨c, hc, hranks⟩ :=
      TreatmentPrivateSharedRank0ToN_configuration_ranks T density snr idf hf
    have hc2 := TreatmentPrivateSharedRank0ToN_configuration_eq T density snr idf
    simp only [hf, Bool.false_eq_true, if_false] at hc2
    have hm6 : min (T.ComputeMaxRank (T.IdfX10ToFrequency idf)
        TreatmentPrivateSharedRank0ToN.maxDensity) 6 ≤ 6 := Nat.min_le_right _ _
    generalize min (T.ComputeMaxRank (T.IdfX10ToFrequency idf)
      TreatmentPrivateSharedRank0ToN.maxDensity) 6 = m at hc2 hranks hm6
    have hlen : c.length = max 1 m + 1 := by
      have := congrArg List.length hranks
      simpa using this
    refine ⟨c, hc, by omega, ?_, ?_, ?_⟩
    · intro e he
      have hmem : e.rank ∈ c.map (fun e => e.rank) := List.mem_map_of_mem _ he
      rw [hranks] at hmem
      have := List.mem_range.mp (List.mem_reverse.mp hmem)
      omega
    · unfold RowConfiguration.RanksDescending
      rw [hranks, List.pairwise_reverse]
      exact List.pairwise_lt_range _
    · rw [hc] at hc2
      cases hc2
      intro e he
      simp only [List.mem_cons, List.mem_append, List.mem_reverse, List.mem_map,
        List.mem_singleton, List.not_mem_nil, or_false] at he
      rcases he with rfl | ⟨r, _, rfl⟩ | rfl
      · simp only
        split_ifs <;> omega
      · simp
      · simp

/-- Shape of a class of `TreatmentExperimental`: at most seven entries, ranks
at most 6 and strictly descending, counts at least 1. -/
theorem TreatmentExperimental_configuration_shape (A : DblArith) (T : TermModel)
    (density snr : Dbl) (idf : Nat) :
    ∃ c, TreatmentExperimental.configuration A T density snr idf = .ok c ∧
      c.length ≤ 7 ∧ (∀ e ∈ c, e.rank ≤ 6) ∧ c.RanksDescending ∧
      (∀ e ∈ c, 1 ≤ e.count) := by
  obtain ⟨cost, rows, _, hlen, hc⟩ := TreatmentExperimental_configuration_spec A T density snr idf
  refine ⟨_, hc, ?_, ?_, ?_, ?_⟩
  · rw [List.length_reverse, List.length_map]
    calc _ ≤ (List.range rows.length).length := List.length_filter_le _ _
      _ = 7 := by rw [List.length_range, hlen]; rfl
  · intro e he
    simp only [List.mem_reverse, List.mem_map, List.mem_filter, List.mem_range] at he
    obtain ⟨r, ⟨hr, _⟩, rfl⟩ := he
    simp only [c_maxRankValue] at hlen
    simp only
    omega
  · unfold RowConfiguration.RanksDescending
    rw [List.map_reverse, List.pairwise_reverse, List.map_map]
    have hid : ((fun e : RowConfiguration.Entry => e.rank) ∘ fun r =>
        (⟨r, if Dbl.gt (T.FrequencyAtRank (T.IdfX10ToFrequency idf) r) density
            then 1 else rows.getD r 0⟩ : RowConfiguration.Entry)) = id := rfl
    rw [hid, List.map_id]
    exact (List.pairwise_lt_range _).filter _
  · intro e he
    simp only [List.mem_reverse, List.mem_map, List.mem_filter, List.mem_range,
      decide_eq_true_eq] at he
    obtain ⟨r, ⟨_, hpos⟩, rfl⟩ := he
    simp only
    split_ifs <;> omega

/-- The row-count search never returns less than where it starts. -/
theorem specComputeRowCount.search_ge (x t : ℚ) :
    ∀ (fuel k : Nat), k ≤ specComputeRowCount.search x t fuel k := by
  intro fuel
  induction fuel with
  | zero => intro k; simp [specComputeRowCount.search]
  | succ n ih =>
    intro k
    rw [specComputeRowCount.search]
    split_ifs
    · exact Nat.le_refl k
    · exact Nat.le_trans (Nat.le_succ k) (ih (k + 1))

/-- The row count of the term model after the specification is at least 1. -/
theorem specComputeRowCount_pos (f d s : Dbl) : 1 ≤ specTermModel.ComputeRowCount f d s := by
  show 1 ≤ specComputeRowCount f d s
  unfold specComputeRowCount
  split
  · split_ifs
    · exact le_refl _
    · exact_mod_cast specComputeRowCount.search_ge _ _ _ 1
  · exact le_refl _

theorem specIdfX10ToFrequency_60 :
    specTermModel.IdfX10ToFrequency 60 = Dbl.fin (1 / 1000000) := by
  simp [specTermModel, specIdfX10ToFrequency, specTenthPowers]
  norm_num

theorem specComputeRowCount_60 :
    specTermModel.ComputeRowCount (Dbl.fin (1 / 1000000)) (Dbl.fin (1 / 10)) (Dbl.fin 10) = 7 := by
  have h : specComputeRowCount.search (1 / 10 - 1 / 1000000) (1 / 1000000 / 10)
      (4294967287 + 1 + 1 + 1 + 1 + 1 + 1 + 1) 1 = 7 := by
    rw [specComputeRowCount.search_step _ _ _ _ (by norm_num),
      specComputeRowCount.search_step _ _ _ _ (by norm_num),
      specComputeRowCount.search_step _ _ _ _ (by norm_num),
      specComputeRowCount.search_step _ _ _ _ (by norm_num),
      specComputeRowCount.search_step _ _ _ _ (by norm_num),
      specComputeRowCount.search_step _ _ _ _ (by norm_num),
      specComputeRowCount.search_stop _ _ _ _ (by norm_num)]
  have hfuel : (2 ^ 32 - 2 : Nat) = 4294967287 + 1 + 1 + 1 + 1 + 1 + 1 + 1 := by norm_num
  have hcond : ¬ ((1 / 1000000 : ℚ) ≥ 1 / 10 ∨ (10 : ℚ) ≤ 0) := by norm_num
  simp only [specTermModel, specComputeRowCount, if_neg hcond, hfuel, h]
  rfl

/-- Entry 60 of `TreatmentPrivateSharedRank0` with density 0.1 and snr 10 in
the term model after the specification. -/
theorem specPrivateSharedRank0_entry_60 :
    ∃ t, TreatmentPrivateSharedRank0.new specTermModel (Dbl.fin (1 / 10)) (Dbl.fin 10) 0 = .ok t ∧
      t.m_configurations[60]? = some [⟨0, 7⟩] := by
  apply TreatmentPrivateSharedRank0_new_entry specTermModel _ _ 0 60 (by decide)
  have hge : Dbl.ge (Dbl.fin (1 / 1000000)) (Dbl.fin (1 / 10)) = false := by
    simp only [Dbl.ge, Dbl.le, Dbl.lt, Dbl.eq]
    norm_num
  rw [TreatmentPrivateSharedRank0_configuration_eq, specIdfX10ToFrequency_60, hge,
    specComputeRowCount_60]
  rfl

/-! ## Monotonicity in the term model after the specification -/

/-- The tabulated tenth powers of ten decrease. -/
theorem specTenthPowers_lt (b : Nat) (hb : b < 9) :
    specTenthPowers.getD (b + 1) 0 < specTenthPowers.getD b 0 := by
  interval_cases b <;> simp [specTenthPowers] <;> norm_num

/-- The frequency of the next IDF class is smaller. -/
theorem specFrequency_succ_lt (i : Nat) :
    specTenthPowers.getD ((i + 1) % 10) 0 / 10 ^ ((i + 1) / 10) <
      specTenthPowers.getD (i % 10) 0 / 10 ^ (i / 10) := by
  have hpos : (0 : ℚ) < 10 ^ (i / 10) := by positivity
  by_cases hb : i % 10 < 9
  · have h1 : (i + 1) % 10 = i % 10 + 1 := by omega
    have h2 : (i + 1) / 10 = i / 10 := by omega
    rw [h1, h2]
    exact div_lt_div_of_pos_right (specTenthPowers_lt _ hb) hpos
  · have h0 : i % 10 = 9 := by omega
    have h1 : (i + 1) % 10 = 0 := by omega
    have h2 : (i + 1) / 10 = i / 10 + 1 := by omega
    rw [h0, h1, h2, pow_succ]
    simp only [specTenthPowers, List.getD_cons_zero, List.getD_cons_succ]
    rw [div_lt_div_iff₀ (by positivity) hpos]
    nlinarith

/-- Frequencies strictly decrease with the IDF class. -/
theorem specFrequency_lt_of_lt {i j : Nat} (h : i < j) :
    specTenthPowers.getD (j % 10) 0 / 10 ^ (j / 10) <
      specTenthPowers.getD (i % 10) 0 / 10 ^ (i / 10) := by
  induction j with
  | zero => omega
  | succ n ih =>
    rcases Nat.lt_succ_iff_lt_or_eq.mp h with h1 | h1
    · exact lt_trans (specFrequency_succ_lt n) (ih h1)
    · subst h1; exact specFrequency_succ_lt i

/-- The row-count search is monotone in its stopping condition. -/
theorem specComputeRowCount.search_mono (x1 t1 x2 t2 : ℚ)
    (h : ∀ k : Nat, x2 ^ k ≤ t2 → x1 ^ k ≤ t1) :
    ∀ (fuel k : Nat), specComputeRowCount.search x1 t1 fuel k ≤
      specComputeRowCount.search x2 t2 fuel k := by
  intro fuel
  induction fuel with
  | zero => intro k; simp [specComputeRowCount.search]
  | succ n ih =>
    intro k
    by_cases h1 : x1 ^ k ≤ t1
    · rw [specComputeRowCount.search_stop _ _ _ _ h1]
      exact specComputeRowCount.search_ge _ _ _ _
    · have h2 : ¬ x2 ^ k ≤ t2 := fun h2 => h1 (h k h2)
      rw [specComputeRowCount.search_step _ _ _ _ h1,
        specComputeRowCount.search_step _ _ _ _ h2]
      exact ih (k + 1)

/-- The count that `TreatmentPrivateSharedRank0` stores does not decrease when
the frequency does. -/
theorem specPrivateSharedRank0_count_mono (density snr : Dbl) (fi fj : ℚ) (h : fj < fi) :
    (if Dbl.ge (Dbl.fin fi) density then (1 : Int)
      else specComputeRowCount (Dbl.fin fi) density snr) ≤
    (if Dbl.ge (Dbl.fin fj) density then (1 : Int)
      else specComputeRowCount (Dbl.fin fj) density snr) := by
  have hposj : (1 : Int) ≤ (if Dbl.ge (Dbl.fin fj) density then (1 : Int)
      else specComputeRowCount (Dbl.fin fj) density snr) := by
    split_ifs
    · exact le_refl _
    · exact specComputeRowCount_pos _ _ _
  by_cases hi : Dbl.ge (Dbl.fin fi) density = true
  · rw [if_pos hi]
    exact hposj
  · rw [if_neg hi]
    cases density with
    | nan => simp [specComputeRowCount]
    | ninf => simp [specComputeRowCount]
    | pinf => simp [specComputeRowCount]
    | fin d =>
      cases snr with
      | nan => simp [specComputeRowCount]
      | ninf => simp [specComputeRowCount]
      | pinf => simp [specComputeRowCount]
      | fin s =>
        have hid : fi < d := by
          simp only [Dbl.ge, Dbl.le, Dbl.lt, Dbl.eq, Bool.or_eq_true, decide_eq_true_eq,
            not_or, not_lt] at hi
          exact lt_of_le_of_ne hi.1 (fun heq => hi.2 heq.symm)
        have hjd : fj < d := lt_trans h hid
        have hj : ¬ Dbl.ge (Dbl.fin fj) (Dbl.fin d) = true := by
          simp only [Dbl.ge, Dbl.le, Dbl.lt, Dbl.eq, Bool.or_eq_true, decide_eq_true_eq,
            not_or, not_lt]
          exact ⟨le_of_lt hjd, fun heq => absurd heq (ne_of_gt hjd)⟩
        rw [if_neg hj]
        by_cases hs : s ≤ 0
        · simp [specComputeRowCount, hs]
        · have hs0 : 0 < s := lt_of_not_le hs
          have hci : ¬ (fi ≥ d ∨ s ≤ 0) := by
            rintro (h1 | h1)
            · exact absurd h1 (not_le.mpr hid)
            · exact hs h1
          have hcj : ¬ (fj ≥ d ∨ s ≤ 0) := by
            rintro (h1 | h1)
            · exact absurd h1 (not_le.mpr hjd)
            · exact hs h1
          simp only [specComputeRowCount, if_neg hci, if_neg hcj]
          apply Int.ofNat_le.mpr
          apply specComputeRowCount.search_mono
          intro k hk
          have h1 : (d - fi) ^ k ≤ (d - fj) ^ k :=
            pow_le_pow_left₀ (by linarith) (by linarith) k
          have h2 : fj / s ≤ fi / s := div_le_div_of_nonneg_right (le_of_lt h) (le_of_lt hs0)
          linarith

/-! ## The cost model on vectors with rows at rank 0 only -/

/-- Reading an all-zero vector gives zero at every index. -/
theorem getD_replicate_zero (n i : Nat) : (List.replicate n (0 : Int)).getD i 0 = 0 := by
  by_cases h : i < n <;> simp [List.getD_eq_getElem?_getD, List.getElem?_replicate, h]

/-- NaN plus anything is NaN. -/
theorem Dbl.nan_add (x : Dbl) : Dbl.add Dbl.nan x = Dbl.nan := by
  cases x <;> rfl

/-- After the first row of a rank, each further row multiplies the residual
noise by the noise of the rank. -/
theorem AnalyzeAlternate_rowLoop_residual_next (A : DblArith)
    (density signalAtRank noiseAtRank fullRowCost newNoise : Dbl) :
    ∀ (n j : Nat) (s : AnalyzeAlternate.State), j ≠ 0 →
      (AnalyzeAlternate.rowLoop A density signalAtRank noiseAtRank fullRowCost newNoise
        n j s).residualNoise = (fun r => A.mul r noiseAtRank)^[n] s.residualNoise := by
  intro n
  induction n with
  | zero => intro j s _; rfl
  | succ n ih =>
    intro j s hj
    rw [AnalyzeAlternate.rowLoop, ih (j + 1) _ (Nat.succ_ne_zero j), Function.iterate_succ_apply]
    simp only [if_neg hj]

/-- At the first intersection the rows of a rank replace the residual noise by
the noise of the rank multiplied by itself once per further row. -/
theorem AnalyzeAlternate_rowLoop_residual_first (A : DblArith)
    (density signalAtRank noiseAtRank fullRowCost newNoise : Dbl) (n : Nat)
    (s : AnalyzeAlternate.State) (hfirst : s.firstIntersection = true) :
    (AnalyzeAlternate.rowLoop A density signalAtRank noiseAtRank fullRowCost newNoise
      (n + 1) 0 s).residualNoise = (fun r => A.mul r noiseAtRank)^[n] noiseAtRank := by
  rw [AnalyzeAlternate.rowLoop,
    AnalyzeAlternate_rowLoop_residual_next A _ _ _ _ _ n 1 _ (by decide)]
  simp [hfirst]

/-- The residual noise of a vector with `k + 1` rows at rank 0 and none above. -/
theorem AnalyzeAlternate_rankLoop_rank0 (A : DblArith) (T : TermModel) (density signal : Dbl)
    (k n : Nat) :
    ∀ (i : Nat) (s : AnalyzeAlternate.State), i ≤ n → s.firstIntersection = true →
      (AnalyzeAlternate.rankLoop A T (((k + 1 : Nat) : Int) :: List.replicate n 0) density signal
        (i + 1) s).residualNoise =
      (fun r => A.mul r (Dbl.max (A.sub density (T.FrequencyAtRank signal 0)) (Dbl.fin 0)))^[k]
        (Dbl.max (A.sub density (T.FrequencyAtRank signal 0)) (Dbl.fin 0)) := by
  intro i
  induction i with
  | zero =>
    intro s _ hfirst
    have h0 : ((((k + 1 : Nat) : Int) :: List.replicate n 0).getD 0 0) = ((k + 1 : Nat) : Int) :=
      rfl
    have hne : ¬ (((k + 1 : Nat) : Int) = 0) := by omega
    rw [AnalyzeAlternate.rankLoop]
    simp only [h0, if_neg hne, Int.toNat_ofNat, AnalyzeAlternate.rankLoop]
    exact AnalyzeAlternate_rowLoop_residual_first A _ _ _ _ _ k _ hfirst
  | succ i ih =>
    intro s hi hfirst
    have h0 : ((((k + 1 : Nat) : Int) :: List.replicate n 0).getD (i + 1) 0) = 0 := by
      simp only [List.getD_cons_succ]
      exact getD_replicate_zero n i
    rw [AnalyzeAlternate.rankLoop]
    simp only [h0, if_true]
    exact ih _ (by omega) hfirst

/-- The SNR of a vector with `k + 1` rows at rank 0 and none above, for every
rounding of the arithmetic: the signal divided by the noise of rank 0
multiplied by itself `k` times. -/
theorem AnalyzeAlternate_rank0_snr (A : DblArith) (T : TermModel) (density signal : Dbl)
    (k n : Nat) :
    (AnalyzeAlternate A T (((k + 1 : Nat) : Int) :: List.replicate n 0) density signal).GetSNR =
      A.div signal
        ((fun r => A.mul r (Dbl.max (A.sub density (T.FrequencyAtRank signal 0)) (Dbl.fin 0)))^[k]
          (Dbl.max (A.sub density (T.FrequencyAtRank signal 0)) (Dbl.fin 0))) := by
  unfold AnalyzeAlternate TermTreatmentMetrics.GetSNR
  simp only [List.length_cons, List.length_replicate]
  rw [AnalyzeAlternate_rankLoop_rank0 A T density signal k n n _ (Nat.le_refl n) rfl]

/-- Without rounding, multiplying a finite value by itself `k` times gives its
power. -/
theorem Dbl.iterate_mul_fin (x : ℚ) (k : Nat) :
    (fun r => DblArith.exact.mul r (Dbl.fin x))^[k] (Dbl.fin x) = Dbl.fin (x ^ (k + 1)) := by
  induction k with
  | zero => simp
  | succ k ih =>
    rw [Function.iterate_succ_apply', ih]
    show Dbl.mul (Dbl.fin (x ^ (k + 1))) (Dbl.fin x) = _
    simp only [Dbl.mul]
    rw [pow_succ (n := k + 1)]

/-- Without rounding, the SNR of a vector with `k + 1` rows at rank 0 and none
above is `f / (density - f)^(k + 1)` when `f < density`. -/
theorem AnalyzeAlternate_rank0_snr_exact (T : TermModel) (f d : ℚ) (k n : Nat) (hfd : f < d)
    (hT : T.FrequencyAtRank (Dbl.fin f) 0 = Dbl.fin f) :
    (AnalyzeAlternate DblArith.exact T (((k + 1 : Nat) : Int) :: List.replicate n 0)
      (Dbl.fin d) (Dbl.fin f)).GetSNR = Dbl.fin (f / (d - f) ^ (k + 1)) := by
  rw [AnalyzeAlternate_rank0_snr, hT]
  have hnoise : Dbl.max (DblArith.exact.sub (Dbl.fin d) (Dbl.fin f)) (Dbl.fin 0)
      = Dbl.fin (d - f) := by
    show Dbl.max (Dbl.sub (Dbl.fin d) (Dbl.fin f)) (Dbl.fin 0) = _
    have hlt : ¬ (d + -f < 0) := by linarith
    simp [Dbl.max, Dbl.sub, Dbl.add, Dbl.neg, Dbl.lt, hlt, sub_eq_add_neg]
  rw [hnoise, Dbl.iterate_mul_fin]
  show Dbl.div (Dbl.fin f) (Dbl.fin ((d - f) ^ (k + 1))) = _
  have hne : (d - f) ^ (k + 1) ≠ 0 := pow_ne_zero _ (by linarith)
  simp [Dbl.div, hne]

/-- Without rounding, a vector without rows has the SNR NaN. -/
theorem AnalyzeAlternate_rankLoop_zeros (T : TermModel) (density signal : Dbl) (n : Nat) :
    ∀ (i : Nat) (s : AnalyzeAlternate.State), s.residualNoise = Dbl.nan →
      (AnalyzeAlternate.rankLoop DblArith.exact T (List.replicate n 0) density signal
        i s).residualNoise = Dbl.nan := by
  intro i
  induction i with
  | zero => intro s hs; exact hs
  | succ i ih =>
    intro s hs
    have h0 : (List.replicate n (0 : Int)).getD i 0 = 0 := getD_replicate_zero n i
    rw [AnalyzeAlternate.rankLoop]
    simp only [h0, if_true]
    apply ih
    show Dbl.add s.residualNoise _ = Dbl.nan
    rw [hs]
    exact Dbl.nan_add _

/-- Without rounding, a vector without rows has the SNR NaN. -/
theorem AnalyzeAlternate_zeros_snr_exact (T : TermModel) (density signal : Dbl) (n : Nat) :
    (AnalyzeAlternate DblArith.exact T (List.replicate n 0) density signal).GetSNR = Dbl.nan := by
  unfold AnalyzeAlternate TermTreatmentMetrics.GetSNR
  simp only []
  rw [AnalyzeAlternate_rankLoop_zeros T density signal n _ _ rfl]
  show Dbl.div signal Dbl.nan = Dbl.nan
  cases signal <;> rfl

/-! ## Order of costs -/

/-- A value that is not NaN is `<=` itself. -/
theorem Dbl.le_self {a : Dbl} (h : a ≠ Dbl.nan) : Dbl.le a a = true := by
  cases a <;> simp_all [Dbl.le, Dbl.lt, Dbl.eq]

/-- The comparison `<=` is transitive. -/
theorem Dbl.le_trans' {a b c : Dbl} (h1 : Dbl.le a b = true) (h2 : Dbl.le b c = true) :
    Dbl.le a c = true := by
  cases a <;> cases b <;> cases c <;> simp_all [Dbl.le, Dbl.lt, Dbl.eq]
  rename_i x y z
  rcases h1 with h1 | h1 <;> rcases h2 with h2 | h2
  · exact Or.inl (lt_trans h1 h2)
  · exact Or.inl (h2 ▸ h1)
  · exact Or.inl (h1 ▸ h2)
  · exact Or.inr (h1.trans h2)

/-- A value `<` another is `<=` it. -/
theorem Dbl.le_of_lt' {a b : Dbl} (h : Dbl.lt a b = true) : Dbl.le a b = true := by
  simp [Dbl.le, h]

/-- Of two values that are not NaN, the second is `<=` the first when the
first is not `<` it. -/
theorem Dbl.le_of_not_lt {a b : Dbl} (ha : a ≠ Dbl.nan) (hb : b ≠ Dbl.nan)
    (h : Dbl.lt a b = false) : Dbl.le b a = true := by
  cases a <;> cases b <;> simp_all [Dbl.le, Dbl.lt, Dbl.eq]
  rename_i x y
  exact lt_or_eq_of_le h

/-! ## Candidates of the search -/

/-- Reading a vector after one element was replaced. -/
theorem getD_set_rows (rows : List Int) (r j : Nat) (x : Int) (hr : r < rows.length) :
    (rows.set r x).getD j 0 = if j = r then x else rows.getD j 0 := by
  simp only [List.getD_eq_getElem?_getD, List.getElem?_set]
  by_cases h : r = j
  · subst h
    simp [hr]
  · have h2 : ¬ j = r := fun h3 => h h3.symm
    simp [h, h2]

/-- Two vectors of one length with the same elements are equal. -/
theorem eq_of_getD_eq (v rows : List Int) (hlen : v.length = rows.length)
    (h : ∀ j : Nat, j < rows.length → v.getD j 0 = rows.getD j 0) : v = rows := by
  apply List.ext_getElem hlen
  intro j h1 h2
  have := h j h2
  simp only [List.getD_eq_getElem?_getD, List.getElem?_eq_getElem h1,
    List.getElem?_eq_getElem h2, Option.getD_some] at this
  exact this

/-- At `currentRank = -1` the only candidate is the vector itself. -/
theorem Temp_IsCandidate_terminal (T : TermModel) (frequency density : Dbl) (rows : List Int)
    (maxRowsPerRank : Int) (v : List Int) :
    Temp.IsCandidate T frequency density (-1) rows maxRowsPerRank v ↔ v = rows := by
  constructor
  · rintro ⟨hlen, h⟩
    exact eq_of_getD_eq v rows hlen (fun j hj => (h j hj).1 (by omega))
  · rintro rfl
    exact ⟨rfl, fun j _ => ⟨fun _ => rfl, fun hj => by omega⟩⟩

/-- Candidates when the rank is forced private: those of the rank below with
one more row at the rank. -/
theorem Temp_IsCandidate_forced (T : TermModel) (frequency density : Dbl) (r : Nat)
    (rows : List Int) (maxRowsPerRank : Int) (v : List Int) (hr : r < rows.length)
    (hf : Dbl.gt (T.FrequencyAtRank frequency r) density = true) :
    Temp.IsCandidate T frequency density (r : Int) rows maxRowsPerRank v ↔
      Temp.IsCandidate T frequency density ((r : Int) - 1) (rows.set r (rows.getD r 0 + 1))
        maxRowsPerRank v := by
  unfold Temp.IsCandidate
  simp only [List.length_set]
  constructor
  · rintro ⟨hlen, h⟩
    refine ⟨hlen, fun j hj => ?_⟩
    rw [getD_set_rows rows r j _ hr]
    obtain ⟨h1, h2⟩ := h j hj
    by_cases hjr : j = r
    · subst hjr
      simp only [if_true]
      exact ⟨fun _ => (h2 (le_refl _)).1 hf, fun hlt => by omega⟩
    · simp only [if_neg hjr]
      exact ⟨fun hlt => h1 (by omega), fun hle => h2 (by omega)⟩
  · rintro ⟨hlen, h⟩
    refine ⟨hlen, fun j hj => ?_⟩
    have hj2 := h j hj
    rw [getD_set_rows rows r j _ hr] at hj2
    obtain ⟨h1, h2⟩ := hj2
    by_cases hjr : j = r
    · subst hjr
      simp only [if_true] at h1 h2
      refine ⟨fun hlt => by omega, fun _ => ⟨fun _ => h1 (by omega), fun hnf => ?_⟩⟩
      rw [hf] at hnf
      cases hnf
    · simp only [if_neg hjr] at h1 h2
      exact ⟨fun hlt => h1 (by omega), fun hle => h2 (by omega)⟩

/-- Candidates when the rank is full: those of the rank below. -/
theorem Temp_IsCandidate_saturated (T : TermModel) (frequency density : Dbl) (r : Nat)
    (rows : List Int) (maxRowsPerRank : Int) (v : List Int)
    (hf : Dbl.gt (T.FrequencyAtRank frequency r) density = false)
    (hs : rows.getD r 0 ≥ maxRowsPerRank) :
    Temp.IsCandidate T frequency density (r : Int) rows maxRowsPerRank v ↔
      Temp.IsCandidate T frequency density ((r : Int) - 1) rows maxRowsPerRank v := by
  unfold Temp.IsCandidate
  constructor
  · rintro ⟨hlen, h⟩
    refine ⟨hlen, fun j hj => ?_⟩
    obtain ⟨h1, h2⟩ := h j hj
    by_cases hjr : j = r
    · subst hjr
      refine ⟨fun _ => ?_, fun hle => by omega⟩
      have := (h2 (le_refl _)).2 hf
      have hmax : max (rows.getD j 0) maxRowsPerRank = rows.getD j 0 := max_eq_left hs
      rw [hmax] at this
      omega
    · exact ⟨fun hlt => h1 (by omega), fun hle => h2 (by omega)⟩
  · rintro ⟨hlen, h⟩
    refine ⟨hlen, fun j hj => ?_⟩
    obtain ⟨h1, h2⟩ := h j hj
    by_cases hjr : j = r
    · subst hjr
      have heq := h1 (by omega)
      refine ⟨fun hlt => by omega, fun _ => ⟨fun hff => ?_, fun _ => ?_⟩⟩
      · rw [hf] at hff
        cases hff
      · rw [heq]
        exact ⟨le_refl _, le_max_left _ _⟩
    · exact ⟨fun hlt => h1 (by omega), fun hle => h2 (by omega)⟩

/-- Candidates when the search branches: those of the rank below, or those of
the same rank with one more row at it. -/
theorem Temp_IsCandidate_branch (T : TermModel) (frequency density : Dbl) (r : Nat)
    (rows : List Int) (maxRowsPerRank : Int) (v : List Int) (hr : r < rows.length)
    (hf : Dbl.gt (T.FrequencyAtRank frequency r) density = false)
    (hs : ¬ rows.getD r 0 ≥ maxRowsPerRank) :
    Temp.IsCandidate T frequency density (r : Int) rows maxRowsPerRank v ↔
      (Temp.IsCandidate T frequency density ((r : Int) - 1) rows maxRowsPerRank v ∨
       Temp.IsCandidate T frequency density (r : Int) (rows.set r (rows.getD r 0 + 1))
        maxRowsPerRank v) := by
  unfold Temp.IsCandidate
  simp only [List.length_set]
  constructor
  · rintro ⟨hlen, h⟩
    have hr2 := (h r hr).2 (le_refl _)
    have hb := hr2.2 hf
    have hmax : max (rows.getD r 0) maxRowsPerRank = maxRowsPerRank := max_eq_right (by omega)
    rw [hmax] at hb
    by_cases hv : v.getD r 0 = rows.getD r 0
    · left
      refine ⟨hlen, fun j hj => ?_⟩
      obtain ⟨h1, h2⟩ := h j hj
      by_cases hjr : j = r
      · subst hjr
        exact ⟨fun _ => hv, fun hle => by omega⟩
      · exact ⟨fun hlt => h1 (by omega), fun hle => h2 (by omega)⟩
    · right
      refine ⟨hlen, fun j hj => ?_⟩
      rw [getD_set_rows rows r j _ hr]
      obtain ⟨h1, h2⟩ := h j hj
      by_cases hjr : j = r
      · subst hjr
        simp only [if_true]
        refine ⟨fun hlt => by omega, fun _ => ⟨fun hff => ?_, fun _ => ?_⟩⟩
        · rw [hf] at hff
          cases hff
        · have hmax2 : max (rows.getD j 0 + 1) maxRowsPerRank = maxRowsPerRank :=
            max_eq_right (by omega)
          rw [hmax2]
          omega
      · simp only [if_neg hjr]
        exact ⟨h1, h2⟩
  · rintro (⟨hlen, h⟩ | ⟨hlen, h⟩)
    · refine ⟨hlen, fun j hj => ?_⟩
      obtain ⟨h1, h2⟩ := h j hj
      by_cases hjr : j = r
      · subst hjr
        have heq := h1 (by omega)
        refine ⟨fun hlt => by omega, fun _ => ⟨fun hff => ?_, fun _ => ?_⟩⟩
        · rw [hf] at hff
          cases hff
        · rw [heq]
          exact ⟨le_refl _, le_max_left _ _⟩
      · exact ⟨fun hlt => h1 (by omega), fun hle => h2 (by omega)⟩
    · refine ⟨hlen, fun j hj => ?_⟩
      have hj2 := h j hj
      rw [getD_set_rows rows r j _ hr] at hj2
      obtain ⟨h1, h2⟩ := hj2
      by_cases hjr : j = r
      · subst hjr
        simp only [if_true] at h1 h2
        refine ⟨fun hlt => by omega, fun _ => ⟨fun hff => ?_, fun _ => ?_⟩⟩
        · rw [hf] at hff
          cases hff
        · have hb := (h2 (le_refl _)).2 hf
          have hmax : max (rows.getD j 0) maxRowsPerRank = maxRowsPerRank :=
            max_eq_right (by omega)
          have hmax2 : max (rows.getD j 0 + 1) maxRowsPerRank = maxRowsPerRank :=
            max_eq_right (by omega)
          rw [hmax2] at hb
          rw [hmax]
          omega
      · simp only [if_neg hjr] at h1 h2
        exact ⟨h1, h2⟩

/-! ## The search returns a candidate of least cost -/

/-- Called with `-1 <= currentRank < rows.size()` where no candidate has the
cost NaN, the search returns a candidate together with its cost, and that cost
is `<=` the cost of every candidate. -/
theorem Temp_min (A : DblArith) (T : TermModel) (frequency density snr : Dbl)
    (currentRank : Int) (rows : List Int) (maxRowsPerRank : Int) :
    -1 ≤ currentRank → currentRank < rows.length →
    (∀ v, Temp.IsCandidate T frequency density currentRank rows maxRowsPerRank v →
      Temp.cost A T frequency density snr v ≠ Dbl.nan) →
    ∃ c r, Temp A T frequency density snr currentRank rows maxRowsPerRank = .ok (c, r) ∧
      c = Temp.cost A T frequency density snr r ∧
      Temp.IsCandidate T frequency density currentRank rows maxRowsPerRank r ∧
      ∀ v, Temp.IsCandidate T frequency density currentRank rows maxRowsPerRank v →
        Dbl.le c (Temp.cost A T frequency density snr v) = true := by
  induction currentRank, rows, maxRowsPerRank using Temp.induct A T frequency density snr with
  | case1 rows maxRowsPerRank =>
    intro _ _ hnan
    have hself := (Temp_IsCandidate_terminal T frequency density rows maxRowsPerRank rows).mpr rfl
    refine ⟨Temp.cost A T frequency density snr rows, rows, ?_, rfl, hself, fun v hv => ?_⟩
    · rw [Temp]
      simp only [if_true]
      rfl
    · rw [(Temp_IsCandidate_terminal T frequency density rows maxRowsPerRank v).mp hv]
      exact Dbl.le_self (hnan rows hself)
  | case2 currentRank rows maxRowsPerRank h1 h2 =>
    intro h3 h4 _
    omega
  | case3 currentRank rows maxRowsPerRank h1 h2 frequencyAtRank h3 ih =>
    intro _ h5 hnan
    obtain ⟨r, rfl⟩ := Int.eq_ofNat_of_zero_le (by omega : 0 ≤ currentRank)
    simp only [Int.toNat_ofNat] at ih
    have h3' : Dbl.gt (T.FrequencyAtRank frequency r) density = true := by
      simpa [frequencyAtRank] using h3
    have hr : r < rows.length := by omega
    have hiff := fun v =>
      Temp_IsCandidate_forced T frequency density r rows maxRowsPerRank v hr h3'
    obtain ⟨c, rr, hT, hc, hcand, hmin⟩ := ih (by omega) (by simp; omega)
      (fun v hv => hnan v ((hiff v).mpr hv))
    refine ⟨c, rr, ?_, hc, (hiff rr).mpr hcand, fun v hv => hmin v ((hiff v).mp hv)⟩
    rw [Temp]
    simp only [h1, h2, if_false, dite_false, Int.toNat_ofNat]
    rw [if_pos h3']
    exact hT
  | case4 currentRank rows maxRowsPerRank h1 h2 frequencyAtRank h3 h4 ih =>
    intro _ h5 hnan
    obtain ⟨r, rfl⟩ := Int.eq_ofNat_of_zero_le (by omega : 0 ≤ currentRank)
    simp only [Int.toNat_ofNat] at ih h4
    have h3' : Dbl.gt (T.FrequencyAtRank frequency r) density = false := by
      simpa [frequencyAtRank] using h3
    have hiff := fun v =>
      Temp_IsCandidate_saturated T frequency density r rows maxRowsPerRank v h3' h4
    obtain ⟨c, rr, hT, hc, hcand, hmin⟩ := ih (by omega) (by omega)
      (fun v hv => hnan v ((hiff v).mpr hv))
    refine ⟨c, rr, ?_, hc, (hiff rr).mpr hcand, fun v hv => hmin v ((hiff v).mp hv)⟩
    rw [Temp]
    simp only [h1, h2, if_false, dite_false, Int.toNat_ofNat]
    rw [if_neg (by simp [h3']), dif_pos h4]
    exact hT
  | case5 currentRank rows maxRowsPerRank h1 h2 frequencyAtRank h3 h4 e he ih =>
    intro _ h5 _
    obtain ⟨cost, r, hr, _⟩ := Temp_ok A T frequency density snr (currentRank - 1) rows
      maxRowsPerRank (by omega) (by omega)
    rw [he] at hr
    cases hr
  | case6 currentRank rows maxRowsPerRank h1 h2 frequencyAtRank h3 h4 rankDown hd e he ih1 ih2 =>
    intro h6 h5 _
    obtain ⟨cost, r, hr, _⟩ := Temp_ok A T frequency density snr currentRank
      (rows.set currentRank.toNat (rows.getD currentRank.toNat 0 + 1)) maxRowsPerRank h6
      (by simp; omega)
    rw [he] at hr
    cases hr
  | case7 currentRank rows maxRowsPerRank h1 h2 frequencyAtRank h3 h4 rankDown hd newRow hn
      ih1 ih2 =>
    intro h6 h5 hnan
    obtain ⟨r, rfl⟩ := Int.eq_ofNat_of_zero_le (by omega : 0 ≤ currentRank)
    simp only [Int.toNat_ofNat] at ih2 h4 hn
    have h3' : Dbl.gt (T.FrequencyAtRank frequency r) density = false := by
      simpa [frequencyAtRank] using h3
    have hr : r < rows.length := by omega
    have hiff := fun v =>
      Temp_IsCandidate_branch T frequency density r rows maxRowsPerRank v hr h3' h4
    obtain ⟨c1, r1, hT1, hc1, hcand1, hmin1⟩ := ih1 (by omega) (by omega)
      (fun v hv => hnan v ((hiff v).mpr (Or.inl hv)))
    obtain ⟨c2, r2, hT2, hc2, hcand2, hmin2⟩ := ih2 (by omega) (by simp; omega)
      (fun v hv => hnan v ((hiff v).mpr (Or.inr hv)))
    have hn1 : c1 ≠ Dbl.nan := hc1 ▸ hnan r1 ((hiff r1).mpr (Or.inl hcand1))
    have hn2 : c2 ≠ Dbl.nan := hc2 ▸ hnan r2 ((hiff r2).mpr (Or.inr hcand2))
    have hT : Temp A T frequency density snr (r : Int) rows maxRowsPerRank =
        .ok (if Dbl.lt c2 c1 = true then (c2, r2) else (c1, r1)) := by
      rw [Temp]
      simp only [h1, h2, if_false, dite_false, Int.toNat_ofNat]
      rw [if_neg (by simp [h3']), dif_neg h4, hT1, hT2]
    by_cases hlt : Dbl.lt c2 c1 = true
    · rw [if_pos hlt] at hT
      refine ⟨c2, r2, hT, hc2, (hiff r2).mpr (Or.inr hcand2), fun v hv => ?_⟩
      rcases (hiff v).mp hv with hv1 | hv2
      · exact Dbl.le_trans' (Dbl.le_of_lt' hlt) (hmin1 v hv1)
      · exact hmin2 v hv2
    · rw [if_neg hlt] at hT
      have hle : Dbl.le c1 c2 = true := Dbl.le_of_not_lt hn2 hn1 (by simpa using hlt)
      refine ⟨c1, r1, hT, hc1, (hiff r1).mpr (Or.inl hcand1), fun v hv => ?_⟩
      rcases (hiff v).mp hv with hv1 | hv2
      · exact hmin1 v hv1
      · exact Dbl.le_trans' hle (hmin2 v hv2)

/-- When no rank up to `currentRank` is forced private and every candidate has
the cost `+∞`, the search returns the vector it was called on. -/
theorem Temp_all_infeasible (A : DblArith) (T : TermModel) (frequency density snr : Dbl)
    (currentRank : Int) (rows : List Int) (maxRowsPerRank : Int) :
    -1 ≤ currentRank → currentRank < rows.length →
    (∀ j : Nat, (j : Int) ≤ currentRank →
      Dbl.gt (T.FrequencyAtRank frequency j) density = false) →
    (∀ v, Temp.IsCandidate T frequency density currentRank rows maxRowsPerRank v →
      Temp.cost A T frequency density snr v = Dbl.pinf) →
    Temp A T frequency density snr currentRank rows maxRowsPerRank = .ok (Dbl.pinf, rows) := by
  induction currentRank, rows, maxRowsPerRank using Temp.induct A T frequency density snr with
  | case1 rows maxRowsPerRank =>
    intro _ _ _ hinf
    have hself := (Temp_IsCandidate_terminal T frequency density rows maxRowsPerRank rows).mpr rfl
    rw [Temp]
    simp only [if_true]
    have := hinf rows hself
    unfold Temp.cost at this
    rw [this]
  | case2 currentRank rows maxRowsPerRank h1 h2 =>
    intro h3 h4 _ _
    omega
  | case3 currentRank rows maxRowsPerRank h1 h2 frequencyAtRank h3 ih =>
    intro _ h5 hnf _
    obtain ⟨r, rfl⟩ := Int.eq_ofNat_of_zero_le (by omega : 0 ≤ currentRank)
    have h3' : Dbl.gt (T.FrequencyAtRank frequency r) density = true := by
      simpa [frequencyAtRank] using h3
    rw [hnf r (le_refl _)] at h3'
    cases h3'
  | case4 currentRank rows maxRowsPerRank h1 h2 frequencyAtRank h3 h4 ih =>
    intro _ h5 hnf hinf
    obtain ⟨r, rfl⟩ := Int.eq_ofNat_of_zero_le (by omega : 0 ≤ currentRank)
    simp only [Int.toNat_ofNat] at ih h4
    have h3' := hnf r (le_refl _)
    have hiff := fun v =>
      Temp_IsCandidate_saturated T frequency density r rows maxRowsPerRank v h3' h4
    rw [Temp]
    simp only [h1, h2, if_false, dite_false, Int.toNat_ofNat]
    rw [if_neg (by simp [h3']), dif_pos h4]
    exact ih (by omega) (by omega) (fun j hj => hnf j (by omega))
      (fun v hv => hinf v ((hiff v).mpr hv))
  | case5 currentRank rows maxRowsPerRank h1 h2 frequencyAtRank h3 h4 e he ih =>
    intro _ h5 _ _
    obtain ⟨cost, r, hr, _⟩ := Temp_ok A T frequency density snr (currentRank - 1) rows
      maxRowsPerRank (by omega) (by omega)
    rw [he] at hr
    cases hr
  | case6 currentRank rows maxRowsPerRank h1 h2 frequencyAtRank h3 h4 rankDown hd e he ih1 ih2 =>
    intro h6 h5 _ _
    obtain ⟨cost, r, hr, _⟩ := Temp_ok A T frequency density snr currentRank
      (rows.set currentRank.toNat (rows.getD currentRank.toNat 0 + 1)) maxRowsPerRank h6
      (by simp; omega)
    rw [he] at hr
    cases hr
  | case7 currentRank rows maxRowsPerRank h1 h2 frequencyAtRank h3 h4 rankDown hd newRow hn
      ih1 ih2 =>
    intro h6 h5 hnf hinf
    obtain ⟨r, rfl⟩ := Int.eq_ofNat_of_zero_le (by omega : 0 ≤ currentRank)
    simp only [Int.toNat_ofNat] at ih2 h4
    have h3' := hnf r (le_refl _)
    have hr : r < rows.length := by omega
    have hiff := fun v =>
      Temp_IsCandidate_branch T frequency density r rows maxRowsPerRank v hr h3' h4
    have hT1 := ih1 (by omega) (by omega) (fun j hj => hnf j (by omega))
      (fun v hv => hinf v ((hiff v).mpr (Or.inl hv)))
    have hT2 := ih2 (by omega) (by simp; omega) hnf
      (fun v hv => hinf v ((hiff v).mpr (Or.inr hv)))
    rw [Temp]
    simp only [h1, h2, if_false, dite_false, Int.toNat_ofNat]
    rw [if_neg (by simp [h3']), dif_neg h4, hT1, hT2]
    rfl

/-! ## The search at rank 0 on a vector without rows -/

/-- Candidates of the search called at rank 0 on the all-zero vector, when
rank 0 is not forced private: the vectors with `k <= maxRowsPerRank` rows at
rank 0 and none above. -/
theorem Temp_IsCandidate_rank0_zeros (T : TermModel) (frequency density : Dbl)
    (maxRowsPerRank : Int) (n : Nat) (v : List Int)
    (hnf : Dbl.gt (T.FrequencyAtRank frequency 0) density = false)
    (hmax : 0 ≤ maxRowsPerRank)
    (hv : Temp.IsCandidate T frequency density 0 (List.replicate (n + 1) 0) maxRowsPerRank v) :
    ∃ k : Nat, (k : Int) ≤ maxRowsPerRank ∧ v = (k : Int) :: List.replicate n 0 := by
  obtain ⟨hlen, h⟩ := hv
  simp only [List.length_replicate] at hlen h
  match v, hlen with
  | a :: tl, hlen =>
    have htl : tl.length = n := by simpa using hlen
    have h0 := ((h 0 (by omega)).2 (le_refl _)).2 hnf
    simp only [getD_replicate_zero, List.getD_cons_zero] at h0
    have hmax0 : max (0 : Int) maxRowsPerRank = maxRowsPerRank := max_eq_right hmax
    rw [hmax0] at h0
    refine ⟨a.toNat, by omega, ?_⟩
    have ha : ((a.toNat : Nat) : Int) = a := Int.toNat_of_nonneg h0.1
    rw [ha]
    congr 1
    apply eq_of_getD_eq tl _ (by simp [htl])
    intro j hj
    simp only [List.length_replicate] at hj
    have := (h (j + 1) (by omega)).1 (by omega)
    simp only [getD_replicate_zero, List.getD_cons_succ] at this
    rw [this, getD_replicate_zero]

/-- Without rounding, the all-zero vector has the cost `+∞`. -/
theorem Temp_cost_zeros_exact (T : TermModel) (frequency density snr : Dbl) (n : Nat) :
    Temp.cost DblArith.exact T frequency density snr (List.replicate n 0) = Dbl.pinf := by
  unfold Temp.cost
  simp only [AnalyzeAlternate_zeros_snr_exact, Dbl.isnan, Bool.or_true, if_true]

/-- Without rounding, a vector with `k + 1` rows at rank 0 and none above has
the cost `+∞` when `f / (density - f)^(k + 1)` is below `snr`. -/
theorem Temp_cost_rank0_exact (T : TermModel) (f d s : ℚ) (k n : Nat) (hfd : f < d)
    (hT : T.FrequencyAtRank (Dbl.fin f) 0 = Dbl.fin f) (hs : f / (d - f) ^ (k + 1) < s) :
    Temp.cost DblArith.exact T (Dbl.fin f) (Dbl.fin d) (Dbl.fin s)
      (((k + 1 : Nat) : Int) :: List.replicate n 0) = Dbl.pinf := by
  unfold Temp.cost
  simp only [AnalyzeAlternate_rank0_snr_exact T f d k n hfd hT, Dbl.lt, hs, decide_True,
    Bool.true_or, if_true]

/-- Without rounding: when rank 0 is not forced private and even
`maxRowsPerRank` rows at rank 0 leave `f / (density - f)^k` below `snr`, the
search at rank 0 on the all-zero vector returns that vector, at cost `+∞`. -/
theorem Temp_rank0_infeasible_exact (T : TermModel) (f d s : ℚ) (maxRows n : Nat)
    (hfd : f < d) (hT : T.FrequencyAtRank (Dbl.fin f) 0 = Dbl.fin f)
    (hs : ∀ k : Nat, k < maxRows → f / (d - f) ^ (k + 1) < s) :
    Temp DblArith.exact T (Dbl.fin f) (Dbl.fin d) (Dbl.fin s) 0 (List.replicate (n + 1) 0)
      (maxRows : Int) = .ok (Dbl.pinf, List.replicate (n + 1) 0) := by
  have hnf : Dbl.gt (T.FrequencyAtRank (Dbl.fin f) 0) (Dbl.fin d) = false := by
    rw [hT]
    simp only [Dbl.gt, Dbl.lt, decide_eq_false_iff_not, not_lt]
    exact le_of_lt hfd
  apply Temp_all_infeasible
  · omega
  · simp
  · intro j hj
    have hj0 : j = 0 := by omega
    rw [hj0]
    exact hnf
  · intro v hv
    obtain ⟨k, hk, rfl⟩ := Temp_IsCandidate_rank0_zeros T _ _ _ n v hnf (by omega) hv
    cases k with
    | zero => exact Temp_cost_zeros_exact T _ _ _ (n + 1)
    | succ k => exact Temp_cost_rank0_exact T f d s k n hfd hT (hs k (by omega))

/-! ## A class of TreatmentExperimental that no row vector serves -/

theorem specFrequencyAtRank_zero (f : ℚ) :
    specTermModel.FrequencyAtRank (Dbl.fin f) 0 = Dbl.fin f := by
  show specFrequencyAtRank (Dbl.fin f) 0 = Dbl.fin f
  simp only [specFrequencyAtRank]
  split_ifs with h0 h1
  · rw [h0]
  · rw [h1]
  · simp

theorem specComputeMaxRank_5_half :
    specTermModel.ComputeMaxRank (Dbl.fin (3162277660 / 10000000000)) (Dbl.fin (1 / 2)) = 0 := by
  simp only [specTermModel, specComputeMaxRank, c_maxRankValue, specComputeMaxRank.search,
    specFrequencyAtRank, Dbl.le, Dbl.lt, Dbl.eq]
  norm_num

/-- With density 0.5 and snr 10000, no row vector of IDF class 5 reaches the
SNR floor: the search of `TreatmentExperimental` returns the all-zero vector,
at cost `+∞`. -/
theorem specExperimental_costRows_5 :
    TreatmentExperimental.costRows DblArith.exact specTermModel (Dbl.fin (1 / 2))
      (Dbl.fin 10000) 5 = .ok (Dbl.pinf, List.replicate 7 0) := by
  unfold TreatmentExperimental.costRows
  simp only []
  rw [specIdfX10ToFrequency_5, specComputeMaxRank_5_half]
  have h := Temp_rank0_infeasible_exact specTermModel (3162277660 / 10000000000) (1 / 2) 10000
    6 6 (by norm_num) (specFrequencyAtRank_zero _)
    (by intro k hk; interval_cases k <;> norm_num)
  exact h

/-- With density 0.5 and snr 10000, the configuration that
`TreatmentExperimental` builds for IDF class 5 has no entry. -/
theorem specExperimental_configuration_5 :
    TreatmentExperimental.configuration DblArith.exact specTermModel (Dbl.fin (1 / 2))
      (Dbl.fin 10000) 5 = .ok [] := by
  unfold TreatmentExperimental.configuration
  rw [specExperimental_costRows_5]
  simp only []
  rw [TreatmentExperimental_pushLoop_eq _ _ _ _ _ _ _ (by simp)]
  have hnil : List.filter (fun r => decide ((List.replicate 7 (0 : Int)).getD r 0 > 0))
      (List.range' 0 (List.replicate 7 (0 : Int)).length) = [] := by
    rw [List.filter_eq_nil_iff]
    intro r _
    rw [getD_replicate_zero]
    decide
  rw [hnil]
  rfl

/-- With density `+∞` and snr 0, two rows at rank 0 are a candidate of the
search at rank 0 on `[0]` with at most 2 rows per rank. -/
theorem specTemp_candidate_two :
    Temp.IsCandidate specTermModel (Dbl.fin (1 / 2)) Dbl.pinf 0 [0] 2 [2] := by
  refine ⟨rfl, fun j hj => ?_⟩
  have hj0 : j = 0 := by simpa using hj
  subst hj0
  refine ⟨fun h => absurd h (by decide), fun _ => ⟨fun h => ?_, fun _ => by decide⟩⟩
  rw [specFrequencyAtRank_zero] at h
  simp [Dbl.gt, Dbl.lt] at h

/-- Without rounding, with density `+∞`, two rows at rank 0 leave the scan cost
at `-∞` and the memory cost at 0. -/
theorem specRowLoop_two :
    AnalyzeAlternate.rowLoop DblArith.exact Dbl.pinf (Dbl.fin (1 / 2)) Dbl.pinf (Dbl.fin 1)
      Dbl.nan 2 0 ⟨Dbl.fin 0, true, Dbl.nan, Dbl.fin (1 / 2), Dbl.fin 1, Dbl.fin 0⟩ =
      ⟨Dbl.ninf, true, Dbl.pinf, Dbl.fin (1 / 2), Dbl.ninf, Dbl.fin 0⟩ := by
  simp [AnalyzeAlternate.rowLoop, DblArith.exact, Dbl.gt, Dbl.lt, Dbl.add, Dbl.sub, Dbl.neg,
    Dbl.mul, Dbl.div, Dbl.pow]

/-- Without rounding, with density `+∞` and snr 0, the vector `[2]` has the
cost NaN. -/
theorem specTemp_cost_two :
    Temp.cost DblArith.exact specTermModel (Dbl.fin (1 / 2)) Dbl.pinf (Dbl.fin 0) [2]
      = Dbl.nan := by
  have hT := specFrequencyAtRank_zero (1 / 2)
  have h2 : ([2] : List Int).getD 0 0 = 2 := rfl
  have hnoise : Dbl.max (DblArith.exact.sub Dbl.pinf (Dbl.fin (1 / 2))) (Dbl.fin 0)
      = Dbl.pinf := rfl
  have hcost : DblArith.exact.div (Dbl.fin 1) (Dbl.fin (shiftLeftOne 0)) = Dbl.fin 1 := by
    simp [DblArith.exact, Dbl.div, shiftLeftOne]
  have hnn : DblArith.exact.sub Dbl.nan (Dbl.fin (1 / 2)) = Dbl.nan := rfl
  have hne : ¬ ((2 : Int) = 0) := by decide
  have htn : (2 : Int).toNat = 2 := rfl
  simp only [Temp.cost, AnalyzeAlternate, List.length_singleton, AnalyzeAlternate.rankLoop,
    h2, hT, hnoise, hcost, hnn, if_neg hne, htn, specRowLoop_two,
    TermTreatmentMetrics.GetSNR, TermTreatmentMetrics.GetDQ]
  simp [DblArith.exact, Dbl.div, Dbl.mul, Dbl.lt, Dbl.isnan, Dbl.neg]

/-! ## Further values of the term model after the specification -/

theorem specIdfX10ToFrequency_13 :
    specTermModel.IdfX10ToFrequency 13 = Dbl.fin (5011872336 / 100000000000) := by
  simp [specTermModel, specIdfX10ToFrequency, specTenthPowers]
  norm_num

theorem specComputeRowCount_13 :
    specTermModel.ComputeRowCount (Dbl.fin (5011872336 / 100000000000)) (Dbl.fin (1 / 10))
      (Dbl.fin 10000) = 5 := by
  have h : specComputeRowCount.search (1 / 10 - 5011872336 / 100000000000)
      (5011872336 / 100000000000 / 10000) (4294967289 + 1 + 1 + 1 + 1 + 1) 1 = 5 := by
    rw [specComputeRowCount.search_step _ _ _ _ (by norm_num),
      specComputeRowCount.search_step _ _ _ _ (by norm_num),
      specComputeRowCount.search_step _ _ _ _ (by norm_num),
      specComputeRowCount.search_step _ _ _ _ (by norm_num),
      specComputeRowCount.search_stop _ _ _ _ (by norm_num)]
  have hfuel : (2 ^ 32 - 2 : Nat) = 4294967289 + 1 + 1 + 1 + 1 + 1 := by norm_num
  have hcond : ¬ ((5011872336 / 100000000000 : ℚ) ≥ 1 / 10 ∨ (10000 : ℚ) ≤ 0) := by norm_num
  simp only [specTermModel, specComputeRowCount, if_neg hcond, hfuel, h]
  rfl

theorem specComputeMaxRank_13 :
    specTermModel.ComputeMaxRank (Dbl.fin (5011872336 / 100000000000))
      TreatmentPrivateSharedRank0ToN.maxDensity = 1 := by
  simp only [specTermModel, specComputeMaxRank, c_maxRankValue, specComputeMaxRank.search,
    specFrequencyAtRank, TreatmentPrivateSharedRank0ToN.maxDensity, Dbl.le, Dbl.lt, Dbl.eq]
  norm_num

theorem specComputeMaxRank_40 :
    specTermModel.ComputeMaxRank (Dbl.fin (1 / 10000))
      TreatmentPrivateSharedRank0ToN.maxDensity = 6 := by
  simp only [specTermModel, specComputeMaxRank, c_maxRankValue, specComputeMaxRank.search,
    specFrequencyAtRank, TreatmentPrivateSharedRank0ToN.maxDensity, Dbl.le, Dbl.lt, Dbl.eq]
  norm_num

/-! ## The cost model after its loop -/

/-- The metrics that `AnalyzeAlternate` returns, read off the state after its
loop. -/
theorem AnalyzeAlternate_eq_final (A : DblArith) (T : TermModel) (rows : List Int)
    (density signal : Dbl) :
    AnalyzeAlternate A T rows density signal =
      ⟨A.div signal (AnalyzeAlternate.final A T rows density signal).residualNoise,
        (AnalyzeAlternate.final A T rows density signal).scanCost,
        (AnalyzeAlternate.final A T rows density signal).memoryCost⟩ := rfl

/-- At `currentRank = -1` the search returns the vector it was called on,
with its cost. -/
theorem Temp_terminal (A : DblArith) (T : TermModel) (frequency density snr : Dbl)
    (rows : List Int) (maxRowsPerRank : Int) :
    Temp A T frequency density snr (-1) rows maxRowsPerRank =
      .ok (Temp.cost A T frequency density snr rows, rows) := by
  rw [Temp]
  simp only [if_true]
  rfl

/-- Reading a vector whose elements are all zero gives zero at every index. -/
theorem getD_of_all_zero (rows : List Int) (hz : ∀ x ∈ rows, x = 0) (i : Nat) :
    rows.getD i 0 = 0 := by
  rw [List.getD_eq_getElem?_getD]
  by_cases h : i < rows.length
  · rw [List.getElem?_eq_getElem h]
    exact hz _ (List.getElem_mem h)
  · rw [List.getElem?_eq_none (by omega)]
    rfl

/-- When NaN plus anything is NaN, the loop over the ranks of a vector without
rows leaves the residual noise NaN. -/
theorem AnalyzeAlternate_rankLoop_no_rows (A : DblArith) (T : TermModel)
    (hadd : ∀ x, A.add Dbl.nan x = Dbl.nan) (rows : List Int) (hz : ∀ x ∈ rows, x = 0)
    (density signal : Dbl) :
    ∀ (i : Nat) (s : AnalyzeAlternate.State), s.residualNoise = Dbl.nan →
      (AnalyzeAlternate.rankLoop A T rows density signal i s).residualNoise = Dbl.nan := by
  intro i
  induction i with
  | zero => intro s hs; exact hs
  | succ i ih =>
    intro s hs
    rw [AnalyzeAlternate.rankLoop]
    simp only [getD_of_all_zero rows hz i, if_true]
    apply ih
    show A.add s.residualNoise _ = Dbl.nan
    rw [hs]
    exact hadd _

/-! ## Ties of the search -/

/-- Two values that are `==` are not `<`. -/
theorem Dbl.lt_false_of_eq {a b : Dbl} (h : Dbl.eq a b = true) : Dbl.lt a b = false := by
  cases a <;> cases b <;> simp_all [Dbl.lt, Dbl.eq]

/-- The result of the search where it branches: the result for one more row
at the rank if its cost is `<` that of the result for the rank below, which is
returned otherwise. -/
theorem Temp_branch (A : DblArith) (T : TermModel) (frequency density snr : Dbl)
    (currentRank : Nat) (rows : List Int) (maxRowsPerRank : Int)
    (rankDown newRow : Dbl × List Int) (hr : currentRank < rows.length)
    (hf : Dbl.gt (T.FrequencyAtRank frequency currentRank) density = false)
    (hs : rows.getD currentRank 0 < maxRowsPerRank)
    (hd : Temp A T frequency density snr ((currentRank : Int) - 1) rows maxRowsPerRank =
      .ok rankDown)
    (hn : Temp A T frequency density snr (currentRank : Int)
      (rows.set currentRank (rows.getD currentRank 0 + 1)) maxRowsPerRank = .ok newRow) :
    Temp A T frequency density snr (currentRank : Int) rows maxRowsPerRank =
      .ok (if Dbl.lt newRow.1 rankDown.1 then newRow else rankDown) := by
  have h1 : ¬ ((currentRank : Int) = -1) := by omega
  have h2 : ¬ ((currentRank : Int) < 0 ∨ (rows.length : Int) ≤ (currentRank : Int)) := by omega
  have h4 : ¬ rows.getD currentRank 0 ≥ maxRowsPerRank := by omega
  rw [Temp]
  simp only [h1, h2, if_false, dite_false, Int.toNat_ofNat]
  rw [if_neg (by simp [hf]), dif_neg h4, hd, hn]

/-! ## The search returns a candidate -/

/-- Called with `-1 <= currentRank < rows.size()`, the search returns one of
its candidates, whatever the costs are. -/
theorem Temp_returns_candidate (A : DblArith) (T : TermModel) (frequency density snr : Dbl)
    (currentRank : Int) (rows : List Int) (maxRowsPerRank : Int) :
    -1 ≤ currentRank → currentRank < rows.length →
    ∃ c r, Temp A T frequency density snr currentRank rows maxRowsPerRank = .ok (c, r) ∧
      Temp.IsCandidate T frequency density currentRank rows maxRowsPerRank r := by
  induction currentRank, rows, maxRowsPerRank using Temp.induct A T frequency density snr with
  | case1 rows maxRowsPerRank =>
    intro _ _
    exact ⟨_, rows, Temp_terminal A T frequency density snr rows maxRowsPerRank,
      (Temp_IsCandidate_terminal T frequency density rows maxRowsPerRank rows).mpr rfl⟩
  | case2 currentRank rows maxRowsPerRank h1 h2 =>
    intro h3 h4
    omega
  | case3 currentRank rows maxRowsPerRank h1 h2 frequencyAtRank h3 ih =>
    intro _ h5
    obtain ⟨r, rfl⟩ := Int.eq_ofNat_of_zero_le (by omega : 0 ≤ currentRank)
    simp only [Int.toNat_ofNat] at ih
    have h3' : Dbl.gt (T.FrequencyAtRank frequency r) density = true := by
      simpa [frequencyAtRank] using h3
    have hr : r < rows.length := by omega
    obtain ⟨c, rr, hT, hcand⟩ := ih (by omega) (by simp; omega)
    refine ⟨c, rr, ?_,
      (Temp_IsCandidate_forced T frequency density r rows maxRowsPerRank rr hr h3').mpr hcand⟩
    rw [Temp]
    simp only [h1, h2, if_false, dite_false, Int.toNat_ofNat]
    rw [if_pos h3']
    exact hT
  | case4 currentRank rows maxRowsPerRank h1 h2 frequencyAtRank h3 h4 ih =>
    intro _ h5
    obtain ⟨r, rfl⟩ := Int.eq_ofNat_of_zero_le (by omega : 0 ≤ currentRank)
    simp only [Int.toNat_ofNat] at ih h4
    have h3' : Dbl.gt (T.FrequencyAtRank frequency r) density = false := by
      simpa [frequencyAtRank] using h3
    obtain ⟨c, rr, hT, hcand⟩ := ih (by omega) (by omega)
    refine ⟨c, rr, ?_,
      (Temp_IsCandidate_saturated T frequency density r rows maxRowsPerRank rr h3' h4).mpr hcand⟩
    rw [Temp]
    simp only [h1, h2, if_false, dite_false, Int.toNat_ofNat]
    rw [if_neg (by simp [h3']), dif_pos h4]
    exact hT
  | case5 currentRank rows maxRowsPerRank h1 h2 frequencyAtRank h3 h4 e he ih =>
    intro _ h5
    obtain ⟨cost, r, hr, _⟩ := Temp_ok A T frequency density snr (currentRank - 1) rows
      maxRowsPerRank (by omega) (by omega)
    rw [he] at hr
    cases hr
  | case6 currentRank rows maxRowsPerRank h1 h2 frequencyAtRank h3 h4 rankDown hd e he ih1 ih2 =>
    intro h6 h5
    obtain ⟨cost, r, hr, _⟩ := Temp_ok A T frequency density snr currentRank
      (rows.set currentRank.toNat (rows.getD currentRank.toNat 0 + 1)) maxRowsPerRank h6
      (by simp; omega)
    rw [he] at hr
    cases hr
  | case7 currentRank rows maxRowsPerRank h1 h2 frequencyAtRank h3 h4 rankDown hd newRow hn
      ih1 ih2 =>
    intro h6 h5
    obtain ⟨r, rfl⟩ := Int.eq_ofNat_of_zero_le (by omega : 0 ≤ currentRank)
    simp only [Int.toNat_ofNat] at ih2 h4 hn
    have h3' : Dbl.gt (T.FrequencyAtRank frequency r) density = false := by
      simpa [frequencyAtRank] using h3
    have hr : r < rows.length := by omega
    have hiff := fun v =>
      Temp_IsCandidate_branch T frequency density r rows maxRowsPerRank v hr h3' h4
    obtain ⟨c1, r1, hT1, hcand1⟩ := ih1 (by omega) (by omega)
    obtain ⟨c2, r2, hT2, hcand2⟩ := ih2 (by omega) (by simp; omega)
    have hT := Temp_branch A T frequency density snr r rows maxRowsPerRank (c1, r1) (c2, r2)
      hr h3' (by omega) hT1 hT2
    by_cases hlt : Dbl.lt c2 c1 = true
    · simp only [hlt, if_true] at hT
      exact ⟨c2, r2, hT, (hiff r2).mpr (Or.inr hcand2)⟩
    · simp only [hlt, if_false] at hT
      exact ⟨c1, r1, hT, (hiff r1).mpr (Or.inl hcand1)⟩

/-! ## The memory cost -/

/-- Each row of a rank adds the cost of one row of the rank to the memory
cost, whatever the rounding is. -/
theorem AnalyzeAlternate_rowLoop_memoryCost (A : DblArith)
    (density signalAtRank noiseAtRank fullRowCost newNoise : Dbl) :
    ∀ (n j : Nat) (s : AnalyzeAlternate.State),
      (AnalyzeAlternate.rowLoop A density signalAtRank noiseAtRank fullRowCost newNoise
        n j s).memoryCost =
      (fun m => A.add m (if Dbl.gt signalAtRank density then fullRowCost
        else A.div signalAtRank density))^[n] s.memoryCost := by
  intro n
  induction n with
  | zero => intro j s; rfl
  | succ n ih =>
    intro j s
    rw [AnalyzeAlternate.rowLoop, ih (j + 1) _, Function.iterate_succ_apply]
    by_cases h : Dbl.gt signalAtRank density = true
    · simp only [h, if_true]
    · simp only [h, Bool.false_eq_true, if_false]

/-- Without rounding, adding a finite value `n` times adds `n` times the
value. -/
theorem Dbl.iterate_add_fin (c m : ℚ) (n : Nat) :
    (fun x => DblArith.exact.add x (Dbl.fin c))^[n] (Dbl.fin m) = Dbl.fin (m + n * c) := by
  induction n generalizing m with
  | zero => simp
  | succ n ih =>
    rw [Function.iterate_succ_apply]
    show (fun x => DblArith.exact.add x (Dbl.fin c))^[n] (Dbl.fin (m + c)) = _
    rw [ih]
    push_cast
    congr 1
    ring

/-- Without rounding, with a finite density that is not 0 and finite
frequencies at the ranks, the loop over the ranks below `i` adds to the memory
cost, for each rank, the number of its rows times the cost of one row. -/
theorem AnalyzeAlternate_rankLoop_memoryCost_exact (T : TermModel) (rows : List Int) (d : ℚ)
    (signal : Dbl) (f : Nat → ℚ) (hd : d ≠ 0) (n : Nat)
    (hf : ∀ i, i < n → T.FrequencyAtRank signal i = Dbl.fin (f i)) :
    ∀ (i : Nat) (s : AnalyzeAlternate.State) (m : ℚ), i ≤ n → s.memoryCost = Dbl.fin m →
      (AnalyzeAlternate.rankLoop DblArith.exact T rows (Dbl.fin d) signal i s).memoryCost =
        Dbl.fin (m + Finset.sum (Finset.range i) (fun r =>
          (((rows.getD r 0).toNat : Nat) : ℚ) *
            (if f r > d then 1 / (shiftLeftOne r : ℚ) else f r / d))) := by
  intro i
  induction i with
  | zero =>
    intro s m _ hs
    simp [AnalyzeAlternate.rankLoop, hs]
  | succ i ih =>
    intro s m hi hs
    rw [AnalyzeAlternate.rankLoop, Finset.sum_range_succ]
    by_cases h0 : rows.getD i 0 = 0
    · simp only [h0, if_true]
      refine Eq.trans (ih _ m (by omega) ?_) ?_
      · exact hs
      · simp
    · simp only [h0, if_false]
      refine Eq.trans (ih _ (m + (((rows.getD i 0).toNat : Nat) : ℚ) *
        (if f i > d then 1 / (shiftLeftOne i : ℚ) else f i / d)) (by omega) ?_) ?_
      · show (AnalyzeAlternate.rowLoop DblArith.exact _ _ _ _ _ _ _ _).memoryCost = _
        rw [AnalyzeAlternate_rowLoop_memoryCost, hf i (by omega)]
        have hcost : (if Dbl.gt (Dbl.fin (f i)) (Dbl.fin d) = true then
            DblArith.exact.div (Dbl.fin 1) (Dbl.fin (shiftLeftOne i))
            else DblArith.exact.div (Dbl.fin (f i)) (Dbl.fin d)) =
            Dbl.fin (if f i > d then 1 / (shiftLeftOne i : ℚ) else f i / d) := by
          have h2 : ((shiftLeftOne i : Int) : ℚ) ≠ 0 := shiftLeftOne_cast_ne_zero i
          by_cases hgt : f i > d
          · have hlt : d < f i := hgt
            simp [Dbl.gt, Dbl.lt, hlt, DblArith.exact, Dbl.div, h2]
          · have hlt : ¬ d < f i := hgt
            simp [Dbl.gt, Dbl.lt, hlt, DblArith.exact, Dbl.div, hd]
        rw [hcost]
        simp only []
        rw [hs]
        exact Dbl.iterate_add_fin _ _ _
      · congr 1
        ring

/-- Whatever the rounding is, the loop over the ranks below `i` adds to the
memory cost the cost of one row once per row, from the highest rank to the
lowest. -/
theorem AnalyzeAlternate_rankLoop_memoryCost (A : DblArith) (T : TermModel) (rows : List Int)
    (density signal : Dbl) :
    ∀ (i : Nat) (s : AnalyzeAlternate.State),
      (AnalyzeAlternate.rankLoop A T rows density signal i s).memoryCost =
        List.foldr (fun r m =>
          (fun x => A.add x (if Dbl.gt (T.FrequencyAtRank signal r) density then
              A.div (Dbl.fin 1) (Dbl.fin (shiftLeftOne r))
            else A.div (T.FrequencyAtRank signal r) density))^[(rows.getD r 0).toNat] m)
          s.memoryCost (List.range i) := by
  intro i
  induction i with
  | zero => intro s; rfl
  | succ i ih =>
    intro s
    rw [AnalyzeAlternate.rankLoop, List.range_succ, List.foldr_append]
    by_cases h0 : rows.getD i 0 = 0
    · simp only [h0, if_true]
      rw [ih]
      simp only [List.foldr_cons, List.foldr_nil, h0, Int.toNat_zero, Function.iterate_zero,
        id_eq]
    · simp only [h0, if_false]
      rw [ih]
      simp only [List.foldr_cons, List.foldr_nil]
      congr 1
      exact AnalyzeAlternate_rowLoop_memoryCost A density _ _ _ _ _ _ _

/-! ## Empty ranks above the rows -/

/-- Reading a vector extended by zeros gives what reading the vector gives. -/
theorem getD_append_zeros (rows : List Int) (n j : Nat) :
    (rows ++ List.replicate n 0).getD j 0 = rows.getD j 0 := by
  by_cases h : j < rows.length
  · rw [List.getD_append _ _ _ _ h]
  · rw [List.getD_append_right _ _ _ _ (by omega), getD_replicate_zero,
      List.getD_eq_getElem?_getD, List.getElem?_eq_none (by omega)]
    rfl

/-- The loop over the ranks reads the vector by its elements only. -/
theorem AnalyzeAlternate_rankLoop_congr (A : DblArith) (T : TermModel) (rows1 rows2 : List Int)
    (density signal : Dbl) (h : ∀ j, rows1.getD j 0 = rows2.getD j 0) :
    ∀ (i : Nat) (s : AnalyzeAlternate.State),
      AnalyzeAlternate.rankLoop A T rows1 density signal i s =
        AnalyzeAlternate.rankLoop A T rows2 density signal i s := by
  intro i
  induction i with
  | zero => intro s; rfl
  | succ i ih =>
    intro s
    rw [AnalyzeAlternate.rankLoop, AnalyzeAlternate.rankLoop]
    simp only [h i, ih]

/-- Up to the first intersection, the rows of a rank do not read the new
noise. -/
theorem AnalyzeAlternate_rowLoop_newNoise (A : DblArith)
    (density signalAtRank noiseAtRank fullRowCost newNoise1 newNoise2 : Dbl) :
    ∀ (n j : Nat) (s : AnalyzeAlternate.State), s.firstIntersection = true →
      AnalyzeAlternate.rowLoop A density signalAtRank noiseAtRank fullRowCost newNoise1 n j s =
        AnalyzeAlternate.rowLoop A density signalAtRank noiseAtRank fullRowCost newNoise2 n j s := by
  intro n
  induction n with
  | zero => intro j s _; rfl
  | succ n ih =>
    intro j s hs
    rw [AnalyzeAlternate.rowLoop, AnalyzeAlternate.rowLoop]
    simp only [hs, Bool.not_true, Bool.false_eq_true, if_false]
    exact ih _ _ rfl

/-- When NaN plus anything is NaN: before the first intersection, with the
residual noise NaN, the signal of the rank above does not reach the residual
noise, the scan cost or the memory cost. -/
theorem AnalyzeAlternate_rankLoop_lastSignal (A : DblArith) (T : TermModel)
    (hadd : ∀ x, A.add Dbl.nan x = Dbl.nan) (rows : List Int) (density signal : Dbl)
    (i : Nat) (s : AnalyzeAlternate.State) (x : Dbl) (hfirst : s.firstIntersection = true)
    (hres : s.residualNoise = Dbl.nan) :
    (AnalyzeAlternate.rankLoop A T rows density signal i
        { s with lastSignalAtRank := x }).residualNoise =
      (AnalyzeAlternate.rankLoop A T rows density signal i s).residualNoise ∧
    (AnalyzeAlternate.rankLoop A T rows density signal i
        { s with lastSignalAtRank := x }).scanCost =
      (AnalyzeAlternate.rankLoop A T rows density signal i s).scanCost ∧
    (AnalyzeAlternate.rankLoop A T rows density signal i
        { s with lastSignalAtRank := x }).memoryCost =
      (AnalyzeAlternate.rankLoop A T rows density signal i s).memoryCost := by
  cases i with
  | zero => exact ⟨rfl, rfl, rfl⟩
  | succ i =>
    rw [AnalyzeAlternate.rankLoop, AnalyzeAlternate.rankLoop]
    by_cases h0 : rows.getD i 0 = 0
    · simp only [h0, if_true, hres, hadd, and_self]
    · have hrow := AnalyzeAlternate_rowLoop_newNoise A density (T.FrequencyAtRank signal i)
        (Dbl.max (A.sub density (T.FrequencyAtRank signal i)) (Dbl.fin 0))
        (A.div (Dbl.fin 1) (Dbl.fin (shiftLeftOne i)))
        (A.sub x (T.FrequencyAtRank signal i))
        (A.sub s.lastSignalAtRank (T.FrequencyAtRank signal i))
        (rows.getD i 0).toNat 0 { s with lastSignalAtRank := T.FrequencyAtRank signal i } hfirst
      simp only [h0, if_false]
      rw [hrow]
      exact ⟨rfl, rfl, rfl⟩

/-- When NaN plus anything is NaN: started above the vector with the residual
noise NaN, the loop over the ranks reaches the highest rank of the vector in a
state that differs in the signal of the rank above only. -/
theorem AnalyzeAlternate_rankLoop_above (A : DblArith) (T : TermModel)
    (hadd : ∀ x, A.add Dbl.nan x = Dbl.nan) (rows : List Int) (density signal : Dbl) :
    ∀ (k : Nat) (s : AnalyzeAlternate.State), s.residualNoise = Dbl.nan →
      ∃ x, AnalyzeAlternate.rankLoop A T rows density signal (rows.length + k) s =
        AnalyzeAlternate.rankLoop A T rows density signal rows.length
          { s with lastSignalAtRank := x } := by
  intro k
  induction k with
  | zero => intro s _; exact ⟨s.lastSignalAtRank, rfl⟩
  | succ k ih =>
    intro s hs
    have h0 : rows.getD (rows.length + k) 0 = 0 := by
      rw [List.getD_eq_getElem?_getD, List.getElem?_eq_none (by omega)]
      rfl
    rw [show rows.length + (k + 1) = (rows.length + k) + 1 from rfl, AnalyzeAlternate.rankLoop]
    simp only [h0, if_true, hs, hadd]
    obtain ⟨x, hx⟩ := ih ⟨s.scanCost, s.firstIntersection, Dbl.nan,
      T.FrequencyAtRank signal (rows.length + k), s.weight, s.memoryCost⟩ rfl
    refine ⟨x, ?_⟩
    rw [hx]

/-- At the first intersection, the rows of a rank read neither the residual
noise nor the new noise. -/
theorem AnalyzeAlternate_rowLoop_first (A : DblArith)
    (density signalAtRank noiseAtRank fullRowCost newNoise1 newNoise2 : Dbl) (n : Nat)
    (s : AnalyzeAlternate.State) (x : Dbl) (hfirst : s.firstIntersection = true) :
    AnalyzeAlternate.rowLoop A density signalAtRank noiseAtRank fullRowCost newNoise1 (n + 1) 0
        { s with residualNoise := x } =
      AnalyzeAlternate.rowLoop A density signalAtRank noiseAtRank fullRowCost newNoise2 (n + 1) 0
        s := by
  rw [AnalyzeAlternate.rowLoop, AnalyzeAlternate.rowLoop]
  simp only [hfirst, Bool.not_true, Bool.false_eq_true, if_false, if_true]
  exact AnalyzeAlternate_rowLoop_newNoise A density _ _ _ newNoise1 newNoise2 _ _ _ rfl

/-- Neither the residual noise nor the signal of the rank above that the loop
starts with reaches its result, whatever the rounding is, when no entry of the
vector is negative and one of the ranks that the loop visits has a row. -/
theorem AnalyzeAlternate_rankLoop_initial (A : DblArith) (T : TermModel) (rows : List Int)
    (density signal : Dbl) (hrows : ∀ x ∈ rows, 0 ≤ x) :
    ∀ (i : Nat) (s : AnalyzeAlternate.State) (x y : Dbl), s.firstIntersection = true →
      (∃ j, j < i ∧ rows.getD j 0 ≠ 0) →
      AnalyzeAlternate.rankLoop A T rows density signal i
          { s with residualNoise := x, lastSignalAtRank := y } =
        AnalyzeAlternate.rankLoop A T rows density signal i s := by
  intro i
  induction i with
  | zero =>
    intro s x y _ hj
    obtain ⟨j, hj, _⟩ := hj
    omega
  | succ i ih =>
    intro s x y hfirst hj
    rw [AnalyzeAlternate.rankLoop, AnalyzeAlternate.rankLoop]
    by_cases h0 : rows.getD i 0 = 0
    · have hj2 : ∃ j, j < i ∧ rows.getD j 0 ≠ 0 := by
        obtain ⟨j, hji, hne⟩ := hj
        refine ⟨j, ?_, hne⟩
        by_contra hcon
        have : j = i := by omega
        subst this
        exact hne h0
      simp only [h0, if_true]
      exact (ih ⟨s.scanCost, s.firstIntersection, s.residualNoise,
          T.FrequencyAtRank signal i, s.weight, s.memoryCost⟩
          (A.add x (A.sub y (T.FrequencyAtRank signal i))) (T.FrequencyAtRank signal i)
          hfirst hj2).trans
        (ih ⟨s.scanCost, s.firstIntersection, s.residualNoise,
          T.FrequencyAtRank signal i, s.weight, s.memoryCost⟩
          (A.add s.residualNoise (A.sub s.lastSignalAtRank (T.FrequencyAtRank signal i)))
          (T.FrequencyAtRank signal i) hfirst hj2).symm
    · have hpos : 0 < rows.getD i 0 := by
        have hnn : 0 ≤ rows.getD i 0 := by
          rw [List.getD_eq_getElem?_getD]
          by_cases hlt : i < rows.length
          · rw [List.getElem?_eq_getElem hlt]
            exact hrows _ (List.getElem_mem hlt)
          · rw [List.getElem?_eq_none (by omega)]
            rfl
        omega
      obtain ⟨k, hk⟩ : ∃ k : Nat, (rows.getD i 0).toNat = k + 1 :=
        ⟨(rows.getD i 0).toNat - 1, by omega⟩
      have hrow := AnalyzeAlternate_rowLoop_first A density (T.FrequencyAtRank signal i)
        (Dbl.max (A.sub density (T.FrequencyAtRank signal i)) (Dbl.fin 0))
        (A.div (Dbl.fin 1) (Dbl.fin (shiftLeftOne i)))
        (A.sub y (T.FrequencyAtRank signal i))
        (A.sub s.lastSignalAtRank (T.FrequencyAtRank signal i)) k
        { s with lastSignalAtRank := T.FrequencyAtRank signal i } x hfirst
      simp only [h0, if_false, hk]
      rw [hrow]

/-- Started above the vector, the loop over the ranks reaches the highest rank
of the vector in a state that differs in the residual noise and in the signal
of the rank above only. -/
theorem AnalyzeAlternate_rankLoop_above_any (A : DblArith) (T : TermModel) (rows : List Int)
    (density signal : Dbl) :
    ∀ (k : Nat) (s : AnalyzeAlternate.State),
      ∃ x y, AnalyzeAlternate.rankLoop A T rows density signal (rows.length + k) s =
        AnalyzeAlternate.rankLoop A T rows density signal rows.length
          { s with residualNoise := x, lastSignalAtRank := y } := by
  intro k
  induction k with
  | zero => intro s; exact ⟨s.residualNoise, s.lastSignalAtRank, rfl⟩
  | succ k ih =>
    intro s
    have h0 : rows.getD (rows.length + k) 0 = 0 := by
      rw [List.getD_eq_getElem?_getD, List.getElem?_eq_none (by omega)]
      rfl
    rw [show rows.length + (k + 1) = (rows.length + k) + 1 from rfl, AnalyzeAlternate.rankLoop]
    simp only [h0, if_true]
    obtain ⟨x, y, hxy⟩ := ih ⟨s.scanCost, s.firstIntersection,
      A.add s.residualNoise (A.sub s.lastSignalAtRank
        (T.FrequencyAtRank signal (rows.length + k))),
      T.FrequencyAtRank signal (rows.length + k), s.weight, s.memoryCost⟩
    exact ⟨x, y, hxy⟩

/-! ## The loader of DocumentFrequencyTable -/

/-- The loader fails with no other error than `FormatError`. -/
theorem DocumentFrequencyTable_readLines_error (idfOf : Dbl → Nat) :
    ∀ (lines : List (Option DocumentFrequencyTable.Line)) (previous : Option Dbl)
      (m_entries : List DocumentFrequencyTable.Entry) (e : Error),
      DocumentFrequencyTable.readLines idfOf lines previous m_entries = .error e →
        e = Error.FormatError := by
  intro lines
  induction lines with
  | nil =>
    intro previous m_entries e h
    simp [DocumentFrequencyTable.readLines] at h
  | cons line rest ih =>
    intro previous m_entries e h
    cases line with
    | none =>
      simp only [DocumentFrequencyTable.readLines, Except.error.injEq] at h
      exact h.symm
    | some line =>
      rw [DocumentFrequencyTable.readLines] at h
      split_ifs at h with h1 h2
      · cases h
        rfl
      · cases h
        rfl
      · exact ih _ _ e h

/-- The loader fails when a line has a frequency above that of the line
before. -/
theorem DocumentFrequencyTable_readLines_ascending (idfOf : Dbl → Nat)
    (a b : DocumentFrequencyTable.Line) (post : List (Option DocumentFrequencyTable.Line))
    (hasc : Dbl.gt b.frequency a.frequency = true) :
    ∀ (pre : List (Option DocumentFrequencyTable.Line)) (previous : Option Dbl)
      (m_entries : List DocumentFrequencyTable.Entry),
      DocumentFrequencyTable.readLines idfOf (pre ++ some a :: some b :: post) previous
        m_entries = .error Error.FormatError := by
  intro pre
  induction pre with
  | nil =>
    intro previous m_entries
    rw [List.nil_append, DocumentFrequencyTable.readLines]
    split_ifs with h1 h2
    · rfl
    · rfl
    · rw [DocumentFrequencyTable.readLines]
      split_ifs with h3 h4
      · rfl
      · rfl
      · simp only [DocumentFrequencyTable.ascends, hasc, not_true_eq_false] at h4
  | cons line rest ih =>
    intro previous m_entries
    cases line with
    | none => rfl
    | some line =>
      rw [List.cons_append, DocumentFrequencyTable.readLines]
      split_ifs with h1 h2
      · rfl
      · rfl
      · exact ih _ _

/-- A well-formed line has a finite frequency. -/
theorem DocumentFrequencyTable_wellFormed_finite (line : DocumentFrequencyTable.Line)
    (h : line.wellFormed = true) : ∃ q : ℚ, line.frequency = Dbl.fin q := by
  unfold DocumentFrequencyTable.Line.wellFormed at h
  simp only [Bool.and_eq_true] at h
  obtain ⟨⟨_, h0⟩, h1⟩ := h
  cases hf : line.frequency with
  | nan => rw [hf] at h0; simp [Dbl.ge, Dbl.le, Dbl.lt, Dbl.eq] at h0
  | ninf => rw [hf] at h0; simp [Dbl.ge, Dbl.le, Dbl.lt, Dbl.eq] at h0
  | pinf => rw [hf] at h1; simp [Dbl.le, Dbl.lt, Dbl.eq] at h1
  | fin q => exact ⟨q, rfl⟩

/-- Of two finite values, the first is `>=` the second when the second is not
`>` the first. -/
theorem Dbl.ge_of_not_gt_fin (p q : ℚ) (h : Dbl.gt (Dbl.fin q) (Dbl.fin p) = false) :
    Dbl.ge (Dbl.fin p) (Dbl.fin q) = true := by
  simp only [Dbl.gt, Dbl.lt, decide_eq_false_iff_not, not_lt] at h
  simp only [Dbl.ge, Dbl.le, Dbl.lt, Dbl.eq, Bool.or_eq_true, decide_eq_true_eq]
  exact lt_or_eq_of_le h

/-- When the loader succeeds, every line was read, the loader has appended the
entries of the lines in their order, every line is well formed, and the
frequencies do not ascend from one line to the next, nor from `previous` to
the first line. -/
theorem DocumentFrequencyTable_readLines_ok (idfOf : Dbl → Nat) :
    ∀ (input : List (Option DocumentFrequencyTable.Line)) (previous : Option Dbl)
      (m_entries result : List DocumentFrequencyTable.Entry),
      DocumentFrequencyTable.readLines idfOf input previous m_entries = .ok result →
        ∃ lines : List DocumentFrequencyTable.Line, input = lines.map some ∧
          result = m_entries ++ lines.map (fun line => line.toEntry idfOf) ∧
          (∀ line ∈ lines, line.wellFormed = true) ∧
          (lines.map (fun line => line.frequency)).Chain' (fun x y => Dbl.ge x y = true) ∧
          (∀ p line, previous = some p → lines.head? = some line →
            Dbl.gt line.frequency p = false) := by
  intro input
  induction input with
  | nil =>
    intro previous m_entries result h
    simp only [DocumentFrequencyTable.readLines, Except.ok.injEq] at h
    subst h
    exact ⟨[], by simp⟩
  | cons first rest ih =>
    intro previous m_entries result h
    cases first with
    | none => simp [DocumentFrequencyTable.readLines] at h
    | some line =>
      rw [DocumentFrequencyTable.readLines] at h
      split_ifs at h with h1 h2
      obtain ⟨lines, hin, hres, hwf, hchain, hprev⟩ := ih _ _ _ h
      have hw : line.wellFormed = true := by simpa using h1
      refine ⟨line :: lines, by rw [hin]; rfl, ?_, ?_, ?_, ?_⟩
      · rw [hres]
        simp
      · intro l hl
        rcases List.mem_cons.mp hl with rfl | hl
        · exact hw
        · exact hwf l hl
      · rw [List.map_cons, List.chain'_cons']
        refine ⟨?_, hchain⟩
        intro y hy
        cases lines with
        | nil => simp at hy
        | cons l2 rest2 =>
          simp only [List.map_cons, List.head?_cons, Option.mem_def, Option.some.injEq] at hy
          subst hy
          have hgt := hprev line.frequency l2 rfl rfl
          obtain ⟨p, hp⟩ := DocumentFrequencyTable_wellFormed_finite line hw
          obtain ⟨q, hq⟩ := DocumentFrequencyTable_wellFormed_finite l2
            (hwf l2 (List.mem_cons_self _ _))
          rw [hp, hq] at hgt ⊢
          exact Dbl.ge_of_not_gt_fin p q hgt
      · intro p l hp hl
        simp only [List.head?_cons, Option.some.injEq] at hl
        subst hl
        subst hp
        simpa [DocumentFrequencyTable.ascends] using h2

/-! ## Total footprint of TreatmentPrivateSharedRank0And3 -/

/-- A value that is `<` another is not `>=` it. -/
theorem Dbl.ge_false_of_lt {a b : Dbl} (h : Dbl.lt a b = true) : Dbl.ge a b = false := by
  cases a <;> cases b <;> simp_all [Dbl.ge, Dbl.le, Dbl.lt, Dbl.eq]
  · rename_i x y
    exact ⟨le_of_lt h, ne_of_gt h⟩

/-! ## The private row of TreatmentExperimental -/

/-- Without rounding, the 64th power of a finite value. -/
theorem Dbl.pow_fin_64 (a : ℚ) : Dbl.pow (Dbl.fin a) (Dbl.fin 64) = Dbl.fin (a ^ 64) := by
  have hden : (64 : ℚ).den = 1 := rfl
  have hnum : (64 : ℚ).num = 64 := rfl
  have hnat : Int.toNat 64 = 64 := rfl
  simp only [Dbl.pow, hden, hnum, hnat]
  norm_num

/-- Without rounding, the weight that a row leaves is finite and at most 1. -/
theorem Dbl.weight_le_one (r sr : ℚ) :
    ∃ w : ℚ, DblArith.exact.sub (Dbl.fin 1)
        (DblArith.exact.pow (DblArith.exact.sub (Dbl.fin 1)
          (DblArith.exact.add (Dbl.fin r) (Dbl.fin sr))) (Dbl.fin 64)) = Dbl.fin w ∧ w ≤ 1 := by
  refine ⟨1 - (1 - (r + sr)) ^ 64, ?_, sub_le_self 1 (Even.pow_nonneg ⟨32, rfl⟩ _)⟩
  show Dbl.sub (Dbl.fin 1) (Dbl.pow (Dbl.sub (Dbl.fin 1) (Dbl.add (Dbl.fin r) (Dbl.fin sr)))
    (Dbl.fin 64)) = _
  simp only [Dbl.add, Dbl.sub, Dbl.neg, Dbl.pow_fin_64]
  rw [sub_eq_add_neg 1 ((1 - (r + sr)) ^ 64), sub_eq_add_neg 1 (r + sr)]

/-- Without rounding, the rows of a rank add to the scan cost at most the cost
of one row each, and leave a weight that is at most 1 and a finite residual
noise, when they start from a finite scan cost, a weight that is at most 1 and,
past the first intersection, a finite residual noise. -/
theorem AnalyzeAlternate_rowLoop_scanCost_exact (density : Dbl) (sr nr fc : ℚ) (newNoise : Dbl)
    (hfc : 0 ≤ fc) :
    ∀ (n j : Nat) (s : AnalyzeAlternate.State) (c w : ℚ),
      s.scanCost = Dbl.fin c → s.weight = Dbl.fin w → w ≤ 1 →
      ((j = 0 ∧ s.firstIntersection = true) ∨
        ((∃ r, s.residualNoise = Dbl.fin r) ∧ (j = 0 → ∃ x, newNoise = Dbl.fin x))) →
      ∃ s' c' w', AnalyzeAlternate.rowLoop DblArith.exact density (Dbl.fin sr) (Dbl.fin nr)
          (Dbl.fin fc) newNoise n j s = s' ∧
        s'.scanCost = Dbl.fin c' ∧ c' ≤ c + n * fc ∧ s'.weight = Dbl.fin w' ∧ w' ≤ 1 ∧
        (0 < n → ∃ r, s'.residualNoise = Dbl.fin r) ∧
        s'.firstIntersection = s.firstIntersection ∧
        s'.lastSignalAtRank = s.lastSignalAtRank := by
  intro n
  induction n with
  | zero =>
    intro j s c w hc hw hw1 _
    exact ⟨s, c, w, rfl, hc, by simp, hw, hw1, fun h => absurd h (lt_irrefl 0), rfl, rfl⟩
  | succ n ih =>
    intro j s c w hc hw hw1 hpre
    have hR : ∃ r1, (if j = 0 then
          if (!s.firstIntersection) = true then
            DblArith.exact.mul (DblArith.exact.add newNoise s.residualNoise) (Dbl.fin nr)
          else Dbl.fin nr
        else DblArith.exact.mul s.residualNoise (Dbl.fin nr)) = Dbl.fin r1 := by
      rcases hpre with ⟨hj, hfirst⟩ | ⟨⟨r, hr⟩, hnn⟩
      · exact ⟨nr, by simp [hj, hfirst]⟩
      · by_cases hj : j = 0
        · obtain ⟨x, hx⟩ := hnn hj
          by_cases hfirst : s.firstIntersection = true
          · exact ⟨nr, by simp [hj, hfirst]⟩
          · exact ⟨(x + r) * nr, by
              simp [hj, hfirst, hr, hx, DblArith.exact, Dbl.add, Dbl.mul]⟩
        · exact ⟨r * nr, by simp [hj, hr, DblArith.exact, Dbl.mul]⟩
    obtain ⟨r1, hr1⟩ := hR
    obtain ⟨w1, hweq, hwle⟩ := Dbl.weight_le_one r1 sr
    have hscan : DblArith.exact.add (Dbl.fin c) (DblArith.exact.mul (Dbl.fin w) (Dbl.fin fc)) =
        Dbl.fin (c + w * fc) := rfl
    have hstep : AnalyzeAlternate.rowLoop DblArith.exact density (Dbl.fin sr) (Dbl.fin nr)
        (Dbl.fin fc) newNoise (n + 1) j s =
        AnalyzeAlternate.rowLoop DblArith.exact density (Dbl.fin sr) (Dbl.fin nr)
          (Dbl.fin fc) newNoise n (j + 1)
          ⟨Dbl.fin (c + w * fc), s.firstIntersection, Dbl.fin r1, s.lastSignalAtRank,
            Dbl.fin w1,
            if Dbl.gt (Dbl.fin sr) density then DblArith.exact.add s.memoryCost (Dbl.fin fc)
            else DblArith.exact.add s.memoryCost (DblArith.exact.div (Dbl.fin sr) density)⟩ := by
      rw [AnalyzeAlternate.rowLoop]
      simp only [hr1, hc, hw, hweq, hscan]
    obtain ⟨s', c', w', hs', h1, h2, h3, h4, h5, h6, h7⟩ := ih (j + 1)
      ⟨Dbl.fin (c + w * fc), s.firstIntersection, Dbl.fin r1, s.lastSignalAtRank,
        Dbl.fin w1,
        if Dbl.gt (Dbl.fin sr) density then DblArith.exact.add s.memoryCost (Dbl.fin fc)
        else DblArith.exact.add s.memoryCost (DblArith.exact.div (Dbl.fin sr) density)⟩
      (c + w * fc) w1 rfl rfl hwle
      (Or.inr ⟨⟨r1, rfl⟩, fun h => absurd h (Nat.succ_ne_zero j)⟩)
    refine ⟨s', c', w', by rw [hstep, hs'], h1, ?_, h3, h4, ?_, h6, h7⟩
    · have hwfc : w * fc ≤ fc := by nlinarith
      push_cast
      linarith
    · intro _
      by_cases hn : 0 < n
      · exact h5 hn
      · have hn0 : n = 0 := by omega
        subst hn0
        rw [AnalyzeAlternate.rowLoop] at hs'
        rw [← hs']
        exact ⟨r1, rfl⟩

/-- Without rounding, the noise of a rank is finite when the density and the
frequency at the rank are. -/
theorem Dbl.noise_fin (d sr : ℚ) :
    ∃ nr : ℚ, Dbl.max (DblArith.exact.sub (Dbl.fin d) (Dbl.fin sr)) (Dbl.fin 0) = Dbl.fin nr := by
  show ∃ nr : ℚ, Dbl.max (Dbl.sub (Dbl.fin d) (Dbl.fin sr)) (Dbl.fin 0) = Dbl.fin nr
  simp only [Dbl.max, Dbl.sub, Dbl.add, Dbl.neg, Dbl.lt]
  split_ifs
  · exact ⟨0, rfl⟩
  · exact ⟨_, rfl⟩

/-- Without rounding, with a finite density and finite frequencies at the
ranks, the loop over the ranks below `i`, at most 31 of them, of a vector
without negative entries adds to the scan cost at most `1 / 2^r` for each row
of each rank `r`. -/
theorem AnalyzeAlternate_rankLoop_scanCost_exact (T : TermModel) (rows : List Int) (d : ℚ)
    (signal : Dbl) (f : Nat → ℚ) (hrows : ∀ x ∈ rows, 0 ≤ x) (n : Nat) (hn : n ≤ 31)
    (hf : ∀ i, i < n → T.FrequencyAtRank signal i = Dbl.fin (f i)) :
    ∀ (i : Nat) (s : AnalyzeAlternate.State) (c w : ℚ), i ≤ n →
      s.scanCost = Dbl.fin c → s.weight = Dbl.fin w → w ≤ 1 →
      (s.firstIntersection = true ∨
        ((∃ r, s.residualNoise = Dbl.fin r) ∧ ∃ l, s.lastSignalAtRank = Dbl.fin l)) →
      ∃ c', (AnalyzeAlternate.rankLoop DblArith.exact T rows (Dbl.fin d) signal i s).scanCost =
          Dbl.fin c' ∧
        c' ≤ c + Finset.sum (Finset.range i) (fun r =>
          (((rows.getD r 0).toNat : Nat) : ℚ) * (1 / 2 ^ r)) := by
  intro i
  induction i with
  | zero =>
    intro s c w _ hc _ _ _
    exact ⟨c, hc, by simp⟩
  | succ i ih =>
    intro s c w hi hc hw hw1 hpre
    obtain ⟨nr, hnr⟩ := Dbl.noise_fin d (f i)
    have hfc : DblArith.exact.div (Dbl.fin 1) (Dbl.fin (shiftLeftOne i)) =
        Dbl.fin (1 / 2 ^ i) := shiftLeftOne_fullRowCost_of_lt i (by omega)
    rw [AnalyzeAlternate.rankLoop, Finset.sum_range_succ, hf i (by omega)]
    simp only [hnr, hfc]
    by_cases h0 : rows.getD i 0 = 0
    · simp only [h0, if_true, Int.toNat_zero, Nat.cast_zero, zero_mul, add_zero]
      refine ih _ c w (by omega) hc hw hw1 ?_
      rcases hpre with hfirst | ⟨⟨r, hr⟩, l, hl⟩
      · exact Or.inl hfirst
      · refine Or.inr ⟨⟨r + (l - f i), ?_⟩, f i, rfl⟩
        show DblArith.exact.add s.residualNoise
          (DblArith.exact.sub s.lastSignalAtRank (Dbl.fin (f i))) = _
        rw [hr, hl]
        simp [DblArith.exact, Dbl.add, Dbl.sub, Dbl.neg, sub_eq_add_neg]
    · have hpos : 0 < rows.getD i 0 := by
        have hnn : 0 ≤ rows.getD i 0 := by
          rw [List.getD_eq_getElem?_getD]
          by_cases hlt : i < rows.length
          · rw [List.getElem?_eq_getElem hlt]
            exact hrows _ (List.getElem_mem hlt)
          · rw [List.getElem?_eq_none (by omega)]
            rfl
        omega
      have hrowpre : ((0 : Nat) = 0 ∧ s.firstIntersection = true) ∨
          ((∃ r, s.residualNoise = Dbl.fin r) ∧
            ((0 : Nat) = 0 → ∃ x, DblArith.exact.sub s.lastSignalAtRank (Dbl.fin (f i)) =
              Dbl.fin x)) := by
        rcases hpre with hfirst | ⟨hr, l, hl⟩
        · exact Or.inl ⟨rfl, hfirst⟩
        · refine Or.inr ⟨hr, fun _ => ⟨l - f i, ?_⟩⟩
          rw [hl]
          simp [DblArith.exact, Dbl.add, Dbl.sub, Dbl.neg, sub_eq_add_neg]
      obtain ⟨s', c1, w1, hs', h1, h2, h3, h4, h5, _, h7⟩ :=
        AnalyzeAlternate_rowLoop_scanCost_exact (Dbl.fin d) (f i) nr (1 / 2 ^ i)
          (DblArith.exact.sub s.lastSignalAtRank (Dbl.fin (f i))) (by positivity)
          (rows.getD i 0).toNat 0
          ⟨s.scanCost, s.firstIntersection, s.residualNoise, Dbl.fin (f i), s.weight,
            s.memoryCost⟩ c w hc hw hw1 hrowpre
      simp only [h0, if_false]
      rw [hs']
      obtain ⟨r, hr⟩ := h5 (by omega)
      obtain ⟨c', hc', hle⟩ := ih ⟨s'.scanCost, false, s'.residualNoise, s'.lastSignalAtRank,
        s'.weight, s'.memoryCost⟩ c1 w1 (by omega) h1 h3 h4
        (Or.inr ⟨⟨r, hr⟩, f i, h7⟩)
      refine ⟨c', hc', ?_⟩
      linarith

/-- Ranks without rows leave the scan cost as it is, whatever the rounding. -/
theorem AnalyzeAlternate_rankLoop_scanCost_zero (A : DblArith) (T : TermModel) (rows : List Int)
    (density signal : Dbl) :
    ∀ (i : Nat) (s : AnalyzeAlternate.State), (∀ j, j < i → rows.getD j 0 = 0) →
      (AnalyzeAlternate.rankLoop A T rows density signal i s).scanCost = s.scanCost := by
  intro i
  induction i with
  | zero => intro s _; rfl
  | succ i ih =>
    intro s h
    rw [AnalyzeAlternate.rankLoop]
    simp only [h i (Nat.lt_succ_self i), if_true]
    exact ih _ (fun j hj => h j (by omega))

/-- A vector with a single row, at its highest rank `r`, is charged the cost
of that row with the initial weight 1, whatever the rounding. -/
theorem AnalyzeAlternate_single_row_scanCost (A : DblArith) (T : TermModel)
    (density signal : Dbl) (r : Nat) :
    (AnalyzeAlternate A T (List.replicate r 0 ++ [1]) density signal).m_scanCost =
      A.add (Dbl.fin 0)
        (A.mul (Dbl.fin 1) (A.div (Dbl.fin 1) (Dbl.fin (shiftLeftOne r)))) := by
  have hget : ∀ j, (List.replicate r (0 : Int) ++ [1]).getD j 0 = if j = r then 1 else 0 := by
    intro j
    by_cases hj : j < r
    · rw [List.getD_append _ _ _ _ (by simpa using hj), getD_replicate_zero, if_neg (by omega)]
    · rw [List.getD_append_right _ _ _ _ (by simpa using hj), List.length_replicate]
      by_cases hjr : j = r
      · rw [if_pos hjr, hjr, Nat.sub_self]
        rfl
      · rw [if_neg hjr]
        obtain ⟨k, hk⟩ : ∃ k, j - r = k + 1 := ⟨j - r - 1, by omega⟩
        rw [hk]
        rfl
  have hne : ¬ ((1 : Int) = 0) := by decide
  have htn : (1 : Int).toNat = 1 := rfl
  rw [AnalyzeAlternate_eq_final]
  show (AnalyzeAlternate.final A T (List.replicate r 0 ++ [1]) density signal).scanCost = _
  unfold AnalyzeAlternate.final
  rw [List.length_append, List.length_replicate, List.length_singleton,
    AnalyzeAlternate.rankLoop]
  simp only [hget r, if_true, if_neg hne, htn]
  rw [AnalyzeAlternate_rankLoop_scanCost_zero A T _ density signal r _
    (fun j hj => by rw [hget j, if_neg (by omega)])]
  rfl

/-! ## The row count and the SNR floor -/

/-- The row-count search passes only counts that fail its test. -/
theorem specComputeRowCount.search_below (x t : ℚ) :
    ∀ (fuel k j : Nat), k ≤ j → j < specComputeRowCount.search x t fuel k → ¬ x ^ j ≤ t := by
  intro fuel
  induction fuel with
  | zero =>
    intro k j hkj hj
    simp only [specComputeRowCount.search] at hj
    omega
  | succ n ih =>
    intro k j hkj hj
    by_cases h : x ^ k ≤ t
    · rw [specComputeRowCount.search_stop _ _ _ _ h] at hj
      omega
    · rw [specComputeRowCount.search_step _ _ _ _ h] at hj
      rcases Nat.eq_or_lt_of_le hkj with heq | hlt
      · rw [← heq]
        exact h
      · exact ih (k + 1) j hlt hj

/-- The row-count search returns a count that passes its test, or runs out of
steps. -/
theorem specComputeRowCount.search_stop_or_exhaust (x t : ℚ) :
    ∀ (fuel k : Nat), x ^ specComputeRowCount.search x t fuel k ≤ t ∨
      specComputeRowCount.search x t fuel k = k + fuel := by
  intro fuel
  induction fuel with
  | zero =>
    intro k
    right
    simp [specComputeRowCount.search]
  | succ n ih =>
    intro k
    by_cases h : x ^ k ≤ t
    · left
      rw [specComputeRowCount.search_stop _ _ _ _ h]
      exact h
    · rw [specComputeRowCount.search_step _ _ _ _ h]
      rcases ih (k + 1) with h1 | h1
      · exact Or.inl h1
      · right
        rw [h1]
        omega

/-- The row-count search returns the least count that passes its test when one
does within its steps. -/
theorem specComputeRowCount.search_found (x t : ℚ) (fuel k j : Nat) (hkj : k ≤ j)
    (hj : j ≤ k + fuel) (hx : x ^ j ≤ t) :
    x ^ specComputeRowCount.search x t fuel k ≤ t := by
  rcases specComputeRowCount.search_stop_or_exhaust x t fuel k with h | h
  · exact h
  · rcases Nat.lt_or_ge j (specComputeRowCount.search x t fuel k) with hlt | hge
    · exact absurd hx (specComputeRowCount.search_below x t fuel k j hkj hlt)
    · have : j = specComputeRowCount.search x t fuel k := by omega
      rw [← this]
      exact hx

/-- The row count of a finite frequency below the density, at a positive
snr. -/
theorem specComputeRowCount_shared (q d s : ℚ) (hqd : q < d) (hs : 0 < s) :
    specTermModel.ComputeRowCount (Dbl.fin q) (Dbl.fin d) (Dbl.fin s) =
      ((specComputeRowCount.search (d - q) (q / s) (2 ^ 32 - 2) 1 : Nat) : Int) := by
  have hcond : ¬ (q ≥ d ∨ s ≤ 0) := by
    rintro (h | h)
    · exact absurd hqd (not_lt.mpr h)
    · exact absurd hs (not_lt.mpr h)
  show specComputeRowCount (Dbl.fin q) (Dbl.fin d) (Dbl.fin s) = _
  simp only [specComputeRowCount, if_neg hcond]

/-- Without rounding, `k + 1` rows at rank 0 and none above meet the SNR floor
exactly when `(density - f)^(k + 1) <= f / snr`. -/
theorem AnalyzeAlternate_rank0_floor_iff (T : TermModel) (q d s : ℚ) (k n : Nat) (hqd : q < d)
    (hs : 0 < s) (hT : T.FrequencyAtRank (Dbl.fin q) 0 = Dbl.fin q) :
    Dbl.ge (AnalyzeAlternate DblArith.exact T (((k + 1 : Nat) : Int) :: List.replicate n 0)
      (Dbl.fin d) (Dbl.fin q)).GetSNR (Dbl.fin s) = true ↔ (d - q) ^ (k + 1) ≤ q / s := by
  rw [AnalyzeAlternate_rank0_snr_exact T q d k n hqd hT]
  have hpos : 0 < (d - q) ^ (k + 1) := pow_pos (by linarith) _
  simp only [Dbl.ge, Dbl.le, Dbl.lt, Dbl.eq, Bool.or_eq_true, decide_eq_true_eq]
  rw [← le_iff_lt_or_eq, le_div_iff₀ hpos, le_div_iff₀ hs, mul_comm]

/-- The row-count search makes no more steps than it is given. -/
theorem specComputeRowCount.search_le (x t : ℚ) :
    ∀ (fuel k : Nat), specComputeRowCount.search x t fuel k ≤ k + fuel := by
  intro fuel
  induction fuel with
  | zero => intro k; simp [specComputeRowCount.search]
  | succ n ih =>
    intro k
    rw [specComputeRowCount.search]
    split_ifs
    · omega
    · have := ih (k + 1)
      omega

/-- A lower bound for the powers of a value in `[0, 1]`, from Bernoulli's
inequality: with `y <= 1 + m (x - 1)`, every power of `x` up to the `m n`-th is
at least `y ^ n`. -/
theorem specPow_lower_bound (x y : ℚ) (m n : Nat) (hx0 : 0 ≤ x) (hx1 : x ≤ 1) (hy0 : 0 ≤ y)
    (hy : y ≤ 1 + (m : ℚ) * (x - 1)) : ∀ j, j ≤ m * n → y ^ n ≤ x ^ j := by
  have hb : 1 + (m : ℚ) * (x - 1) ≤ (1 + (x - 1)) ^ m := one_add_mul_le_pow (by linarith) m
  have hxm : y ≤ x ^ m := by
    have h1 : 1 + (x - 1) = x := by ring
    rw [h1] at hb
    exact le_trans hy hb
  intro j hj
  calc y ^ n ≤ (x ^ m) ^ n := pow_le_pow_left₀ hy0 hxm n
    _ = x ^ (m * n) := (pow_mul x m n).symm
    _ ≤ x ^ j := pow_le_pow_of_le_one hx0 hx1 hj

theorem specIdfX10ToFrequency_90 :
    specTermModel.IdfX10ToFrequency 90 = Dbl.fin (1 / 1000000000) := by
  simp [specTermModel, specIdfX10ToFrequency, specTenthPowers]
  norm_num

/-- With frequency `10^-9`, density `1 - 10^-10` and snr 10, no count up to
`2^32` passes the test of the row count. -/
theorem specRowCount_test_fails (j : Nat) (hj : j ≤ 4294967296) :
    ¬ (9999999999 / 10000000000 - 1 / 1000000000 : ℚ) ^ j ≤ 1 / 1000000000 / 10 := by
  have hx : (9999999999 / 10000000000 - 1 / 1000000000 : ℚ) = 9999999989 / 10000000000 := by
    norm_num
  rw [hx]
  generalize hxdef : (9999999989 / 10000000000 : ℚ) = x
  have hx0 : 0 ≤ x := by rw [← hxdef]; norm_num
  have hx1 : x ≤ 1 := by rw [← hxdef]; norm_num
  have hy : (7 / 10 : ℚ) ≤ 1 + ((268435456 : Nat) : ℚ) * (x - 1) := by
    rw [← hxdef]
    norm_num
  have hbound := specPow_lower_bound x (7 / 10) 268435456 16 hx0 hx1 (by norm_num) hy j
    (by omega)
  have ht : (1 / 1000000000 / 10 : ℚ) < (7 / 10) ^ 16 := by norm_num
  intro hle
  exact absurd (lt_of_lt_of_le ht hbound) (not_lt.mpr hle)

/-! ## The scan cost under rounding -/

/-- Without rounding, no weight exceeds 1. -/
theorem DblArith_exact_weight (x : Dbl) :
    Dbl.gt (DblArith.exact.sub (Dbl.fin 1) (DblArith.exact.pow x (Dbl.fin 64))) (Dbl.fin 1)
      = false := by
  have hden : (64 : ℚ).den = 1 := rfl
  have hnum : (64 : ℚ).num = 64 := rfl
  cases x with
  | nan => simp [DblArith.exact, Dbl.pow, Dbl.sub, Dbl.add, Dbl.neg, Dbl.gt, Dbl.lt, hden, hnum]
  | pinf => simp [DblArith.exact, Dbl.pow, Dbl.sub, Dbl.add, Dbl.neg, Dbl.gt, Dbl.lt, hden, hnum]
  | ninf => simp [DblArith.exact, Dbl.pow, Dbl.sub, Dbl.add, Dbl.neg, Dbl.gt, Dbl.lt, hden, hnum]
  | fin a =>
    show Dbl.gt (Dbl.sub (Dbl.fin 1) (Dbl.pow (Dbl.fin a) (Dbl.fin 64))) (Dbl.fin 1) = false
    rw [Dbl.pow_fin_64]
    have h : (0 : ℚ) ≤ a ^ 64 := Even.pow_nonneg ⟨32, rfl⟩ a
    generalize a ^ 64 = p at h
    simp only [Dbl.sub, Dbl.add, Dbl.neg, Dbl.gt, Dbl.lt, decide_eq_false_iff_not, not_lt]
    linarith

/-- Without rounding, a value that does not exceed 1 times a cost that is not
negative does not exceed the cost. -/
theorem DblArith_exact_mul_le (w : Dbl) (c : ℚ) (hc : 0 < c)
    (hw : Dbl.gt w (Dbl.fin 1) = false) :
    Dbl.gt (DblArith.exact.mul w (Dbl.fin c)) (Dbl.fin c) = false := by
  have hc0 : c ≠ 0 := ne_of_gt hc
  cases w with
  | nan => rfl
  | pinf => simp [Dbl.gt, Dbl.lt] at hw
  | ninf => simp [DblArith.exact, Dbl.mul, Dbl.gt, Dbl.lt, hc0, hc]
  | fin a =>
    simp only [Dbl.gt, Dbl.lt, decide_eq_false_iff_not, not_lt] at hw
    simp only [DblArith.exact, Dbl.mul, Dbl.gt, Dbl.lt, decide_eq_false_iff_not, not_lt]
    nlinarith

/-- Without rounding, the sum of two values that do not exceed two bounds does
not exceed the sum of the bounds. -/
theorem DblArith_exact_add_le (a b : Dbl) (x y : ℚ) (ha : Dbl.gt a (Dbl.fin x) = false)
    (hb : Dbl.gt b (Dbl.fin y) = false) :
    Dbl.gt (DblArith.exact.add a b) (Dbl.fin (x + y)) = false := by
  cases a <;> cases b <;>
    simp only [DblArith.exact, Dbl.add, Dbl.gt, Dbl.lt, decide_eq_false_iff_not, not_lt,
      Bool.true_eq_false] at ha hb ⊢
  linarith

/-- The cost of a row of a rank up to 30 on the scale of `2^-30`. -/
theorem fullRowCost_scaled (i : Nat) (hi : i ≤ 30) :
    (((2 ^ (30 - i) : Nat) : ℚ)) / 2 ^ 30 = 1 / 2 ^ i := by
  have h : (2 : ℚ) ^ 30 = 2 ^ (30 - i) * 2 ^ i := by
    rw [← pow_add, Nat.sub_add_cancel hi]
  have h1 : (2 : ℚ) ^ (30 - i) ≠ 0 := pow_ne_zero _ (by norm_num)
  have h2 : (2 : ℚ) ^ i ≠ 0 := pow_ne_zero _ (by norm_num)
  push_cast
  rw [h]
  field_simp

/-- For an arithmetic whose weights do not exceed 1 and whose products and sums
do not exceed what they round, the rows of a rank up to 30 add to the scan cost
at most the cost `1 / 2^i` of one row each, and leave a weight that does not
exceed 1. A value does not exceed a bound when it is at most the bound or NaN. -/
theorem AnalyzeAlternate_rowLoop_scanCost_le (A : DblArith) (density sr nr newNoise : Dbl)
    (i : Nat) (hi : i ≤ 30) (B : Nat)
    (hweight : ∀ x, Dbl.gt (A.sub (Dbl.fin 1) (A.pow x (Dbl.fin 64))) (Dbl.fin 1) = false)
    (hmul : ∀ w, Dbl.gt w (Dbl.fin 1) = false →
      Dbl.gt (A.mul w (Dbl.fin (1 / 2 ^ i))) (Dbl.fin (1 / 2 ^ i)) = false)
    (hadd : ∀ (a b : Dbl) (m n : Nat), m + n < B →
      Dbl.gt a (Dbl.fin ((m : ℚ) / 2 ^ 30)) = false →
      Dbl.gt b (Dbl.fin ((n : ℚ) / 2 ^ 30)) = false →
      Dbl.gt (A.add a b) (Dbl.fin (((m + n : Nat) : ℚ) / 2 ^ 30)) = false) :
    ∀ (n j : Nat) (s : AnalyzeAlternate.State) (m : Nat), m + n * 2 ^ (30 - i) < B →
      Dbl.gt s.scanCost (Dbl.fin ((m : ℚ) / 2 ^ 30)) = false →
      Dbl.gt s.weight (Dbl.fin 1) = false →
      Dbl.gt (AnalyzeAlternate.rowLoop A density sr nr (Dbl.fin (1 / 2 ^ i)) newNoise n j
          s).scanCost (Dbl.fin (((m + n * 2 ^ (30 - i) : Nat) : ℚ) / 2 ^ 30)) = false ∧
      Dbl.gt (AnalyzeAlternate.rowLoop A density sr nr (Dbl.fin (1 / 2 ^ i)) newNoise n j
          s).weight (Dbl.fin 1) = false := by
  intro n
  induction n with
  | zero =>
    intro j s m _ hs hw
    simp only [AnalyzeAlternate.rowLoop, Nat.zero_mul, Nat.add_zero]
    exact ⟨hs, hw⟩
  | succ n ih =>
    intro j s m hm hs hw
    rw [AnalyzeAlternate.rowLoop]
    have hm1 : m + 2 ^ (30 - i) + n * 2 ^ (30 - i) = m + (n + 1) * 2 ^ (30 - i) := by ring
    have hprod : Dbl.gt (A.mul s.weight (Dbl.fin (1 / 2 ^ i)))
        (Dbl.fin (((2 ^ (30 - i) : Nat) : ℚ) / 2 ^ 30)) = false := by
      rw [fullRowCost_scaled i hi]
      exact hmul _ hw
    have hstep := hadd s.scanCost (A.mul s.weight (Dbl.fin (1 / 2 ^ i))) m (2 ^ (30 - i))
      (by
        have : 0 ≤ n * 2 ^ (30 - i) := Nat.zero_le _
        omega) hs hprod
    rw [← hm1]
    refine ih (j + 1) _ (m + 2 ^ (30 - i)) (by rw [hm1]; exact hm) ?_ ?_
    · exact hstep
    · exact hweight _

/-- For an arithmetic whose weights do not exceed 1, whose products and sums do
not exceed what they round and which divides 1 by a power of two exactly, the
loop over the ranks below `i`, at most 31 of them, adds to the scan cost at
most `1 / 2^r` for each row of each rank `r`. The bounds are counted in units
of `2^-30` and stay below `B` units; up to `B = 2^53` they are doubles. -/
theorem AnalyzeAlternate_rankLoop_scanCost_le (A : DblArith) (T : TermModel) (rows : List Int)
    (density signal : Dbl) (B : Nat)
    (hcost : ∀ i, i ≤ 30 → A.div (Dbl.fin 1) (Dbl.fin (2 ^ i)) = Dbl.fin (1 / 2 ^ i))
    (hweight : ∀ x, Dbl.gt (A.sub (Dbl.fin 1) (A.pow x (Dbl.fin 64))) (Dbl.fin 1) = false)
    (hmul : ∀ (w : Dbl) (i : Nat), i ≤ 30 → Dbl.gt w (Dbl.fin 1) = false →
      Dbl.gt (A.mul w (Dbl.fin (1 / 2 ^ i))) (Dbl.fin (1 / 2 ^ i)) = false)
    (hadd : ∀ (a b : Dbl) (m n : Nat), m + n < B →
      Dbl.gt a (Dbl.fin ((m : ℚ) / 2 ^ 30)) = false →
      Dbl.gt b (Dbl.fin ((n : ℚ) / 2 ^ 30)) = false →
      Dbl.gt (A.add a b) (Dbl.fin (((m + n : Nat) : ℚ) / 2 ^ 30)) = false) :
    ∀ (i : Nat) (s : AnalyzeAlternate.State) (m : Nat), i ≤ 31 →
      m + Finset.sum (Finset.range i) (fun r => (rows.getD r 0).toNat * 2 ^ (30 - r)) < B →
      Dbl.gt s.scanCost (Dbl.fin ((m : ℚ) / 2 ^ 30)) = false →
      Dbl.gt s.weight (Dbl.fin 1) = false →
      Dbl.gt (AnalyzeAlternate.rankLoop A T rows density signal i s).scanCost
        (Dbl.fin (((m + Finset.sum (Finset.range i)
          (fun r => (rows.getD r 0).toNat * 2 ^ (30 - r)) : Nat) : ℚ) / 2 ^ 30)) = false := by
  intro i
  induction i with
  | zero =>
    intro s m _ _ hs _
    simpa [AnalyzeAlternate.rankLoop] using hs
  | succ i ih =>
    intro s m hi hm hs hw
    rw [Finset.sum_range_succ] at hm ⊢
    rw [AnalyzeAlternate.rankLoop, shiftLeftOne_cast i (by omega), hcost i (by omega)]
    by_cases h0 : rows.getD i 0 = 0
    · simp only [h0, if_true, Int.toNat_zero, Nat.zero_mul, Nat.add_zero] at hm ⊢
      exact ih _ m (by omega) hm hs hw
    · simp only [h0, if_false]
      have hrow := AnalyzeAlternate_rowLoop_scanCost_le A density (T.FrequencyAtRank signal i)
        (Dbl.max (A.sub density (T.FrequencyAtRank signal i)) (Dbl.fin 0))
        (A.sub s.lastSignalAtRank (T.FrequencyAtRank signal i)) i (by omega) B hweight
        (fun w hw1 => hmul w i (by omega) hw1) hadd (rows.getD i 0).toNat 0
        ⟨s.scanCost, s.firstIntersection, s.residualNoise, T.FrequencyAtRank signal i,
          s.weight, s.memoryCost⟩ m (by omega) hs hw
      have hassoc : m + (rows.getD i 0).toNat * 2 ^ (30 - i) +
          Finset.sum (Finset.range i) (fun r => (rows.getD r 0).toNat * 2 ^ (30 - r)) =
          m + (Finset.sum (Finset.range i) (fun r => (rows.getD r 0).toNat * 2 ^ (30 - r)) +
            (rows.getD i 0).toNat * 2 ^ (30 - i)) := by ring
      rw [← hassoc]
      refine ih _ (m + (rows.getD i 0).toNat * 2 ^ (30 - i)) (by omega) (by omega) ?_ ?_
      · exact hrow.1
      · exact hrow.2

/-- The sum of the costs of the rows of at most 31 ranks, counted in units of
`2^-30`. -/
theorem rowCost_sum_scaled (rows : List Int) (hrows : ∀ x ∈ rows, 0 ≤ x) :
    ∀ n, n ≤ 31 → n ≤ rows.length →
      ((Finset.sum (Finset.range n) (fun r => (rows.getD r 0).toNat * 2 ^ (30 - r)) : Nat) : ℚ)
          / 2 ^ 30 =
        Finset.sum (Finset.range n) (fun i => ((rows.getD i 0 : Int) : ℚ) / 2 ^ i) := by
  intro n
  induction n with
  | zero => intro _ _; simp
  | succ n ih =>
    intro hn hlen
    rw [Finset.sum_range_succ, Finset.sum_range_succ, ← ih (by omega) (by omega)]
    have hnn : 0 ≤ rows.getD n 0 := by
      rw [List.getD_eq_getElem?_getD, List.getElem?_eq_getElem (by omega)]
      exact hrows _ (List.getElem_mem _)
    have hcast : (((rows.getD n 0).toNat : Nat) : ℚ) = ((rows.getD n 0 : Int) : ℚ) := by
      rw [← Int.cast_natCast, Int.toNat_of_nonneg hnn]
    have hsc := fullRowCost_scaled n (by omega)
    push_cast at hsc ⊢
    rw [hcast, add_div, mul_div_assoc, hsc]
    ring

/-- At rank 31 the shift is `INT_MIN`: without rounding, a vector with a single
row, at rank 31, has the scan cost `-2^-31`. -/
theorem AnalyzeAlternate_single_row_scanCost_31 (T : TermModel) (density signal : Dbl) :
    (AnalyzeAlternate DblArith.exact T (List.replicate 31 0 ++ [1]) density signal).m_scanCost =
      Dbl.fin (-1 / 2147483648) := by
  rw [AnalyzeAlternate_single_row_scanCost, shiftLeftOne_31]
  simp only [DblArith.exact, Dbl.add, Dbl.mul, Dbl.div]
  norm_num

/-! ## Costs that are not NaN -/

/-- Anything plus NaN is NaN. -/
theorem Dbl.add_nan (x : Dbl) : Dbl.add x Dbl.nan = Dbl.nan := by
  cases x <;> rfl

/-- A quotient by NaN is NaN. -/
theorem Dbl.div_nan (x : Dbl) : Dbl.div x Dbl.nan = Dbl.nan := by
  cases x <;> rfl

/-- Without rounding, with a finite density other than 0 and a finite frequency
and noise at the rank, the rows of a rank leave a finite memory cost, and
either the residual noise NaN or a finite residual noise, scan cost and weight.
They start from a finite memory cost and: from the first intersection with a
finite scan cost and weight and the residual noise NaN; or from the residual
noise NaN past the first intersection; or from a finite residual noise, scan
cost and weight past the first intersection. -/
theorem AnalyzeAlternate_rowLoop_finite (d sr nr fc : ℚ) (hd : d ≠ 0) (newNoise : Dbl) :
    ∀ (n j : Nat) (s : AnalyzeAlternate.State), (∃ m, s.memoryCost = Dbl.fin m) →
      ((j = 0 ∧ s.firstIntersection = true ∧ s.residualNoise = Dbl.nan ∧
          (∃ c, s.scanCost = Dbl.fin c) ∧ ∃ w, s.weight = Dbl.fin w) ∨
        (s.residualNoise = Dbl.nan ∧ (j = 0 → s.firstIntersection = false)) ∨
        ((∃ r, s.residualNoise = Dbl.fin r) ∧ (∃ c, s.scanCost = Dbl.fin c) ∧
          (∃ w, s.weight = Dbl.fin w) ∧
          (j = 0 → s.firstIntersection = false ∧ ∃ x, newNoise = Dbl.fin x))) →
      ∃ s', AnalyzeAlternate.rowLoop DblArith.exact (Dbl.fin d) (Dbl.fin sr) (Dbl.fin nr)
          (Dbl.fin fc) newNoise n j s = s' ∧
        (∃ m, s'.memoryCost = Dbl.fin m) ∧ s'.lastSignalAtRank = s.lastSignalAtRank ∧
        (s'.residualNoise = Dbl.nan ∨
          ((∃ r, s'.residualNoise = Dbl.fin r) ∧ (∃ c, s'.scanCost = Dbl.fin c) ∧
            ∃ w, s'.weight = Dbl.fin w)) := by
  intro n
  induction n with
  | zero =>
    intro j s hm hpre
    refine ⟨s, rfl, hm, rfl, ?_⟩
    rcases hpre with ⟨_, _, hr, _, _⟩ | ⟨hr, _⟩ | ⟨hr, hc, hw, _⟩
    · exact Or.inl hr
    · exact Or.inl hr
    · exact Or.inr ⟨hr, hc, hw⟩
  | succ n ih =>
    intro j s hm hpre
    obtain ⟨m, hm⟩ := hm
    have hmem : ∃ m', (if Dbl.gt (Dbl.fin sr) (Dbl.fin d) = true then
          DblArith.exact.add s.memoryCost (Dbl.fin fc)
        else DblArith.exact.add s.memoryCost (DblArith.exact.div (Dbl.fin sr) (Dbl.fin d))) =
        Dbl.fin m' := by
      rw [hm]
      split_ifs
      · exact ⟨m + fc, rfl⟩
      · exact ⟨m + sr / d, by simp [DblArith.exact, Dbl.add, Dbl.div, hd]⟩
    rw [AnalyzeAlternate.rowLoop]
    have hnext : ∀ s1 : AnalyzeAlternate.State, s1.lastSignalAtRank = s.lastSignalAtRank →
        (∃ m, s1.memoryCost = Dbl.fin m) →
        (s1.residualNoise = Dbl.nan ∨
          ((∃ r, s1.residualNoise = Dbl.fin r) ∧ (∃ c, s1.scanCost = Dbl.fin c) ∧
            ∃ w, s1.weight = Dbl.fin w)) →
        ∃ s', AnalyzeAlternate.rowLoop DblArith.exact (Dbl.fin d) (Dbl.fin sr) (Dbl.fin nr)
            (Dbl.fin fc) newNoise n (j + 1) s1 = s' ∧
          (∃ m, s'.memoryCost = Dbl.fin m) ∧ s'.lastSignalAtRank = s.lastSignalAtRank ∧
          (s'.residualNoise = Dbl.nan ∨
            ((∃ r, s'.residualNoise = Dbl.fin r) ∧ (∃ c, s'.scanCost = Dbl.fin c) ∧
              ∃ w, s'.weight = Dbl.fin w)) := by
      intro s1 hl hm1 h1
      obtain ⟨s', hs', hm', hl', hq⟩ := ih (j + 1) s1 hm1 (by
        rcases h1 with hr | ⟨hr, hc, hw⟩
        · exact Or.inr (Or.inl ⟨hr, fun h => absurd h (Nat.succ_ne_zero j)⟩)
        · exact Or.inr (Or.inr ⟨hr, hc, hw, fun h => absurd h (Nat.succ_ne_zero j)⟩))
      exact ⟨s', hs', hm', hl'.trans hl, hq⟩
    refine hnext _ ?_ ?_ ?_
    · rfl
    · exact hmem
    rcases hpre with ⟨hj, hfirst, _, ⟨c, hc⟩, w, hw⟩ | ⟨hr, hj⟩ | ⟨⟨r, hr⟩, ⟨c, hc⟩, ⟨w, hw⟩, hj⟩
    · refine Or.inr ⟨⟨nr, by simp [hj, hfirst]⟩, ⟨c + w * fc, ?_⟩, ?_⟩
      · show DblArith.exact.add s.scanCost (DblArith.exact.mul s.weight (Dbl.fin fc)) = _
        rw [hc, hw]
        rfl
      · obtain ⟨w1, hw1, _⟩ := Dbl.weight_le_one nr sr
        refine ⟨w1, ?_⟩
        simp only [hj, hfirst, if_true, Bool.not_true, Bool.false_eq_true, if_false]
        exact hw1
    · refine Or.inl ?_
      show (if j = 0 then
          if (!s.firstIntersection) = true then
            DblArith.exact.mul (DblArith.exact.add newNoise s.residualNoise) (Dbl.fin nr)
          else Dbl.fin nr
        else DblArith.exact.mul s.residualNoise (Dbl.fin nr)) = Dbl.nan
      rw [hr]
      by_cases hj0 : j = 0
      · rw [if_pos hj0, hj hj0]
        show Dbl.mul (Dbl.add newNoise Dbl.nan) (Dbl.fin nr) = Dbl.nan
        rw [Dbl.add_nan]
        rfl
      · rw [if_neg hj0]
        rfl
    · have hres : ∃ r1, (if j = 0 then
            if (!s.firstIntersection) = true then
              DblArith.exact.mul (DblArith.exact.add newNoise s.residualNoise) (Dbl.fin nr)
            else Dbl.fin nr
          else DblArith.exact.mul s.residualNoise (Dbl.fin nr)) = Dbl.fin r1 := by
        rw [hr]
        by_cases hj0 : j = 0
        · obtain ⟨hfirst, x, hx⟩ := hj hj0
          rw [if_pos hj0, hfirst, hx]
          exact ⟨(x + r) * nr, rfl⟩
        · rw [if_neg hj0]
          exact ⟨r * nr, rfl⟩
      obtain ⟨r1, hr1⟩ := hres
      refine Or.inr ⟨⟨r1, hr1⟩, ⟨c + w * fc, ?_⟩, ?_⟩
      · show DblArith.exact.add s.scanCost (DblArith.exact.mul s.weight (Dbl.fin fc)) = _
        rw [hc, hw]
        rfl
      · obtain ⟨w1, hw1, _⟩ := Dbl.weight_le_one r1 sr
        refine ⟨w1, ?_⟩
        simp only [hr1]
        exact hw1

/-- Without rounding, with a finite density other than 0 and finite frequencies
at the ranks, the loop over the ranks below `i` ends with the residual noise
NaN, or with a finite scan cost and a finite memory cost, whatever the rows
are. -/
theorem AnalyzeAlternate_rankLoop_finite (T : TermModel) (rows : List Int) (d : ℚ)
    (signal : Dbl) (hd : d ≠ 0) (n : Nat)
    (hf : ∀ i, i < n → ∃ q, T.FrequencyAtRank signal i = Dbl.fin q) :
    ∀ (i : Nat) (s : AnalyzeAlternate.State), i ≤ n → (∃ m, s.memoryCost = Dbl.fin m) →
      ((s.firstIntersection = true ∧ s.residualNoise = Dbl.nan ∧
          (∃ c, s.scanCost = Dbl.fin c) ∧ ∃ w, s.weight = Dbl.fin w) ∨
        (s.firstIntersection = false ∧ s.residualNoise = Dbl.nan) ∨
        (s.firstIntersection = false ∧ (∃ r, s.residualNoise = Dbl.fin r) ∧
          (∃ l, s.lastSignalAtRank = Dbl.fin l) ∧ (∃ c, s.scanCost = Dbl.fin c) ∧
          ∃ w, s.weight = Dbl.fin w)) →
      (AnalyzeAlternate.rankLoop DblArith.exact T rows (Dbl.fin d) signal i s).residualNoise =
          Dbl.nan ∨
        ((∃ c, (AnalyzeAlternate.rankLoop DblArith.exact T rows (Dbl.fin d) signal i s).scanCost =
            Dbl.fin c) ∧
          ∃ m, (AnalyzeAlternate.rankLoop DblArith.exact T rows (Dbl.fin d) signal i
            s).memoryCost = Dbl.fin m) := by
  intro i
  induction i with
  | zero =>
    intro s _ hm hpre
    rw [AnalyzeAlternate.rankLoop]
    rcases hpre with ⟨_, hr, _, _⟩ | ⟨_, hr⟩ | ⟨_, _, _, hc, _⟩
    · exact Or.inl hr
    · exact Or.inl hr
    · exact Or.inr ⟨hc, hm⟩
  | succ i ih =>
    intro s hi hm hpre
    obtain ⟨sr, hsr⟩ := hf i (by omega)
    obtain ⟨nr, hnr⟩ := Dbl.noise_fin d sr
    rw [AnalyzeAlternate.rankLoop, hsr]
    simp only [hnr, shiftLeftOne_fullRowCost]
    by_cases h0 : rows.getD i 0 = 0
    · simp only [h0, if_true]
      refine ih _ (by omega) hm ?_
      rcases hpre with ⟨hfirst, hr, hc, hw⟩ | ⟨hfirst, hr⟩ |
        ⟨hfirst, ⟨r, hr⟩, ⟨l, hl⟩, hc, hw⟩
      · refine Or.inl ⟨hfirst, ?_, hc, hw⟩
        show Dbl.add s.residualNoise _ = Dbl.nan
        rw [hr, Dbl.nan_add]
      · refine Or.inr (Or.inl ⟨hfirst, ?_⟩)
        show Dbl.add s.residualNoise _ = Dbl.nan
        rw [hr, Dbl.nan_add]
      · refine Or.inr (Or.inr ⟨hfirst, ⟨r + (l - sr), ?_⟩, ⟨sr, rfl⟩, hc, hw⟩)
        show DblArith.exact.add s.residualNoise
          (DblArith.exact.sub s.lastSignalAtRank (Dbl.fin sr)) = _
        rw [hr, hl]
        simp [DblArith.exact, Dbl.add, Dbl.sub, Dbl.neg, sub_eq_add_neg]
    · simp only [h0, if_false]
      obtain ⟨s', hs', hm', hl', hq⟩ := AnalyzeAlternate_rowLoop_finite d sr nr
        (1 / (shiftLeftOne i : ℚ)) hd (DblArith.exact.sub s.lastSignalAtRank (Dbl.fin sr))
        (rows.getD i 0).toNat 0
        ⟨s.scanCost, s.firstIntersection, s.residualNoise, Dbl.fin sr, s.weight, s.memoryCost⟩
        hm (by
          rcases hpre with ⟨hfirst, hr, hc, hw⟩ | ⟨hfirst, hr⟩ |
            ⟨hfirst, hr, ⟨l, hl⟩, hc, hw⟩
          · exact Or.inl ⟨rfl, hfirst, hr, hc, hw⟩
          · exact Or.inr (Or.inl ⟨hr, fun _ => hfirst⟩)
          · refine Or.inr (Or.inr ⟨hr, hc, hw, fun _ => ⟨hfirst, l - sr, ?_⟩⟩)
            show DblArith.exact.sub s.lastSignalAtRank (Dbl.fin sr) = _
            rw [hl]
            simp [DblArith.exact, Dbl.add, Dbl.sub, Dbl.neg, sub_eq_add_neg])
      rw [hs']
      refine ih _ (by omega) hm' ?_
      rcases hq with hr | ⟨hr, hc, hw⟩
      · exact Or.inr (Or.inl ⟨rfl, hr⟩)
      · exact Or.inr (Or.inr ⟨rfl, hr, ⟨sr, hl'⟩, hc, hw⟩)

/-- Without rounding, with a finite density other than 0 and finite frequencies
at the ranks of a row vector, the cost of the vector is not NaN. -/
theorem Temp_cost_ne_nan_exact (T : TermModel) (frequency : Dbl) (d : ℚ) (snr : Dbl)
    (v : List Int) (hd : d ≠ 0)
    (hf : ∀ i, i < v.length → ∃ q, T.FrequencyAtRank frequency i = Dbl.fin q) :
    Temp.cost DblArith.exact T frequency (Dbl.fin d) snr v ≠ Dbl.nan := by
  have h := AnalyzeAlternate_rankLoop_finite T v d frequency hd v.length hf v.length
    AnalyzeAlternate.initial (le_refl _) ⟨0, rfl⟩ (Or.inl ⟨rfl, rfl, ⟨0, rfl⟩, 1, rfl⟩)
  unfold Temp.cost
  rw [AnalyzeAlternate_eq_final]
  simp only [TermTreatmentMetrics.GetSNR, TermTreatmentMetrics.GetDQ]
  unfold AnalyzeAlternate.final
  rcases h with hr | ⟨⟨c, hc⟩, m, hm⟩
  · rw [hr]
    have hnan : DblArith.exact.div frequency Dbl.nan = Dbl.nan := Dbl.div_nan frequency
    rw [hnan]
    simp [Dbl.isnan]
  · rw [hc, hm]
    split_ifs
    · exact fun h => nomatch h
    · show Dbl.neg (Dbl.div (Dbl.fin 1) (Dbl.mul (Dbl.fin c) (Dbl.fin m))) ≠ Dbl.nan
      have h10 : ¬ ((1 : ℚ) = 0) := one_ne_zero
      simp only [Dbl.mul, Dbl.div, if_neg h10]
      split_ifs <;> simp [Dbl.neg]

/-- Without rounding, 1 divided by anything is not `-∞`. -/
theorem Dbl.one_div_ne_ninf (y : Dbl) : Dbl.div (Dbl.fin 1) y ≠ Dbl.ninf := by
  cases y with
  | nan => exact fun h => nomatch h
  | ninf => exact fun h => nomatch h
  | pinf => exact fun h => nomatch h
  | fin b =>
    have h10 : ¬ ((1 : ℚ) = 0) := one_ne_zero
    have h01 : (0 : ℚ) < 1 := one_pos
    simp only [Dbl.div, if_neg h10, if_pos h01]
    split_ifs <;> exact fun h => nomatch h

/-- Without rounding, a vector with `k + 1` rows at rank 0 and none above has a
cost other than `+∞` when `f / (density - f)^(k + 1)` is not below `snr`. -/
theorem Temp_cost_rank0_feasible_exact (T : TermModel) (f d s : ℚ) (k n : Nat) (hfd : f < d)
    (hT : T.FrequencyAtRank (Dbl.fin f) 0 = Dbl.fin f) (hs : s ≤ f / (d - f) ^ (k + 1)) :
    Temp.cost DblArith.exact T (Dbl.fin f) (Dbl.fin d) (Dbl.fin s)
      (((k + 1 : Nat) : Int) :: List.replicate n 0) ≠ Dbl.pinf := by
  have hlt : ¬ (f / (d - f) ^ (k + 1) < s) := not_lt.mpr hs
  unfold Temp.cost
  simp only [AnalyzeAlternate_rank0_snr_exact T f d k n hfd hT, Dbl.lt, Dbl.isnan, hlt,
    decide_False, Bool.or_false, Bool.false_eq_true, if_false]
  intro h
  have h1 := Dbl.one_div_ne_ninf
    (DblArith.exact.mul
      (AnalyzeAlternate DblArith.exact T (((k + 1 : Nat) : Int) :: List.replicate n 0)
        (Dbl.fin d) (Dbl.fin f)).m_scanCost
      (AnalyzeAlternate DblArith.exact T (((k + 1 : Nat) : Int) :: List.replicate n 0)
        (Dbl.fin d) (Dbl.fin f)).m_memoryCost)
  apply h1
  have h2 : ∀ x : Dbl, Dbl.neg x = Dbl.pinf → x = Dbl.ninf := by
    intro x hx
    cases x <;> simp_all [Dbl.neg]
  exact h2 _ h

/-- The frequencies at the ranks of the term model after the specification
are finite for a finite frequency. -/
theorem specFrequencyAtRank_finite (f : ℚ) (i : Nat) :
    ∃ q, specTermModel.FrequencyAtRank (Dbl.fin f) i = Dbl.fin q := by
  show ∃ q, specFrequencyAtRank (Dbl.fin f) i = Dbl.fin q
  simp only [specFrequencyAtRank]
  split_ifs
  · exact ⟨0, rfl⟩
  · exact ⟨1, rfl⟩
  · exact ⟨_, rfl⟩

/-- Where a candidate has the cost NaN the search need not return a cost that
is `<=` the cost of every candidate: without rounding, with density `+∞` and
snr 0, the search at rank 0 on `[0]` with at most 2 rows per rank returns a
cost that is not `<=` the cost of the candidate `[2]`, which is NaN. -/
theorem Temp_min_fails_on_NaN_cost :
    ∃ c r v, Temp DblArith.exact specTermModel (Dbl.fin (1 / 2)) Dbl.pinf (Dbl.fin 0) 0 [0] 2
        = .ok (c, r) ∧
      Temp.IsCandidate specTermModel (Dbl.fin (1 / 2)) Dbl.pinf 0 [0] 2 v ∧
      Dbl.le c (Temp.cost DblArith.exact specTermModel (Dbl.fin (1 / 2)) Dbl.pinf (Dbl.fin 0) v)
        = false := by
  obtain ⟨c, r, h, _⟩ := Temp_ok DblArith.exact specTermModel (Dbl.fin (1 / 2)) Dbl.pinf
    (Dbl.fin 0) 0 [0] 2 (by decide) (by decide)
  refine ⟨c, r, [2], h, specTemp_candidate_two, ?_⟩
  rw [specTemp_cost_two]
  cases c <;> rfl

/-! ## The rows of TreatmentPrivateSharedRank0 and the SNR floor -/

/-- For `TreatmentPrivateSharedRank0` over the term model after the
specification, every density, every `snr > 0` and every IDF class `idf` up to
`c_maxIdfX10Value` whose frequency `f` is below the density, with
`k = ComputeRowCount(f, density, snr)`: the tabulated configuration is
`[(0, k)]` with `k >= 1`; in arithmetic without rounding, the
vector with `k` rows at rank 0 and none at the `n` ranks above has an SNR
`>= snr` when some count `j` from 1 to `2^32 - 1` has
`(density - f)^j <= f / snr`; and where `k >= 2`, the vector with `k - 1` rows
at rank 0 has an SNR that is not `>= snr`. -/
theorem specPrivateSharedRank0_floor_exact (d s q : ℚ) (idf n : Nat) (variant : Int)
    (hidf : idf ≤ specTermModel.c_maxIdfX10Value) (hs : 0 < s)
    (hq : specTermModel.IdfX10ToFrequency idf = Dbl.fin q) (hqd : q < d) :
    ∃ k : Nat, 1 ≤ k ∧
      specTermModel.ComputeRowCount (specTermModel.IdfX10ToFrequency idf) (Dbl.fin d)
        (Dbl.fin s) = (k : Int) ∧
      (∃ t, TreatmentPrivateSharedRank0.new specTermModel (Dbl.fin d) (Dbl.fin s) variant
          = .ok t ∧ t.m_configurations[idf]? = some [⟨0, (k : Int)⟩]) ∧
      ((∃ j : Nat, 1 ≤ j ∧ j ≤ 2 ^ 32 - 1 ∧ (d - q) ^ j ≤ q / s) →
        Dbl.ge (AnalyzeAlternate DblArith.exact specTermModel
          ((k : Int) :: List.replicate n 0) (Dbl.fin d)
          (specTermModel.IdfX10ToFrequency idf)).GetSNR (Dbl.fin s) = true) ∧
      (2 ≤ k →
        Dbl.ge (AnalyzeAlternate DblArith.exact specTermModel
          (((k - 1 : Nat) : Int) :: List.replicate n 0) (Dbl.fin d)
          (specTermModel.IdfX10ToFrequency idf)).GetSNR (Dbl.fin s) = false) := by
  have hk := specComputeRowCount_shared q d s hqd hs
  have hge1 := specComputeRowCount.search_ge (d - q) (q / s) (2 ^ 32 - 2) 1
  have hlt : Dbl.lt (specTermModel.IdfX10ToFrequency idf) (Dbl.fin d) = true := by
    rw [hq]
    simp only [Dbl.lt, decide_eq_true_eq]
    exact hqd
  have hc := TreatmentPrivateSharedRank0_configuration_eq specTermModel (Dbl.fin d) (Dbl.fin s)
    idf
  rw [Dbl.ge_false_of_lt hlt] at hc
  simp only [Bool.false_eq_true, if_false] at hc
  rw [hq] at hc ⊢
  rw [hk] at hc ⊢
  have hfound := specComputeRowCount.search_found (d - q) (q / s) (2 ^ 32 - 2) 1
  have hbelow := specComputeRowCount.search_below (d - q) (q / s) (2 ^ 32 - 2) 1
  generalize specComputeRowCount.search (d - q) (q / s) (2 ^ 32 - 2) 1 = k
    at hc hge1 hfound hbelow ⊢
  have hT := specFrequencyAtRank_zero q
  refine ⟨k, hge1, rfl, ?_, ?_, ?_⟩
  · exact TreatmentPrivateSharedRank0_new_entry specTermModel (Dbl.fin d) (Dbl.fin s) variant
      idf hidf _ hc
  · rintro ⟨j, hj1, hj2, hjx⟩
    obtain ⟨m, rfl⟩ : ∃ m, k = m + 1 := ⟨k - 1, by omega⟩
    have hj3 : j ≤ 1 + (2 ^ 32 - 2) := by
      have h32 : (2 : Nat) ^ 32 = 4294967296 := by norm_num
      rw [h32] at hj2 ⊢
      omega
    exact (AnalyzeAlternate_rank0_floor_iff specTermModel q d s m n hqd hs hT).mpr
      (hfound j hj1 hj3 hjx)
  · intro hk2
    obtain ⟨m, rfl⟩ : ∃ m, k = m + 1 + 1 := ⟨k - 2, by omega⟩
    have hfail := hbelow (m + 1) (by omega) (by omega)
    rw [show m + 1 + 1 - 1 = m + 1 from rfl]
    cases hge : Dbl.ge (AnalyzeAlternate DblArith.exact specTermModel
        (((m + 1 : Nat) : Int) :: List.replicate n 0) (Dbl.fin d) (Dbl.fin q)).GetSNR
        (Dbl.fin s) with
    | false => rfl
    | true =>
      exact absurd ((AnalyzeAlternate_rank0_floor_iff specTermModel q d s m n hqd hs hT).mp hge)
        hfail

/-! ## The claims -/

/-- C1: for each of the four tabulated strategies, the constructor succeeds and
`GetTreatment(term)` is the table entry at index
`min(term.GetIdfSum(), c_maxIdfX10Value)`, which is the configuration the
constructor built for that IDF class; all terms whose IDF class is at least
`c_maxIdfX10Value` get the same configuration. -/
theorem C1_GetTreatment_clamps (A : DblArith) (T : TermModel) (density snr : Dbl)
    (variant : Int) :
    (∃ t, TreatmentPrivateSharedRank0.new T density snr variant = .ok t ∧
      (∀ term : Term, ∃ c, TreatmentPrivateSharedRank0.GetTreatment T t term = some c ∧
        t.m_configurations[min term.GetIdfSum T.c_maxIdfX10Value]? = some c ∧
        TreatmentPrivateSharedRank0.configuration T density snr
          (min term.GetIdfSum T.c_maxIdfX10Value) = .ok c) ∧
      (∀ hash stream n hash2 stream2 n2 : Nat,
        TreatmentPrivateSharedRank0.GetTreatment T t ⟨hash, stream, T.c_maxIdfX10Value + n⟩ =
        TreatmentPrivateSharedRank0.GetTreatment T t
          ⟨hash2, stream2, T.c_maxIdfX10Value + n2⟩)) ∧
    (∃ t, TreatmentPrivateSharedRank0And3.new T density snr variant = .ok t ∧
      (∀ term : Term, ∃ c, TreatmentPrivateSharedRank0And3.GetTreatment T t term = some c ∧
        t.m_configurations[min term.GetIdfSum T.c_maxIdfX10Value]? = some c ∧
        TreatmentPrivateSharedRank0And3.configuration T density snr
          (min term.GetIdfSum T.c_maxIdfX10Value) = .ok c) ∧
      (∀ hash stream n hash2 stream2 n2 : Nat,
        TreatmentPrivateSharedRank0And3.GetTreatment T t
          ⟨hash, stream, T.c_maxIdfX10Value + n⟩ =
        TreatmentPrivateSharedRank0And3.GetTreatment T t
          ⟨hash2, stream2, T.c_maxIdfX10Value + n2⟩)) ∧
    (∃ t, TreatmentPrivateSharedRank0ToN.new T density snr variant = .ok t ∧
      (∀ term : Term, ∃ c, TreatmentPrivateSharedRank0ToN.GetTreatment T t term = some c ∧
        t.m_configurations[min term.GetIdfSum T.c_maxIdfX10Value]? = some c ∧
        TreatmentPrivateSharedRank0ToN.configuration T density snr
          (min term.GetIdfSum T.c_maxIdfX10Value) = .ok c) ∧
      (∀ hash stream n hash2 stream2 n2 : Nat,
        TreatmentPrivateSharedRank0ToN.GetTreatment T t
          ⟨hash, stream, T.c_maxIdfX10Value + n⟩ =
        TreatmentPrivateSharedRank0ToN.GetTreatment T t
          ⟨hash2, stream2, T.c_maxIdfX10Value + n2⟩)) ∧
    (∃ t, TreatmentExperimental.new A T density snr variant = .ok t ∧
      (∀ term : Term, ∃ c, TreatmentExperimental.GetTreatment T t term = some c ∧
        t.m_configurations[min term.GetIdfSum T.c_maxIdfX10Value]? = some c ∧
        TreatmentExperimental.configuration A T density snr
          (min term.GetIdfSum T.c_maxIdfX10Value) = .ok c) ∧
      (∀ hash stream n hash2 stream2 n2 : Nat,
        TreatmentExperimental.GetTreatment T t ⟨hash, stream, T.c_maxIdfX10Value + n⟩ =
        TreatmentExperimental.GetTreatment T t
          ⟨hash2, stream2, T.c_maxIdfX10Value + n2⟩)) := by
  refine ⟨?_, ?_, ?_, ?_⟩
  · obtain ⟨t, h1, _, h3⟩ := TreatmentPrivateSharedRank0_new_spec T density snr variant
    exact ⟨t, h1, fun term => lookupTreatment_spec T _ _ h3 term,
      fun a b n c d m => lookupTreatment_clamp T _ a b n c d m⟩
  · obtain ⟨t, h1, _, h3⟩ := TreatmentPrivateSharedRank0And3_new_spec T density snr variant
    exact ⟨t, h1, fun term => lookupTreatment_spec T _ _ h3 term,
      fun a b n c d m => lookupTreatment_clamp T _ a b n c d m⟩
  · obtain ⟨t, h1, _, h3⟩ := TreatmentPrivateSharedRank0ToN_new_spec T density snr variant
    exact ⟨t, h1, fun term => lookupTreatment_spec T _ _ h3 term,
      fun a b n c d m => lookupTreatment_clamp T _ a b n c d m⟩
  · obtain ⟨t, h1, _, h3⟩ := TreatmentExperimental_new_spec A T density snr variant
    exact ⟨t, h1, fun term => lookupTreatment_spec T _ _ h3 term,
      fun a b n c d m => lookupTreatment_clamp T _ a b n c d m⟩

/-- C2: for every density, snr and variant, each of the four tabulated
strategies is constructed with a table of exactly `c_maxIdfX10Value + 1`
entries, so the clamped index of `GetTreatment` is within bounds and the lookup
returns a configuration for every term. -/
theorem C2_table_length_lookup_total (A : DblArith) (T : TermModel) (density snr : Dbl)
    (variant : Int) :
    (∃ t, TreatmentPrivateSharedRank0.new T density snr variant = .ok t ∧
      t.m_configurations.length = T.c_maxIdfX10Value + 1 ∧
      ∀ term : Term, min term.GetIdfSum T.c_maxIdfX10Value < t.m_configurations.length ∧
        (TreatmentPrivateSharedRank0.GetTreatment T t term).isSome = true) ∧
    (∃ t, TreatmentPrivateSharedRank0And3.new T density snr variant = .ok t ∧
      t.m_configurations.length = T.c_maxIdfX10Value + 1 ∧
      ∀ term : Term, min term.GetIdfSum T.c_maxIdfX10Value < t.m_configurations.length ∧
        (TreatmentPrivateSharedRank0And3.GetTreatment T t term).isSome = true) ∧
    (∃ t, TreatmentPrivateSharedRank0ToN.new T density snr variant = .ok t ∧
      t.m_configurations.length = T.c_maxIdfX10Value + 1 ∧
      ∀ term : Term, min term.GetIdfSum T.c_maxIdfX10Value < t.m_configurations.length ∧
        (TreatmentPrivateSharedRank0ToN.GetTreatment T t term).isSome = true) ∧
    (∃ t, TreatmentExperimental.new A T density snr variant = .ok t ∧
      t.m_configurations.length = T.c_maxIdfX10Value + 1 ∧
      ∀ term : Term, min term.GetIdfSum T.c_maxIdfX10Value < t.m_configurations.length ∧
        (TreatmentExperimental.GetTreatment T t term).isSome = true) := by
  refine ⟨?_, ?_, ?_, ?_⟩
  · obtain ⟨t, h1, h2, h3⟩ := TreatmentPrivateSharedRank0_new_spec T density snr variant
    refine ⟨t, h1, h2, fun term => ⟨by omega, ?_⟩⟩
    obtain ⟨c, hc, _⟩ := lookupTreatment_spec T _ _ h3 term
    simp [TreatmentPrivateSharedRank0.GetTreatment, hc]
  · obtain ⟨t, h1, h2, h3⟩ := TreatmentPrivateSharedRank0And3_new_spec T density snr variant
    refine ⟨t, h1, h2, fun term => ⟨by omega, ?_⟩⟩
    obtain ⟨c, hc, _⟩ := lookupTreatment_spec T _ _ h3 term
    simp [TreatmentPrivateSharedRank0And3.GetTreatment, hc]
  · obtain ⟨t, h1, h2, h3⟩ := TreatmentPrivateSharedRank0ToN_new_spec T density snr variant
    refine ⟨t, h1, h2, fun term => ⟨by omega, ?_⟩⟩
    obtain ⟨c, hc, _⟩ := lookupTreatment_spec T _ _ h3 term
    simp [TreatmentPrivateSharedRank0ToN.GetTreatment, hc]
  · obtain ⟨t, h1, h2, h3⟩ := TreatmentExperimental_new_spec A T density snr variant
    refine ⟨t, h1, h2, fun term => ⟨by omega, ?_⟩⟩
    obtain ⟨c, hc, _⟩ := lookupTreatment_spec T _ _ h3 term
    simp [TreatmentExperimental.GetTreatment, hc]

/-- C3: for every density, snr, variant and term, `TreatmentPrivateRank0` is
constructed and returns exactly the one-entry configuration `[(0, 1)]`. -/
theorem C3_PrivateRank0_constant (density snr : Dbl) (variant : Int) (term : Term) :
    ∃ t, TreatmentPrivateRank0.new density snr variant = .ok t ∧
      t.GetTreatment term = [⟨0, 1⟩] :=
  ⟨⟨[⟨0, 1⟩]⟩, rfl, rfl⟩

/-- C4: for `TreatmentPrivateSharedRank0` and every IDF class `idf` up to
`c_maxIdfX10Value`, with `f` the frequency of the class, the tabulated
configuration is `[(0, 1)]` when `f >= density` and `[(0, ComputeRowCount(f,
density, snr))]` otherwise. -/
theorem C4_PrivateSharedRank0_entry (T : TermModel) (density snr : Dbl) (variant : Int)
    (idf : Nat) (hidf : idf ≤ T.c_maxIdfX10Value) :
    ∃ t, TreatmentPrivateSharedRank0.new T density snr variant = .ok t ∧
      t.m_configurations[idf]? =
        some (if Dbl.ge (T.IdfX10ToFrequency idf) density then [⟨0, 1⟩]
          else [⟨0, T.ComputeRowCount (T.IdfX10ToFrequency idf) density snr⟩]) :=
  TreatmentPrivateSharedRank0_new_entry T density snr variant idf hidf _
    (TreatmentPrivateSharedRank0_configuration_eq T density snr idf)

/-- C4, witness: with density 0.1 and snr 10 the configuration of IDF class 5
is `[(0, 1)]`. -/
theorem C4_PrivateSharedRank0_entry_witness :
    ∃ t, TreatmentPrivateSharedRank0.new specTermModel (Dbl.fin (1 / 10)) (Dbl.fin 10) 0 = .ok t ∧
      t.m_configurations[5]? = some [⟨0, 1⟩] := by
  obtain ⟨t, h1, h2⟩ := C4_PrivateSharedRank0_entry specTermModel (Dbl.fin (1 / 10))
    (Dbl.fin 10) 0 5 (by decide)
  have hge : Dbl.ge (specTermModel.IdfX10ToFrequency 5) (Dbl.fin (1 / 10)) = true := by
    simp [specTermModel, specIdfX10ToFrequency, specTenthPowers, Dbl.ge, Dbl.le, Dbl.lt, Dbl.eq]
    norm_num
  rw [if_pos hge] at h2
  exact ⟨t, h1, h2⟩

/-- C5: private-row dominance. For an IDF class `idf` up to `c_maxIdfX10Value`
with frequency `f`: if `f >= density` the `TreatmentPrivateSharedRank0`
configuration is exactly `[(0, 1)]`, and if `f > density` the
`TreatmentPrivateSharedRank0And3` and `TreatmentPrivateSharedRank0ToN`
configurations are exactly `[(0, 1)]`. -/
theorem C5_private_row_dominance (T : TermModel) (density snr : Dbl) (variant : Int)
    (idf : Nat) (hidf : idf ≤ T.c_maxIdfX10Value) :
    (Dbl.ge (T.IdfX10ToFrequency idf) density = true →
      ∃ t, TreatmentPrivateSharedRank0.new T density snr variant = .ok t ∧
        t.m_configurations[idf]? = some [⟨0, 1⟩]) ∧
    (Dbl.gt (T.IdfX10ToFrequency idf) density = true →
      (∃ t, TreatmentPrivateSharedRank0And3.new T density snr variant = .ok t ∧
        t.m_configurations[idf]? = some [⟨0, 1⟩]) ∧
      (∃ t, TreatmentPrivateSharedRank0ToN.new T density snr variant = .ok t ∧
        t.m_configurations[idf]? = some [⟨0, 1⟩])) := by
  refine ⟨fun h => ?_, fun h => ⟨?_, ?_⟩⟩
  · apply TreatmentPrivateSharedRank0_new_entry T density snr variant idf hidf
    rw [TreatmentPrivateSharedRank0_configuration_eq, if_pos h]
  · apply TreatmentPrivateSharedRank0And3_new_entry T density snr variant idf hidf
    rw [TreatmentPrivateSharedRank0And3_configuration_eq, if_pos h]
  · apply TreatmentPrivateSharedRank0ToN_new_entry T density snr variant idf hidf
    rw [TreatmentPrivateSharedRank0ToN_configuration_eq, if_pos h]

/-- C5, witness: with density 0.1 and snr 10, IDF class 5 has a frequency above
the density and all three strategies tabulate `[(0, 1)]` for it. -/
theorem C5_private_row_dominance_witness :
    (∃ t, TreatmentPrivateSharedRank0.new specTermModel (Dbl.fin (1 / 10)) (Dbl.fin 10) 0 = .ok t ∧
      t.m_configurations[5]? = some [⟨0, 1⟩]) ∧
    (∃ t, TreatmentPrivateSharedRank0And3.new specTermModel (Dbl.fin (1 / 10)) (Dbl.fin 10) 0
        = .ok t ∧ t.m_configurations[5]? = some [⟨0, 1⟩]) ∧
    (∃ t, TreatmentPrivateSharedRank0ToN.new specTermModel (Dbl.fin (1 / 10)) (Dbl.fin 10) 0
        = .ok t ∧ t.m_configurations[5]? = some [⟨0, 1⟩]) := by
  have h := C5_private_row_dominance specTermModel (Dbl.fin (1 / 10)) (Dbl.fin 10) 0 5
    (by decide)
  have hgt : Dbl.gt (specTermModel.IdfX10ToFrequency 5) (Dbl.fin (1 / 10)) = true := by
    rw [specIdfX10ToFrequency_5]
    simp only [Dbl.gt, Dbl.lt, decide_eq_true_eq]
    norm_num
  exact ⟨h.1 (Dbl.ge_of_gt hgt), h.2 hgt⟩

/-- C6: inclusive against strict comparison. For an IDF class `idf` up to
`c_maxIdfX10Value` whose frequency equals the density,
`TreatmentPrivateSharedRank0` tabulates the private configuration `[(0, 1)]`,
whereas `TreatmentPrivateSharedRank0And3` and `TreatmentPrivateSharedRank0ToN`
do not take the private branch (`f > density` is false) and tabulate a
configuration other than `[(0, 1)]` whose only rank-0 entry is `(0, 2)`. -/
theorem C6_equal_frequency_asymmetry (T : TermModel) (density snr : Dbl) (variant : Int)
    (idf : Nat) (hidf : idf ≤ T.c_maxIdfX10Value)
    (heq : Dbl.eq (T.IdfX10ToFrequency idf) density = true) :
    (∃ t, TreatmentPrivateSharedRank0.new T density snr variant = .ok t ∧
      t.m_configurations[idf]? = some [⟨0, 1⟩]) ∧
    Dbl.gt (T.IdfX10ToFrequency idf) density = false ∧
    (∃ t c, TreatmentPrivateSharedRank0And3.new T density snr variant = .ok t ∧
      t.m_configurations[idf]? = some c ∧ c ≠ [⟨0, 1⟩] ∧
      c.filter (fun e => decide (e.rank = 0)) = [⟨0, 2⟩]) ∧
    (∃ t c, TreatmentPrivateSharedRank0ToN.new T density snr variant = .ok t ∧
      t.m_configurations[idf]? = some c ∧ c ≠ [⟨0, 1⟩] ∧
      c.filter (fun e => decide (e.rank = 0)) = [⟨0, 2⟩]) := by
  have hgt : Dbl.gt (T.IdfX10ToFrequency idf) density = false :=
    Dbl.gt_false_of_le (Dbl.le_of_eq heq)
  refine ⟨?_, hgt, ?_, ?_⟩
  · apply TreatmentPrivateSharedRank0_new_entry T density snr variant idf hidf
    rw [TreatmentPrivateSharedRank0_configuration_eq, if_pos (Dbl.ge_of_eq heq)]
  · have hc := TreatmentPrivateSharedRank0And3_configuration_eq T density snr idf
    simp only [hgt, Bool.false_eq_true, if_false] at hc
    obtain ⟨t, h1, h2⟩ :=
      TreatmentPrivateSharedRank0And3_new_entry T density snr variant idf hidf _ hc
    refine ⟨t, _, h1, h2, ?_, ?_⟩
    · split_ifs <;> simp
    · split_ifs <;> simp [List.filter_cons]
  · obtain ⟨c, hc, hne, hf⟩ :=
      TreatmentPrivateSharedRank0ToN_configuration_rank0 T density snr idf hgt
    obtain ⟨t, h1, h2⟩ :=
      TreatmentPrivateSharedRank0ToN_new_entry T density snr variant idf hidf c hc
    exact ⟨t, c, h1, h2, hne, hf⟩

/-- C6, witness: with density 0.1, IDF class 10 has frequency exactly 0.1. -/
theorem C6_equal_frequency_asymmetry_witness :
    (∃ t, TreatmentPrivateSharedRank0.new specTermModel (Dbl.fin (1 / 10)) (Dbl.fin 10) 0 = .ok t ∧
      t.m_configurations[10]? = some [⟨0, 1⟩]) ∧
    Dbl.gt (specTermModel.IdfX10ToFrequency 10) (Dbl.fin (1 / 10)) = false ∧
    (∃ t c, TreatmentPrivateSharedRank0And3.new specTermModel (Dbl.fin (1 / 10)) (Dbl.fin 10) 0
        = .ok t ∧ t.m_configurations[10]? = some c ∧ c ≠ [⟨0, 1⟩] ∧
      c.filter (fun e => decide (e.rank = 0)) = [⟨0, 2⟩]) ∧
    (∃ t c, TreatmentPrivateSharedRank0ToN.new specTermModel (Dbl.fin (1 / 10)) (Dbl.fin 10) 0
        = .ok t ∧ t.m_configurations[10]? = some c ∧ c ≠ [⟨0, 1⟩] ∧
      c.filter (fun e => decide (e.rank = 0)) = [⟨0, 2⟩]) :=
  C6_equal_frequency_asymmetry specTermModel (Dbl.fin (1 / 10)) (Dbl.fin 10) 0 10 (by decide)
    (by rw [specIdfX10ToFrequency_10]; simp [Dbl.eq])

/-- C7: for `TreatmentPrivateSharedRank0And3` and an IDF class `idf` up to
`c_maxIdfX10Value` with frequency `f <= density` and
`k = ComputeRowCount(f, density, snr)`: the tabulated configuration is
`[(0, 2)]` if `k <= 2`, and otherwise `[(3, 1), (0, 2)]` when
`FrequencyAtRank(f, 3) >= density` and `[(3, k - 2), (0, 2)]` when not, the
rank-3 entry first. -/
theorem C7_PrivateSharedRank0And3_shared (T : TermModel) (density snr : Dbl) (variant : Int)
    (idf : Nat) (hidf : idf ≤ T.c_maxIdfX10Value)
    (hle : Dbl.le (T.IdfX10ToFrequency idf) density = true) :
    ∃ t, TreatmentPrivateSharedRank0And3.new T density snr variant = .ok t ∧
      t.m_configurations[idf]? =
        some (if T.ComputeRowCount (T.IdfX10ToFrequency idf) density snr ≤ 2 then [⟨0, 2⟩]
          else if Dbl.ge (T.FrequencyAtRank (T.IdfX10ToFrequency idf) 3) density then
            [⟨3, 1⟩, ⟨0, 2⟩]
          else [⟨3, T.ComputeRowCount (T.IdfX10ToFrequency idf) density snr - 2⟩, ⟨0, 2⟩]) := by
  apply TreatmentPrivateSharedRank0And3_new_entry T density snr variant idf hidf
  rw [TreatmentPrivateSharedRank0And3_configuration_eq]
  simp only [Dbl.gt_false_of_le hle, Bool.false_eq_true, if_false]
  by_cases hk : T.ComputeRowCount (T.IdfX10ToFrequency idf) density snr ≤ 2
  · rw [if_pos hk, if_neg (by omega)]
  · rw [if_neg hk, if_pos (by omega)]

/-- C7, witness: with density 0.1 and snr 10, IDF class 40 (frequency 0.0001)
needs 5 rows and gets `[(3, 3), (0, 2)]`. -/
theorem C7_PrivateSharedRank0And3_shared_witness :
    ∃ t, TreatmentPrivateSharedRank0And3.new specTermModel (Dbl.fin (1 / 10)) (Dbl.fin 10) 0
        = .ok t ∧ t.m_configurations[40]? = some [⟨3, 3⟩, ⟨0, 2⟩] := by
  have hle : Dbl.le (specTermModel.IdfX10ToFrequency 40) (Dbl.fin (1 / 10)) = true := by
    rw [specIdfX10ToFrequency_40]
    simp only [Dbl.le, Dbl.lt, Dbl.eq, Bool.or_eq_true, decide_eq_true_eq]
    norm_num
  obtain ⟨t, h1, h2⟩ := C7_PrivateSharedRank0And3_shared specTermModel (Dbl.fin (1 / 10))
    (Dbl.fin 10) 0 40 (by decide) hle
  refine ⟨t, h1, ?_⟩
  have hf : Dbl.ge (specTermModel.FrequencyAtRank (Dbl.fin (1 / 10000)) 3) (Dbl.fin (1 / 10))
      = false := by
    simp only [specTermModel, specFrequencyAtRank, Dbl.ge, Dbl.le, Dbl.lt, Dbl.eq]
    norm_num
  rw [h2, specIdfX10ToFrequency_40, specComputeRowCount_40, hf]
  rfl

/-- C8: for every density, snr, variant and term, `TreatmentClassicBitsliced`
is constructed and returns the single-entry configuration
`[(0, ComputeRowCount(IdfX10ToFrequency(40), density, snr))]`. -/
theorem C8_ClassicBitsliced_constant (T : TermModel) (density snr : Dbl) (variant : Int)
    (term : Term) :
    ∃ t, TreatmentClassicBitsliced.new T density snr variant = .ok t ∧
      t.GetTreatment term =
        [⟨0, T.ComputeRowCount (T.IdfX10ToFrequency 40) density snr⟩] :=
  ⟨⟨[⟨0, T.ComputeRowCount (T.IdfX10ToFrequency 40) density snr⟩]⟩, rfl, rfl⟩

/-- C8, witness: with density 0.1 and snr 10 every term gets `[(0, 5)]`, the
row count of frequency 0.0001. -/
theorem C8_ClassicBitsliced_constant_witness :
    ∃ t, TreatmentClassicBitsliced.new specTermModel (Dbl.fin (1 / 10)) (Dbl.fin 10) 0 = .ok t ∧
      t.GetTreatment ⟨48879, 0, 7⟩ = [⟨0, 5⟩] := by
  obtain ⟨t, h1, h2⟩ := C8_ClassicBitsliced_constant specTermModel (Dbl.fin (1 / 10))
    (Dbl.fin 10) 0 ⟨48879, 0, 7⟩
  rw [specIdfX10ToFrequency_40, specComputeRowCount_40] at h2
  exact ⟨t, h1, h2⟩

/-- C9, at a failing input: with density 0.1 and snr 10, IDF class 11
(frequency about 0.0794, not above the density) has
`min(ComputeMaxRank(f, 0.15), 6) = 0`, and the constructor of
`TreatmentPrivateSharedRank0ToN` builds `[(1, 1), (0, 2)]` for it: an entry at
rank 1, above the maximal rank 0. -/
theorem C9_PrivateSharedRank0ToN_exceeds_maxRank :
    Dbl.le (specTermModel.IdfX10ToFrequency 11) (Dbl.fin (1 / 10)) = true ∧
    min (specTermModel.ComputeMaxRank (specTermModel.IdfX10ToFrequency 11)
      TreatmentPrivateSharedRank0ToN.maxDensity) 6 = 0 ∧
    TreatmentPrivateSharedRank0ToN.configuration specTermModel (Dbl.fin (1 / 10)) (Dbl.fin 10) 11
      = .ok [⟨1, 1⟩, ⟨0, 2⟩] := by
  have hle : Dbl.le (specTermModel.IdfX10ToFrequency 11) (Dbl.fin (1 / 10)) = true := by
    rw [specIdfX10ToFrequency_11]
    simp only [Dbl.le, Dbl.lt, Dbl.eq, Bool.or_eq_true, decide_eq_true_eq]
    norm_num
  have hm : min (specTermModel.ComputeMaxRank (specTermModel.IdfX10ToFrequency 11)
      TreatmentPrivateSharedRank0ToN.maxDensity) 6 = 0 := by
    rw [specIdfX10ToFrequency_11, specComputeMaxRank_11]
    rfl
  refine ⟨hle, hm, ?_⟩
  have hf : Dbl.ge (specTermModel.FrequencyAtRank (Dbl.fin (7943282347 / 100000000000)) 1)
      (Dbl.fin (1 / 10)) = true := by
    simp only [specTermModel, specFrequencyAtRank, Dbl.ge, Dbl.le, Dbl.lt, Dbl.eq]
    norm_num
  rw [TreatmentPrivateSharedRank0ToN_configuration_eq]
  simp only [Dbl.gt_false_of_le hle, hm, Bool.false_eq_true, if_false]
  rw [specIdfX10ToFrequency_11]
  simp only [Nat.max_zero, hf, if_true]
  rfl

/-- C10: for `TreatmentExperimental` and every IDF class `idf` up to
`c_maxIdfX10Value` with frequency `f`, the search started from the all-zero
vector of length `c_maxRankValue + 1` at rank
`min(ComputeMaxRank(f, density), c_maxRankValue)` with at most 6 rows per rank
returns a pair `(cost, rows)`, and the tabulated configuration has exactly one
entry for each rank `r` with `rows[r] > 0`, from the highest rank to the
lowest, with count 1 if `FrequencyAtRank(f, r) > density` and count `rows[r]`
otherwise. -/
theorem C10_Experimental_entry (A : DblArith) (T : TermModel) (density snr : Dbl)
    (variant : Int) (idf : Nat) (hidf : idf ≤ T.c_maxIdfX10Value) :
    ∃ t cost rows,
      TreatmentExperimental.new A T density snr variant = .ok t ∧
      Temp A T (T.IdfX10ToFrequency idf) density snr
        ((min (T.ComputeMaxRank (T.IdfX10ToFrequency idf) density) c_maxRankValue : Nat) : Int)
        (List.replicate (c_maxRankValue + 1) 0) 6 = .ok (cost, rows) ∧
      t.m_configurations[idf]? =
        some ((((List.range rows.length).filter (fun r => decide (rows.getD r 0 > 0))).map
          (fun r => (⟨r, if Dbl.gt (T.FrequencyAtRank (T.IdfX10ToFrequency idf) r) density
            then 1 else rows.getD r 0⟩ : RowConfiguration.Entry))).reverse) := by
  obtain ⟨cost, rows, hr, _, hc⟩ := TreatmentExperimental_configuration_spec A T density snr idf
  obtain ⟨t, h1, h2⟩ := TreatmentExperimental_new_entry A T density snr variant idf hidf _ hc
  exact ⟨t, cost, rows, h1, hr, h2⟩

/-- C10, witness: exact arithmetic, density 0.1, snr 10 and IDF class 5. -/
theorem C10_Experimental_entry_witness :
    ∃ t cost rows,
      TreatmentExperimental.new DblArith.exact specTermModel (Dbl.fin (1 / 10)) (Dbl.fin 10) 0
        = .ok t ∧
      Temp DblArith.exact specTermModel (specTermModel.IdfX10ToFrequency 5) (Dbl.fin (1 / 10))
        (Dbl.fin 10)
        ((min (specTermModel.ComputeMaxRank (specTermModel.IdfX10ToFrequency 5)
          (Dbl.fin (1 / 10))) c_maxRankValue : Nat) : Int)
        (List.replicate (c_maxRankValue + 1) 0) 6 = .ok (cost, rows) ∧
      t.m_configurations[5]? =
        some ((((List.range rows.length).filter (fun r => decide (rows.getD r 0 > 0))).map
          (fun r => (⟨r, if Dbl.gt (specTermModel.FrequencyAtRank
              (specTermModel.IdfX10ToFrequency 5) r) (Dbl.fin (1 / 10))
            then 1 else rows.getD r 0⟩ : RowConfiguration.Entry))).reverse) :=
  C10_Experimental_entry DblArith.exact specTermModel (Dbl.fin (1 / 10)) (Dbl.fin 10) 0 5
    (by decide)

/-- C14: for every strategy and every IDF class up to `c_maxIdfX10Value`, the
ranks of the configuration, read front to back, strictly descend, and so no
two entries of a configuration have the same rank. -/
theorem C14_ranks_strictly_descending (A : DblArith) (T : TermModel) (density snr : Dbl)
    (variant : Int) (idf : Nat) (hidf : idf ≤ T.c_maxIdfX10Value) (term : Term) :
    (∃ t, TreatmentPrivateRank0.new density snr variant = .ok t ∧
      (t.GetTreatment term).RanksDescending ∧
      ((t.GetTreatment term).map (fun e => e.rank)).Nodup) ∧
    (∃ t c, TreatmentPrivateSharedRank0.new T density snr variant = .ok t ∧
      t.m_configurations[idf]? = some c ∧ c.RanksDescending ∧
      (c.map (fun e => e.rank)).Nodup) ∧
    (∃ t c, TreatmentPrivateSharedRank0And3.new T density snr variant = .ok t ∧
      t.m_configurations[idf]? = some c ∧ c.RanksDescending ∧
      (c.map (fun e => e.rank)).Nodup) ∧
    (∃ t c, TreatmentPrivateSharedRank0ToN.new T density snr variant = .ok t ∧
      t.m_configurations[idf]? = some c ∧ c.RanksDescending ∧
      (c.map (fun e => e.rank)).Nodup) ∧
    (∃ t c, TreatmentExperimental.new A T density snr variant = .ok t ∧
      t.m_configurations[idf]? = some c ∧ c.RanksDescending ∧
      (c.map (fun e => e.rank)).Nodup) ∧
    (∃ t, TreatmentClassicBitsliced.new T density snr variant = .ok t ∧
      (t.GetTreatment term).RanksDescending ∧
      ((t.GetTreatment term).map (fun e => e.rank)).Nodup) := by
  refine ⟨⟨⟨[⟨0, 1⟩]⟩, rfl, ?_, ?_⟩, ?_, ?_, ?_, ?_, ⟨⟨[⟨0, _⟩]⟩, rfl, ?_, ?_⟩⟩
  · simp [TreatmentPrivateRank0.GetTreatment, RowConfiguration.RanksDescending]
  · simp [TreatmentPrivateRank0.GetTreatment]
  · obtain ⟨c, hc, _, _, hd, _⟩ := TreatmentPrivateSharedRank0_configuration_shape T density snr idf
    obtain ⟨t, h1, h2⟩ := TreatmentPrivateSharedRank0_new_entry T density snr variant idf hidf c hc
    exact ⟨t, c, h1, h2, hd, c.RanksDescending_nodup hd⟩
  · obtain ⟨c, hc, _, _, hd, _⟩ :=
      TreatmentPrivateSharedRank0And3_configuration_shape T density snr idf
    obtain ⟨t, h1, h2⟩ :=
      TreatmentPrivateSharedRank0And3_new_entry T density snr variant idf hidf c hc
    exact ⟨t, c, h1, h2, hd, c.RanksDescending_nodup hd⟩
  · obtain ⟨c, hc, _, _, hd, _⟩ :=
      TreatmentPrivateSharedRank0ToN_configuration_shape T density snr idf
    obtain ⟨t, h1, h2⟩ :=
      TreatmentPrivateSharedRank0ToN_new_entry T density snr variant idf hidf c hc
    exact ⟨t, c, h1, h2, hd, c.RanksDescending_nodup hd⟩
  · obtain ⟨c, hc, _, _, hd, _⟩ := TreatmentExperimental_configuration_shape A T density snr idf
    obtain ⟨t, h1, h2⟩ := TreatmentExperimental_new_entry A T density snr variant idf hidf c hc
    exact ⟨t, c, h1, h2, hd, c.RanksDescending_nodup hd⟩
  · simp [TreatmentClassicBitsliced.GetTreatment, RowConfiguration.RanksDescending]
  · simp [TreatmentClassicBitsliced.GetTreatment]

/-- C14, witness: exact arithmetic, density 0.1, snr 10 and IDF class 40. -/
theorem C14_ranks_strictly_descending_witness :
    (∃ t, TreatmentPrivateRank0.new (Dbl.fin (1 / 10)) (Dbl.fin 10) 0 = .ok t ∧
      (t.GetTreatment ⟨48879, 0, 40⟩).RanksDescending ∧
      ((t.GetTreatment ⟨48879, 0, 40⟩).map (fun e => e.rank)).Nodup) ∧
    (∃ t c, TreatmentPrivateSharedRank0.new specTermModel (Dbl.fin (1 / 10)) (Dbl.fin 10) 0
        = .ok t ∧ t.m_configurations[40]? = some c ∧ c.RanksDescending ∧
      (c.map (fun e => e.rank)).Nodup) ∧
    (∃ t c, TreatmentPrivateSharedRank0And3.new specTermModel (Dbl.fin (1 / 10)) (Dbl.fin 10) 0
        = .ok t ∧ t.m_configurations[40]? = some c ∧ c.RanksDescending ∧
      (c.map (fun e => e.rank)).Nodup) ∧
    (∃ t c, TreatmentPrivateSharedRank0ToN.new specTermModel (Dbl.fin (1 / 10)) (Dbl.fin 10) 0
        = .ok t ∧ t.m_configurations[40]? = some c ∧ c.RanksDescending ∧
      (c.map (fun e => e.rank)).Nodup) ∧
    (∃ t c, TreatmentExperimental.new DblArith.exact specTermModel (Dbl.fin (1 / 10))
        (Dbl.fin 10) 0 = .ok t ∧ t.m_configurations[40]? = some c ∧ c.RanksDescending ∧
      (c.map (fun e => e.rank)).Nodup) ∧
    (∃ t, TreatmentClassicBitsliced.new specTermModel (Dbl.fin (1 / 10)) (Dbl.fin 10) 0 = .ok t ∧
      (t.GetTreatment ⟨48879, 0, 40⟩).RanksDescending ∧
      ((t.GetTreatment ⟨48879, 0, 40⟩).map (fun e => e.rank)).Nodup) :=
  C14_ranks_strictly_descending DblArith.exact specTermModel (Dbl.fin (1 / 10)) (Dbl.fin 10) 0
    40 (by decide) ⟨48879, 0, 40⟩

/-- C15: for every strategy and every IDF class up to `c_maxIdfX10Value`, every
entry of the configuration has a count of at least 1, provided
`ComputeRowCount` never returns less than 1. -/
theorem C15_counts_at_least_one (A : DblArith) (T : TermModel) (density snr : Dbl)
    (variant : Int) (idf : Nat) (hidf : idf ≤ T.c_maxIdfX10Value) (term : Term)
    (hk : ∀ f d s, 1 ≤ T.ComputeRowCount f d s) :
    (∃ t, TreatmentPrivateRank0.new density snr variant = .ok t ∧
      ∀ e ∈ t.GetTreatment term, 1 ≤ e.count) ∧
    (∃ t c, TreatmentPrivateSharedRank0.new T density snr variant = .ok t ∧
      t.m_configurations[idf]? = some c ∧ ∀ e ∈ c, 1 ≤ e.count) ∧
    (∃ t c, TreatmentPrivateSharedRank0And3.new T density snr variant = .ok t ∧
      t.m_configurations[idf]? = some c ∧ ∀ e ∈ c, 1 ≤ e.count) ∧
    (∃ t c, TreatmentPrivateSharedRank0ToN.new T density snr variant = .ok t ∧
      t.m_configurations[idf]? = some c ∧ ∀ e ∈ c, 1 ≤ e.count) ∧
    (∃ t c, TreatmentExperimental.new A T density snr variant = .ok t ∧
      t.m_configurations[idf]? = some c ∧ ∀ e ∈ c, 1 ≤ e.count) ∧
    (∃ t, TreatmentClassicBitsliced.new T density snr variant = .ok t ∧
      ∀ e ∈ t.GetTreatment term, 1 ≤ e.count) := by
  refine ⟨⟨⟨[⟨0, 1⟩]⟩, rfl, ?_⟩, ?_, ?_, ?_, ?_, ⟨⟨[⟨0, _⟩]⟩, rfl, ?_⟩⟩
  · simp [TreatmentPrivateRank0.GetTreatment]
  · obtain ⟨c, hc, _, _, _, hcount⟩ :=
      TreatmentPrivateSharedRank0_configuration_shape T density snr idf
    obtain ⟨t, h1, h2⟩ := TreatmentPrivateSharedRank0_new_entry T density snr variant idf hidf c hc
    exact ⟨t, c, h1, h2, hcount hk⟩
  · obtain ⟨c, hc, _, _, _, hcount⟩ :=
      TreatmentPrivateSharedRank0And3_configuration_shape T density snr idf
    obtain ⟨t, h1, h2⟩ :=
      TreatmentPrivateSharedRank0And3_new_entry T density snr variant idf hidf c hc
    exact ⟨t, c, h1, h2, hcount⟩
  · obtain ⟨c, hc, _, _, _, hcount⟩ :=
      TreatmentPrivateSharedRank0ToN_configuration_shape T density snr idf
    obtain ⟨t, h1, h2⟩ :=
      TreatmentPrivateSharedRank0ToN_new_entry T density snr variant idf hidf c hc
    exact ⟨t, c, h1, h2, hcount⟩
  · obtain ⟨c, hc, _, _, _, hcount⟩ :=
      TreatmentExperimental_configuration_shape A T density snr idf
    obtain ⟨t, h1, h2⟩ := TreatmentExperimental_new_entry A T density snr variant idf hidf c hc
    exact ⟨t, c, h1, h2, hcount⟩
  · simpa [TreatmentClassicBitsliced.GetTreatment] using hk _ _ _

/-- C15, witness: exact arithmetic, density 0.1, snr 10 and IDF class 40, with
the row count of the term model after the specification. -/
theorem C15_counts_at_least_one_witness :
    (∃ t, TreatmentPrivateRank0.new (Dbl.fin (1 / 10)) (Dbl.fin 10) 0 = .ok t ∧
      ∀ e ∈ t.GetTreatment ⟨48879, 0, 40⟩, 1 ≤ e.count) ∧
    (∃ t c, TreatmentPrivateSharedRank0.new specTermModel (Dbl.fin (1 / 10)) (Dbl.fin 10) 0
        = .ok t ∧ t.m_configurations[40]? = some c ∧ ∀ e ∈ c, 1 ≤ e.count) ∧
    (∃ t c, TreatmentPrivateSharedRank0And3.new specTermModel (Dbl.fin (1 / 10)) (Dbl.fin 10) 0
        = .ok t ∧ t.m_configurations[40]? = some c ∧ ∀ e ∈ c, 1 ≤ e.count) ∧
    (∃ t c, TreatmentPrivateSharedRank0ToN.new specTermModel (Dbl.fin (1 / 10)) (Dbl.fin 10) 0
        = .ok t ∧ t.m_configurations[40]? = some c ∧ ∀ e ∈ c, 1 ≤ e.count) ∧
    (∃ t c, TreatmentExperimental.new DblArith.exact specTermModel (Dbl.fin (1 / 10))
        (Dbl.fin 10) 0 = .ok t ∧ t.m_configurations[40]? = some c ∧ ∀ e ∈ c, 1 ≤ e.count) ∧
    (∃ t, TreatmentClassicBitsliced.new specTermModel (Dbl.fin (1 / 10)) (Dbl.fin 10) 0 = .ok t ∧
      ∀ e ∈ t.GetTreatment ⟨48879, 0, 40⟩, 1 ≤ e.count) :=
  C15_counts_at_least_one DblArith.exact specTermModel (Dbl.fin (1 / 10)) (Dbl.fin 10) 0
    40 (by decide) ⟨48879, 0, 40⟩ specComputeRowCount_pos

/-- C16: for every strategy and every IDF class up to `c_maxIdfX10Value`, the
constructor succeeds (no `push_front` fails with `CapacityExceeded`) and the
configuration has at most `c_maxRankValue + 1 = 7` entries, fewer than the
capacity bound 10, each of rank at most 6. -/
theorem C16_entries_within_capacity (A : DblArith) (T : TermModel) (density snr : Dbl)
    (variant : Int) (idf : Nat) (hidf : idf ≤ T.c_maxIdfX10Value) (term : Term) :
    c_maxRankValue + 1 = 7 ∧ 7 < RowConfiguration.c_maxEntries ∧
    (∃ t, TreatmentPrivateRank0.new density snr variant = .ok t ∧
      (t.GetTreatment term).length ≤ c_maxRankValue + 1 ∧
      ∀ e ∈ t.GetTreatment term, e.rank ≤ 6) ∧
    (∃ t c, TreatmentPrivateSharedRank0.new T density snr variant = .ok t ∧
      t.m_configurations[idf]? = some c ∧ c.length ≤ c_maxRankValue + 1 ∧
      ∀ e ∈ c, e.rank ≤ 6) ∧
    (∃ t c, TreatmentPrivateSharedRank0And3.new T density snr variant = .ok t ∧
      t.m_configurations[idf]? = some c ∧ c.length ≤ c_maxRankValue + 1 ∧
      ∀ e ∈ c, e.rank ≤ 6) ∧
    (∃ t c, TreatmentPrivateSharedRank0ToN.new T density snr variant = .ok t ∧
      t.m_configurations[idf]? = some c ∧ c.length ≤ c_maxRankValue + 1 ∧
      ∀ e ∈ c, e.rank ≤ 6) ∧
    (∃ t c, TreatmentExperimental.new A T density snr variant = .ok t ∧
      t.m_configurations[idf]? = some c ∧ c.length ≤ c_maxRankValue + 1 ∧
      ∀ e ∈ c, e.rank ≤ 6) ∧
    (∃ t, TreatmentClassicBitsliced.new T density snr variant = .ok t ∧
      (t.GetTreatment term).length ≤ c_maxRankValue + 1 ∧
      ∀ e ∈ t.GetTreatment term, e.rank ≤ 6) := by
  refine ⟨rfl, by decide, ⟨⟨[⟨0, 1⟩]⟩, rfl, ?_, ?_⟩, ?_, ?_, ?_, ?_, ⟨⟨[⟨0, _⟩]⟩, rfl, ?_, ?_⟩⟩
  · simp [TreatmentPrivateRank0.GetTreatment]
  · simp [TreatmentPrivateRank0.GetTreatment]
  · obtain ⟨c, hc, hlen, hrank, _, _⟩ :=
      TreatmentPrivateSharedRank0_configuration_shape T density snr idf
    obtain ⟨t, h1, h2⟩ := TreatmentPrivateSharedRank0_new_entry T density snr variant idf hidf c hc
    refine ⟨t, c, h1, h2, by simp [hlen], fun e he => ?_⟩
    rw [hrank e he]
    exact Nat.zero_le _
  · obtain ⟨c, hc, hlen, hrank, _, _⟩ :=
      TreatmentPrivateSharedRank0And3_configuration_shape T density snr idf
    obtain ⟨t, h1, h2⟩ :=
      TreatmentPrivateSharedRank0And3_new_entry T density snr variant idf hidf c hc
    refine ⟨t, c, h1, h2, ?_, fun e he => ?_⟩
    · simp only [c_maxRankValue]
      omega
    · have := hrank e he
      omega
  · obtain ⟨c, hc, hlen, hrank, _, _⟩ :=
      TreatmentPrivateSharedRank0ToN_configuration_shape T density snr idf
    obtain ⟨t, h1, h2⟩ :=
      TreatmentPrivateSharedRank0ToN_new_entry T density snr variant idf hidf c hc
    exact ⟨t, c, h1, h2, hlen, hrank⟩
  · obtain ⟨c, hc, hlen, hrank, _, _⟩ :=
      TreatmentExperimental_configuration_shape A T density snr idf
    obtain ⟨t, h1, h2⟩ := TreatmentExperimental_new_entry A T density snr variant idf hidf c hc
    exact ⟨t, c, h1, h2, hlen, hrank⟩
  · simp [TreatmentClassicBitsliced.GetTreatment]
  · simp [TreatmentClassicBitsliced.GetTreatment]

/-- C16, witness: exact arithmetic, density 0.1, snr 10 and IDF class 40. -/
theorem C16_entries_within_capacity_witness :
    c_maxRankValue + 1 = 7 ∧ 7 < RowConfiguration.c_maxEntries ∧
    (∃ t, TreatmentPrivateRank0.new (Dbl.fin (1 / 10)) (Dbl.fin 10) 0 = .ok t ∧
      (t.GetTreatment ⟨48879, 0, 40⟩).length ≤ c_maxRankValue + 1 ∧
      ∀ e ∈ t.GetTreatment ⟨48879, 0, 40⟩, e.rank ≤ 6) ∧
    (∃ t c, TreatmentPrivateSharedRank0.new specTermModel (Dbl.fin (1 / 10)) (Dbl.fin 10) 0
        = .ok t ∧ t.m_configurations[40]? = some c ∧ c.length ≤ c_maxRankValue + 1 ∧
      ∀ e ∈ c, e.rank ≤ 6) ∧
    (∃ t c, TreatmentPrivateSharedRank0And3.new specTermModel (Dbl.fin (1 / 10)) (Dbl.fin 10) 0
        = .ok t ∧ t.m_configurations[40]? = some c ∧ c.length ≤ c_maxRankValue + 1 ∧
      ∀ e ∈ c, e.rank ≤ 6) ∧
    (∃ t c, TreatmentPrivateSharedRank0ToN.new specTermModel (Dbl.fin (1 / 10)) (Dbl.fin 10) 0
        = .ok t ∧ t.m_configurations[40]? = some c ∧ c.length ≤ c_maxRankValue + 1 ∧
      ∀ e ∈ c, e.rank ≤ 6) ∧
    (∃ t c, TreatmentExperimental.new DblArith.exact specTermModel (Dbl.fin (1 / 10))
        (Dbl.fin 10) 0 = .ok t ∧ t.m_configurations[40]? = some c ∧
      c.length ≤ c_maxRankValue + 1 ∧ ∀ e ∈ c, e.rank ≤ 6) ∧
    (∃ t, TreatmentClassicBitsliced.new specTermModel (Dbl.fin (1 / 10)) (Dbl.fin 10) 0 = .ok t ∧
      (t.GetTreatment ⟨48879, 0, 40⟩).length ≤ c_maxRankValue + 1 ∧
      ∀ e ∈ t.GetTreatment ⟨48879, 0, 40⟩, e.rank ≤ 6) :=
  C16_entries_within_capacity DblArith.exact specTermModel (Dbl.fin (1 / 10)) (Dbl.fin 10) 0
    40 (by decide) ⟨48879, 0, 40⟩

/-- C17, counterexample: `TreatmentPrivateSharedRank0` constructed with density
2, outside `(0, 1)`, and snr -1 does not fail with `InvalidParameter`; it
returns a treatment. -/
theorem C17_invalid_parameters_accepted :
    (∃ t, TreatmentPrivateSharedRank0.new specTermModel (Dbl.fin 2) (Dbl.fin (-1)) 0 = .ok t) ∧
    TreatmentPrivateSharedRank0.new specTermModel (Dbl.fin 2) (Dbl.fin (-1)) 0
      ≠ .error Error.InvalidParameter := by
  obtain ⟨t, h, _⟩ := TreatmentPrivateSharedRank0_new_spec specTermModel (Dbl.fin 2)
    (Dbl.fin (-1)) 0
  refine ⟨⟨t, h⟩, ?_⟩
  rw [h]
  exact fun hne => nomatch hne

/-- C17, as amended: no constructor validates its parameters. For every
density, snr and variant, density outside `(0, 1)` and snr at most 0 included,
each of the six constructors returns a treatment and none reports
`InvalidParameter`. -/
theorem C17_constructors_never_reject (A : DblArith) (T : TermModel) (density snr : Dbl)
    (variant : Int) :
    (∃ t, TreatmentPrivateRank0.new density snr variant = .ok t) ∧
    (∃ t, TreatmentPrivateSharedRank0.new T density snr variant = .ok t) ∧
    (∃ t, TreatmentPrivateSharedRank0And3.new T density snr variant = .ok t) ∧
    (∃ t, TreatmentPrivateSharedRank0ToN.new T density snr variant = .ok t) ∧
    (∃ t, TreatmentExperimental.new A T density snr variant = .ok t) ∧
    (∃ t, TreatmentClassicBitsliced.new T density snr variant = .ok t) := by
  refine ⟨⟨_, rfl⟩, ?_, ?_, ?_, ?_, ⟨_, rfl⟩⟩
  · obtain ⟨t, h, _⟩ := TreatmentPrivateSharedRank0_new_spec T density snr variant
    exact ⟨t, h⟩
  · obtain ⟨t, h, _⟩ := TreatmentPrivateSharedRank0And3_new_spec T density snr variant
    exact ⟨t, h⟩
  · obtain ⟨t, h, _⟩ := TreatmentPrivateSharedRank0ToN_new_spec T density snr variant
    exact ⟨t, h⟩
  · obtain ⟨t, h, _⟩ := TreatmentExperimental_new_spec A T density snr variant
    exact ⟨t, h⟩

/-- C19, counterexample: with density 0.1 and snr 10 the configuration of
`TreatmentPrivateSharedRank0` at IDF class 60 is not `[(0, 8)]`. -/
theorem C19_scenario_S2_not_eight :
    ∃ t, TreatmentPrivateSharedRank0.new specTermModel (Dbl.fin (1 / 10)) (Dbl.fin 10) 0 = .ok t ∧
      t.m_configurations[60]? ≠ some [⟨0, 8⟩] := by
  obtain ⟨t, h1, h2⟩ := specPrivateSharedRank0_entry_60
  refine ⟨t, h1, ?_⟩
  rw [h2]
  decide

/-- C19, as amended: with density 0.1 and snr 10 the configuration of
`TreatmentPrivateSharedRank0` at IDF class 60 (frequency `10^-6`) is
`[(0, 7)]`, and 7 is `ComputeRowCount(1e-6, 0.1, 10)`, the smallest `k >= 1`
with `(density - f)^k <= f / snr`. -/
theorem C19_scenario_S2_seven :
    (∃ t, TreatmentPrivateSharedRank0.new specTermModel (Dbl.fin (1 / 10)) (Dbl.fin 10) 0 = .ok t ∧
      t.m_configurations[60]? = some [⟨0, 7⟩]) ∧
    specTermModel.IdfX10ToFrequency 60 = Dbl.fin (1 / 1000000) ∧
    specTermModel.ComputeRowCount (Dbl.fin (1 / 1000000)) (Dbl.fin (1 / 10)) (Dbl.fin 10) = 7 ∧
    ((1 / 10 - 1 / 1000000 : ℚ) ^ 7 ≤ 1 / 1000000 / 10) ∧
    (∀ k : Nat, 1 ≤ k → k < 7 → ¬ ((1 / 10 - 1 / 1000000 : ℚ) ^ k ≤ 1 / 1000000 / 10)) := by
  refine ⟨specPrivateSharedRank0_entry_60, specIdfX10ToFrequency_60, specComputeRowCount_60,
    by norm_num, ?_⟩
  intro k h1 h7
  interval_cases k <;> norm_num

/-- C18: monotonicity of the total row count of `TreatmentPrivateSharedRank0`,
with the frequencies and the row count of the specification. For every density
and snr and IDF classes `i < j` up to `c_maxIdfX10Value`, the frequency of `i`
exceeds that of `j`, the total count of the configuration at `i` is at most
the total count at `j`, and if the total at `j` is 1 then so is the total at
`i`. -/
theorem C18_PrivateSharedRank0_total_monotone (density snr : Dbl) (variant : Int)
    (i j : Nat) (hij : i < j) (hj : j ≤ specTermModel.c_maxIdfX10Value) :
    ∃ t ci cj,
      TreatmentPrivateSharedRank0.new specTermModel density snr variant = .ok t ∧
      t.m_configurations[i]? = some ci ∧ t.m_configurations[j]? = some cj ∧
      Dbl.gt (specTermModel.IdfX10ToFrequency i) (specTermModel.IdfX10ToFrequency j) = true ∧
      ci.totalCount ≤ cj.totalCount ∧
      (cj.totalCount = 1 → ci.totalCount = 1) := by
  obtain ⟨t, h1, _, h3⟩ := TreatmentPrivateSharedRank0_new_spec specTermModel density snr variant
  obtain ⟨ci, hci, hbi⟩ := h3 i (by omega)
  obtain ⟨cj, hcj, hbj⟩ := h3 j (by omega)
  rw [TreatmentPrivateSharedRank0_configuration_eq] at hbi hbj
  cases hbi
  cases hbj
  have hlt := specFrequency_lt_of_lt hij
  have hmono : (if Dbl.ge (specTermModel.IdfX10ToFrequency i) density then (1 : Int)
        else specTermModel.ComputeRowCount (specTermModel.IdfX10ToFrequency i) density snr) ≤
      (if Dbl.ge (specTermModel.IdfX10ToFrequency j) density then (1 : Int)
        else specTermModel.ComputeRowCount (specTermModel.IdfX10ToFrequency j) density snr) :=
    specPrivateSharedRank0_count_mono density snr _ _ hlt
  have hposi : (1 : Int) ≤ (if Dbl.ge (specTermModel.IdfX10ToFrequency i) density then (1 : Int)
      else specTermModel.ComputeRowCount (specTermModel.IdfX10ToFrequency i) density snr) := by
    split_ifs
    · exact le_refl _
    · exact specComputeRowCount_pos _ _ _
  have htotal : ∀ idf : Nat,
      RowConfiguration.totalCount
        (if Dbl.ge (specTermModel.IdfX10ToFrequency idf) density then [⟨0, 1⟩]
          else [⟨0, specTermModel.ComputeRowCount (specTermModel.IdfX10ToFrequency idf)
            density snr⟩]) =
      (if Dbl.ge (specTermModel.IdfX10ToFrequency idf) density then (1 : Int)
        else specTermModel.ComputeRowCount (specTermModel.IdfX10ToFrequency idf) density snr) := by
    intro idf
    split_ifs <;> simp [RowConfiguration.totalCount]
  refine ⟨t, _, _, h1, hci, hcj, ?_, ?_, ?_⟩
  · simpa [specTermModel, specIdfX10ToFrequency, Dbl.gt, Dbl.lt] using hlt
  · rw [htotal i, htotal j]
    exact hmono
  · rw [htotal i, htotal j]
    intro h
    rw [h] at hmono
    exact le_antisymm hmono hposi

/-- C18, witness: density 0.1, snr 10 and the IDF classes 40 and 60. -/
theorem C18_PrivateSharedRank0_total_monotone_witness :
    ∃ t ci cj,
      TreatmentPrivateSharedRank0.new specTermModel (Dbl.fin (1 / 10)) (Dbl.fin 10) 0 = .ok t ∧
      t.m_configurations[40]? = some ci ∧ t.m_configurations[60]? = some cj ∧
      Dbl.gt (specTermModel.IdfX10ToFrequency 40) (specTermModel.IdfX10ToFrequency 60) = true ∧
      ci.totalCount ≤ cj.totalCount ∧
      (cj.totalCount = 1 → ci.totalCount = 1) :=
  C18_PrivateSharedRank0_total_monotone (Dbl.fin (1 / 10)) (Dbl.fin 10) 0 40 60
    (by decide) (by decide)

/-- C11, at a failing input: with density 0.5 and snr 10000, for IDF class 5
(frequency about 0.316, rank 0 only and not private) even six rows leave the
SNR below the floor, so every candidate costs `+∞` and the search of
`TreatmentExperimental` returns the all-zero vector. Its SNR is NaN, which is
not `>= snr`, and the configuration is empty, not `[(0, 1)]`. -/
theorem C11_Experimental_misses_snr_floor :
    TreatmentExperimental.costRows DblArith.exact specTermModel (Dbl.fin (1 / 2))
      (Dbl.fin 10000) 5 = .ok (Dbl.pinf, List.replicate 7 0) ∧
    (AnalyzeAlternate DblArith.exact specTermModel (List.replicate 7 0) (Dbl.fin (1 / 2))
      (specTermModel.IdfX10ToFrequency 5)).GetSNR = Dbl.nan ∧
    Dbl.ge (AnalyzeAlternate DblArith.exact specTermModel (List.replicate 7 0) (Dbl.fin (1 / 2))
      (specTermModel.IdfX10ToFrequency 5)).GetSNR (Dbl.fin 10000) = false ∧
    TreatmentExperimental.configuration DblArith.exact specTermModel (Dbl.fin (1 / 2))
      (Dbl.fin 10000) 5 = .ok [] ∧
    ([] : RowConfiguration) ≠ [⟨0, 1⟩] := by
  refine ⟨specExperimental_costRows_5, AnalyzeAlternate_zeros_snr_exact _ _ _ _, ?_,
    specExperimental_configuration_5, by decide⟩
  rw [AnalyzeAlternate_zeros_snr_exact]
  rfl

/-- C12: the search returns a candidate of least cost. For every input with
`-1 <= currentRank < rows.size()`, the search returns a pair `(c, r)` where `r`
is a candidate, `c` is the cost of `r`, and `c <= cost(v)` for every candidate
`v`: without rounding, for every finite density other than 0, every snr and
every frequency whose frequencies at the ranks of `rows` are finite, no
candidate then having the cost NaN; and for every rounding of the arithmetic
and every frequency, density and snr for which no candidate has the cost
NaN. -/
theorem C12_search_returns_minimum (T : TermModel) (frequency density snr : Dbl)
    (currentRank : Int) (rows : List Int) (maxRowsPerRank : Int)
    (hlo : -1 ≤ currentRank) (hhi : currentRank < rows.length) :
    (∀ d : ℚ, density = Dbl.fin d → d ≠ 0 →
      (∀ i, i < rows.length → ∃ q, T.FrequencyAtRank frequency i = Dbl.fin q) →
      (∀ v, Temp.IsCandidate T frequency density currentRank rows maxRowsPerRank v →
        Temp.cost DblArith.exact T frequency density snr v ≠ Dbl.nan) ∧
      ∃ c r, Temp DblArith.exact T frequency density snr currentRank rows maxRowsPerRank
          = .ok (c, r) ∧
        c = Temp.cost DblArith.exact T frequency density snr r ∧
        Temp.IsCandidate T frequency density currentRank rows maxRowsPerRank r ∧
        ∀ v, Temp.IsCandidate T frequency density currentRank rows maxRowsPerRank v →
          Dbl.le c (Temp.cost DblArith.exact T frequency density snr v) = true) ∧
    (∀ A : DblArith,
      (∀ v, Temp.IsCandidate T frequency density currentRank rows maxRowsPerRank v →
        Temp.cost A T frequency density snr v ≠ Dbl.nan) →
      ∃ c r, Temp A T frequency density snr currentRank rows maxRowsPerRank = .ok (c, r) ∧
        c = Temp.cost A T frequency density snr r ∧
        Temp.IsCandidate T frequency density currentRank rows maxRowsPerRank r ∧
        ∀ v, Temp.IsCandidate T frequency density currentRank rows maxRowsPerRank v →
          Dbl.le c (Temp.cost A T frequency density snr v) = true) := by
  constructor
  · intro d hd hd0 hf
    subst hd
    have hnan : ∀ v, Temp.IsCandidate T frequency (Dbl.fin d) currentRank rows maxRowsPerRank v →
        Temp.cost DblArith.exact T frequency (Dbl.fin d) snr v ≠ Dbl.nan := by
      intro v hv
      apply Temp_cost_ne_nan_exact T frequency d snr v hd0
      intro i hi
      rw [hv.1] at hi
      exact hf i hi
    exact ⟨hnan, Temp_min DblArith.exact T frequency (Dbl.fin d) snr currentRank rows
      maxRowsPerRank hlo hhi hnan⟩
  · intro A hnan
    exact Temp_min A T frequency density snr currentRank rows maxRowsPerRank hlo hhi hnan

/-- C12, witness: without rounding, frequency 0.01, density 0.1 and snr 10,
the search at rank 0 on `[0]` with at most three rows per rank returns a
candidate of least cost; the candidate `[1]` has the cost `+∞`, its SNR
`0.01 / 0.09` being below 10, the candidate `[3]` has another cost, its SNR
`0.01 / 0.09^3` being above 10, and the cost returned is not `+∞`. -/
theorem C12_search_returns_minimum_witness :
    (∃ c r, Temp DblArith.exact specTermModel (Dbl.fin (1 / 100)) (Dbl.fin (1 / 10)) (Dbl.fin 10)
        0 [0] 3 = .ok (c, r) ∧
      c = Temp.cost DblArith.exact specTermModel (Dbl.fin (1 / 100)) (Dbl.fin (1 / 10))
        (Dbl.fin 10) r ∧
      Temp.IsCandidate specTermModel (Dbl.fin (1 / 100)) (Dbl.fin (1 / 10)) 0 [0] 3 r ∧
      (∀ v, Temp.IsCandidate specTermModel (Dbl.fin (1 / 100)) (Dbl.fin (1 / 10)) 0 [0] 3 v →
        Dbl.le c (Temp.cost DblArith.exact specTermModel (Dbl.fin (1 / 100)) (Dbl.fin (1 / 10))
          (Dbl.fin 10) v) = true) ∧
      c ≠ Dbl.pinf) ∧
    Temp.cost DblArith.exact specTermModel (Dbl.fin (1 / 100)) (Dbl.fin (1 / 10)) (Dbl.fin 10)
      [1] = Dbl.pinf ∧
    Temp.cost DblArith.exact specTermModel (Dbl.fin (1 / 100)) (Dbl.fin (1 / 10)) (Dbl.fin 10)
      [3] ≠ Dbl.pinf := by
  have h1 : Temp.cost DblArith.exact specTermModel (Dbl.fin (1 / 100)) (Dbl.fin (1 / 10))
      (Dbl.fin 10) [1] = Dbl.pinf :=
    Temp_cost_rank0_exact specTermModel (1 / 100) (1 / 10) 10 0 0 (by norm_num)
      (specFrequencyAtRank_zero _) (by norm_num)
  have h3 : Temp.cost DblArith.exact specTermModel (Dbl.fin (1 / 100)) (Dbl.fin (1 / 10))
      (Dbl.fin 10) [3] ≠ Dbl.pinf :=
    Temp_cost_rank0_feasible_exact specTermModel (1 / 100) (1 / 10) 10 2 0 (by norm_num)
      (specFrequencyAtRank_zero _) (by norm_num)
  have hcand : Temp.IsCandidate specTermModel (Dbl.fin (1 / 100)) (Dbl.fin (1 / 10)) 0 [0] 3
      [3] := by
    refine ⟨rfl, fun j hj => ?_⟩
    have hj0 : j = 0 := by simpa using hj
    subst hj0
    refine ⟨fun h => absurd h (by decide), fun _ => ⟨fun h => ?_, fun _ => by decide⟩⟩
    rw [specFrequencyAtRank_zero] at h
    simp only [Dbl.gt, Dbl.lt, decide_eq_true_eq] at h
    norm_num at h
  obtain ⟨hnan, c, r, hok, hc, hr, hmin⟩ :=
    (C12_search_returns_minimum specTermModel (Dbl.fin (1 / 100)) (Dbl.fin (1 / 10)) (Dbl.fin 10)
      0 [0] 3 (by decide) (by decide)).1 (1 / 10) rfl (by norm_num)
      (fun i _ => specFrequencyAtRank_finite _ i)
  refine ⟨⟨c, r, hok, hc, hr, hmin, ?_⟩, h1, h3⟩
  intro hcp
  have hle := hmin [3] hcand
  rw [hcp] at hle
  have hn := hnan [3] hcand
  revert hle
  cases hcost : Temp.cost DblArith.exact specTermModel (Dbl.fin (1 / 100)) (Dbl.fin (1 / 10))
      (Dbl.fin 10) [3] with
  | nan => exact fun _ => hn hcost
  | pinf => exact fun _ => h3 hcost
  | ninf => intro h; simp [Dbl.le, Dbl.lt, Dbl.eq] at h
  | fin q => intro h; simp [Dbl.le, Dbl.lt, Dbl.eq] at h

/-- C13, at a failing input: with density 0.5 and snr 10000,
`TreatmentExperimental` is constructed with an empty configuration for IDF
class 5, where no candidate row vector meets the SNR floor. -/
theorem C13_Experimental_empty_configuration :
    ∃ t, TreatmentExperimental.new DblArith.exact specTermModel (Dbl.fin (1 / 2))
        (Dbl.fin 10000) 0 = .ok t ∧
      t.m_configurations[5]? = some [] :=
  TreatmentExperimental_new_entry DblArith.exact specTermModel (Dbl.fin (1 / 2)) (Dbl.fin 10000)
    0 5 (by decide) [] specExperimental_configuration_5

/-- C21: for every arithmetic in which NaN plus anything, and anything divided
by NaN, is NaN (as in IEEE-754, whatever the rounding), every rows vector that
is empty or holds only zeros, and every density and signal, `AnalyzeAlternate`
returns the SNR NaN; and the search, which gives a vector its cost at
`currentRank = -1`, gives such a vector the cost `+∞` for every `snr`. -/
theorem C21_no_rows_snr_NaN (A : DblArith) (T : TermModel)
    (hadd : ∀ x, A.add Dbl.nan x = Dbl.nan) (hdiv : ∀ x, A.div x Dbl.nan = Dbl.nan)
    (rows : List Int) (hz : ∀ x ∈ rows, x = 0) (density signal snr : Dbl)
    (maxRowsPerRank : Int) :
    (AnalyzeAlternate A T rows density signal).GetSNR = Dbl.nan ∧
    Temp A T signal density snr (-1) rows maxRowsPerRank = .ok (Dbl.pinf, rows) := by
  have hsnr : (AnalyzeAlternate A T rows density signal).GetSNR = Dbl.nan := by
    rw [AnalyzeAlternate_eq_final]
    show A.div signal (AnalyzeAlternate.final A T rows density signal).residualNoise = Dbl.nan
    unfold AnalyzeAlternate.final
    rw [AnalyzeAlternate_rankLoop_no_rows A T hadd rows hz density signal _ _ rfl]
    exact hdiv _
  refine ⟨hsnr, ?_⟩
  rw [Temp_terminal]
  unfold Temp.cost
  simp only [hsnr, Dbl.isnan, Bool.or_true, if_true]

/-- C21, witness: without rounding, with density 0.1 and signal 0.01, the
vector `[0, 0, 0]` has the SNR NaN and the cost `+∞`; so has the empty
vector. -/
theorem C21_no_rows_snr_NaN_witness :
    ((AnalyzeAlternate DblArith.exact specTermModel [0, 0, 0] (Dbl.fin (1 / 10))
        (Dbl.fin (1 / 100))).GetSNR = Dbl.nan ∧
      Temp DblArith.exact specTermModel (Dbl.fin (1 / 100)) (Dbl.fin (1 / 10)) (Dbl.fin 10)
        (-1) [0, 0, 0] 6 = .ok (Dbl.pinf, [0, 0, 0])) ∧
    (AnalyzeAlternate DblArith.exact specTermModel [] (Dbl.fin (1 / 10))
        (Dbl.fin (1 / 100))).GetSNR = Dbl.nan :=
  ⟨C21_no_rows_snr_NaN DblArith.exact specTermModel Dbl.nan_add
      (fun x => by cases x <;> rfl) [0, 0, 0] (by decide) (Dbl.fin (1 / 10))
      (Dbl.fin (1 / 100)) (Dbl.fin 10) 6,
    (C21_no_rows_snr_NaN DblArith.exact specTermModel Dbl.nan_add
      (fun x => by cases x <;> rfl) [] (by simp) (Dbl.fin (1 / 10))
      (Dbl.fin (1 / 100)) (Dbl.fin 10) 6).1⟩

/-- C23, at a failing input: without rounding, with frequency 0.01, density
0.1 and snr 10, the search called at rank 0 on `[0]` with at most one row per
rank branches; the result for the rank below is `(+∞, [0])`, the result for one
more row at rank 0 is `(+∞, [1])`, the two costs are equal, and the search
returns `(+∞, [0])`, the result for the rank below. -/
theorem C23_tie_returns_not_newRow :
    Dbl.gt (specTermModel.FrequencyAtRank (Dbl.fin (1 / 100)) 0) (Dbl.fin (1 / 10)) = false ∧
    ([0] : List Int).getD 0 0 < 1 ∧
    Temp DblArith.exact specTermModel (Dbl.fin (1 / 100)) (Dbl.fin (1 / 10)) (Dbl.fin 10)
      (-1) [0] 1 = .ok (Dbl.pinf, [0]) ∧
    Temp DblArith.exact specTermModel (Dbl.fin (1 / 100)) (Dbl.fin (1 / 10)) (Dbl.fin 10)
      0 [1] 1 = .ok (Dbl.pinf, [1]) ∧
    Dbl.eq Dbl.pinf Dbl.pinf = true ∧
    Temp DblArith.exact specTermModel (Dbl.fin (1 / 100)) (Dbl.fin (1 / 10)) (Dbl.fin 10)
      0 [0] 1 = .ok (Dbl.pinf, [0]) ∧
    Temp DblArith.exact specTermModel (Dbl.fin (1 / 100)) (Dbl.fin (1 / 10)) (Dbl.fin 10)
      0 [0] 1 ≠ .ok (Dbl.pinf, [1]) := by
  have hf : Dbl.gt (specTermModel.FrequencyAtRank (Dbl.fin (1 / 100)) 0) (Dbl.fin (1 / 10))
      = false := by
    rw [specFrequencyAtRank_zero]
    simp only [Dbl.gt, Dbl.lt, decide_eq_false_iff_not]
    norm_num
  have hd : Temp DblArith.exact specTermModel (Dbl.fin (1 / 100)) (Dbl.fin (1 / 10)) (Dbl.fin 10)
      (-1) [0] 1 = .ok (Dbl.pinf, [0]) := by
    rw [Temp_terminal]
    have := Temp_cost_zeros_exact specTermModel (Dbl.fin (1 / 100)) (Dbl.fin (1 / 10))
      (Dbl.fin 10) 1
    rw [show List.replicate 1 (0 : Int) = [0] from rfl] at this
    rw [this]
  have hn : Temp DblArith.exact specTermModel (Dbl.fin (1 / 100)) (Dbl.fin (1 / 10)) (Dbl.fin 10)
      0 [1] 1 = .ok (Dbl.pinf, [1]) := by
    have h1 : ¬ ((0 : Int) = -1) := by decide
    have h2 : ¬ ((0 : Int) < 0 ∨ (([1] : List Int).length : Int) ≤ 0) := by decide
    have h4 : ([1] : List Int).getD 0 0 ≥ 1 := by decide
    rw [Temp]
    simp only [h1, h2, if_false, dite_false, Int.toNat_zero]
    rw [if_neg (by rw [hf]; exact Bool.false_ne_true), dif_pos h4]
    rw [show (0 : Int) - 1 = -1 from rfl, Temp_terminal]
    have := Temp_cost_rank0_exact specTermModel (1 / 100) (1 / 10) 10 0 0 (by norm_num)
      (specFrequencyAtRank_zero _) (by norm_num)
    rw [show (((0 + 1 : Nat) : Int) :: List.replicate 0 0) = [1] from rfl] at this
    rw [this]
  have hT := Temp_rank0_infeasible_exact specTermModel (1 / 100) (1 / 10) 10 1 0 (by norm_num)
    (specFrequencyAtRank_zero _) (by intro k hk; interval_cases k; norm_num)
  rw [show List.replicate (0 + 1) (0 : Int) = [0] from rfl] at hT
  have hT2 : Temp DblArith.exact specTermModel (Dbl.fin (1 / 100)) (Dbl.fin (1 / 10))
      (Dbl.fin 10) 0 [0] 1 = .ok (Dbl.pinf, [0]) := hT
  refine ⟨hf, by decide, hd, hn, rfl, hT2, ?_⟩
  rw [hT2]
  simp

/-- C23, as amended: where the search branches (the rank is not forced private
and has fewer than `maxRowsPerRank` rows) and the result for the rank below
and the result for one more row at the rank have equal cost, the search
returns the result for the rank below. -/
theorem C23_tie_returns_rankDown (A : DblArith) (T : TermModel) (frequency density snr : Dbl)
    (currentRank : Nat) (rows : List Int) (maxRowsPerRank : Int)
    (rankDown newRow : Dbl × List Int) (hr : currentRank < rows.length)
    (hf : Dbl.gt (T.FrequencyAtRank frequency currentRank) density = false)
    (hs : rows.getD currentRank 0 < maxRowsPerRank)
    (hd : Temp A T frequency density snr ((currentRank : Int) - 1) rows maxRowsPerRank =
      .ok rankDown)
    (hn : Temp A T frequency density snr (currentRank : Int)
      (rows.set currentRank (rows.getD currentRank 0 + 1)) maxRowsPerRank = .ok newRow)
    (htie : Dbl.eq newRow.1 rankDown.1 = true) :
    Temp A T frequency density snr (currentRank : Int) rows maxRowsPerRank = .ok rankDown := by
  rw [Temp_branch A T frequency density snr currentRank rows maxRowsPerRank rankDown newRow
    hr hf hs hd hn, Dbl.lt_false_of_eq htie]
  rfl

/-- C23, witness: without rounding, with frequency 0.01, density 0.1 and snr
10, the search called at rank 0 on `[0]` with at most one row per rank, where
both results cost `+∞`, returns the result for the rank below. -/
theorem C23_tie_returns_rankDown_witness :
    Temp DblArith.exact specTermModel (Dbl.fin (1 / 100)) (Dbl.fin (1 / 10)) (Dbl.fin 10)
      ((0 : Nat) : Int) [0] 1 = .ok (Dbl.pinf, [0]) := by
  have hf : Dbl.gt (specTermModel.FrequencyAtRank (Dbl.fin (1 / 100)) 0) (Dbl.fin (1 / 10))
      = false := by
    rw [specFrequencyAtRank_zero]
    simp only [Dbl.gt, Dbl.lt, decide_eq_false_iff_not]
    norm_num
  have hd : Temp DblArith.exact specTermModel (Dbl.fin (1 / 100)) (Dbl.fin (1 / 10)) (Dbl.fin 10)
      (((0 : Nat) : Int) - 1) [0] 1 = .ok (Dbl.pinf, [0]) := by
    rw [show (((0 : Nat) : Int) - 1) = -1 from rfl, Temp_terminal]
    have := Temp_cost_zeros_exact specTermModel (Dbl.fin (1 / 100)) (Dbl.fin (1 / 10))
      (Dbl.fin 10) 1
    rw [show List.replicate 1 (0 : Int) = [0] from rfl] at this
    rw [this]
  have hn : Temp DblArith.exact specTermModel (Dbl.fin (1 / 100)) (Dbl.fin (1 / 10)) (Dbl.fin 10)
      ((0 : Nat) : Int) (([0] : List Int).set 0 (([0] : List Int).getD 0 0 + 1)) 1
      = .ok (Dbl.pinf, [1]) := by
    have h1 : ¬ ((0 : Int) = -1) := by decide
    have h2 : ¬ ((0 : Int) < 0 ∨ (([1] : List Int).length : Int) ≤ 0) := by decide
    have h4 : ([1] : List Int).getD 0 0 ≥ 1 := by decide
    show Temp DblArith.exact specTermModel (Dbl.fin (1 / 100)) (Dbl.fin (1 / 10)) (Dbl.fin 10)
      0 [1] 1 = .ok (Dbl.pinf, [1])
    rw [Temp]
    simp only [h1, h2, if_false, dite_false, Int.toNat_zero]
    rw [if_neg (by rw [hf]; exact Bool.false_ne_true), dif_pos h4]
    rw [show (0 : Int) - 1 = -1 from rfl, Temp_terminal]
    have := Temp_cost_rank0_exact specTermModel (1 / 100) (1 / 10) 10 0 0 (by norm_num)
      (specFrequencyAtRank_zero _) (by norm_num)
    rw [show (((0 + 1 : Nat) : Int) :: List.replicate 0 0) = [1] from rfl] at this
    rw [this]
  exact C23_tie_returns_rankDown DblArith.exact specTermModel (Dbl.fin (1 / 100))
    (Dbl.fin (1 / 10)) (Dbl.fin 10) 0 [0] 1 (Dbl.pinf, [0]) (Dbl.pinf, [1]) (by decide) hf
    (by decide) hd hn rfl

/-- C24: called with `-1 <= currentRank < rows.size()`, on any rows and any
`maxRowsPerRank`, the search returns a result; and each recursive call of a
body that is not at `currentRank = -1` is lower in the lexicographic order of
the pairs `(currentRank, maxRowsPerRank - rows[currentRank])`: the two calls at
`currentRank - 1`, on the vector with one more row at `currentRank` (forced
private) and on `rows` itself, lower the first component, which stays `>= -1`;
and the call at `currentRank` with one more row at it, made only when
`rows[currentRank] < maxRowsPerRank`, keeps the first component and lowers the
second, which stays `>= 0`. -/
theorem C24_search_terminates (A : DblArith) (T : TermModel) (frequency density snr : Dbl)
    (currentRank : Int) (rows : List Int) (maxRowsPerRank : Int)
    (h1 : -1 ≤ currentRank) (h2 : currentRank < rows.length) :
    (∃ result, Temp A T frequency density snr currentRank rows maxRowsPerRank = .ok result) ∧
    (0 ≤ currentRank →
      Prod.Lex (fun a b : Int => a < b) (fun a b : Int => a < b)
        (Temp.measure (currentRank - 1)
          (rows.set currentRank.toNat (rows.getD currentRank.toNat 0 + 1)) maxRowsPerRank)
        (Temp.measure currentRank rows maxRowsPerRank) ∧
      Prod.Lex (fun a b : Int => a < b) (fun a b : Int => a < b)
        (Temp.measure (currentRank - 1) rows maxRowsPerRank)
        (Temp.measure currentRank rows maxRowsPerRank) ∧
      -1 ≤ (Temp.measure (currentRank - 1) rows maxRowsPerRank).1 ∧
      (rows.getD currentRank.toNat 0 < maxRowsPerRank →
        Prod.Lex (fun a b : Int => a < b) (fun a b : Int => a < b)
          (Temp.measure currentRank
            (rows.set currentRank.toNat (rows.getD currentRank.toNat 0 + 1)) maxRowsPerRank)
          (Temp.measure currentRank rows maxRowsPerRank) ∧
        0 ≤ (Temp.measure currentRank
          (rows.set currentRank.toNat (rows.getD currentRank.toNat 0 + 1)) maxRowsPerRank).2)) := by
  constructor
  · obtain ⟨cost, r, hr, _⟩ := Temp_ok A T frequency density snr currentRank rows
      maxRowsPerRank h1 h2
    exact ⟨_, hr⟩
  · intro h0
    have hlt : currentRank.toNat < rows.length := by omega
    have hset : (rows.set currentRank.toNat (rows.getD currentRank.toNat 0 + 1)).getD
        currentRank.toNat 0 = rows.getD currentRank.toNat 0 + 1 := by
      rw [getD_set_rows rows currentRank.toNat currentRank.toNat _ hlt, if_pos rfl]
    refine ⟨?_, ?_, ?_, ?_⟩
    · unfold Temp.measure
      apply Prod.Lex.left
      omega
    · unfold Temp.measure
      apply Prod.Lex.left
      omega
    · unfold Temp.measure
      show -1 ≤ currentRank - 1
      omega
    · intro hs
      unfold Temp.measure
      constructor
      · apply Prod.Lex.right
        rw [hset]
        omega
      · show 0 ≤ maxRowsPerRank - _
        rw [hset]
        omega

/-- C24, witness: the search called at rank 1 on `[0, 0]` with at most 2 rows
per rank returns, and its recursive calls descend from the pair `(1, 2)` to
`(0, 2)` and to `(1, 1)`. -/
theorem C24_search_terminates_witness :
    (∃ result, Temp DblArith.exact specTermModel (Dbl.fin (1 / 100)) (Dbl.fin (1 / 10))
      (Dbl.fin 10) 1 [0, 0] 2 = .ok result) ∧
    Temp.measure 1 [0, 0] 2 = (1, 2) ∧ Temp.measure (1 - 1) [0, 0] 2 = (0, 2) ∧
    Temp.measure 1 [0, 1] 2 = (1, 1) ∧
    Prod.Lex (fun a b : Int => a < b) (fun a b : Int => a < b)
      (Temp.measure 1 [0, 1] 2) (Temp.measure 1 [0, 0] 2) := by
  have h := C24_search_terminates DblArith.exact specTermModel (Dbl.fin (1 / 100))
    (Dbl.fin (1 / 10)) (Dbl.fin 10) 1 [0, 0] 2 (by decide) (by decide)
  exact ⟨h.1, by decide, by decide, by decide, ((h.2 (by decide)).2.2.2 (by decide)).1⟩

/-- C25: the loader of `DocumentFrequencyTable` fails with `FormatError` on
every input in which some line `b` comes directly after a line `a` with
`b.frequency > a.frequency`, whatever the lines before and after them are; and
when it succeeds, every line of the input was read, the stored entries are
those of the lines in their order, and the frequency of each entry is `>=`
that of the next. -/
theorem C25_loader_rejects_ascending (idfOf : Dbl → Nat) :
    (∀ (pre : List (Option DocumentFrequencyTable.Line)) (a b : DocumentFrequencyTable.Line)
        (post : List (Option DocumentFrequencyTable.Line)),
      Dbl.gt b.frequency a.frequency = true →
        DocumentFrequencyTable.new idfOf (pre ++ some a :: some b :: post) =
          .error Error.FormatError) ∧
    (∀ (input : List (Option DocumentFrequencyTable.Line)) (table : DocumentFrequencyTable),
      DocumentFrequencyTable.new idfOf input = .ok table →
        ∃ lines : List DocumentFrequencyTable.Line, input = lines.map some ∧
          table.m_entries = lines.map (fun line => line.toEntry idfOf) ∧
          table.m_entries.map (fun entry => entry.GetFrequency) =
            lines.map (fun line => line.frequency) ∧
          (table.m_entries.map (fun entry => entry.GetFrequency)).Chain'
            (fun x y => Dbl.ge x y = true)) := by
  constructor
  · intro pre a b post hasc
    unfold DocumentFrequencyTable.new
    rw [DocumentFrequencyTable_readLines_ascending idfOf a b post hasc pre none []]
  · intro input table h
    unfold DocumentFrequencyTable.new at h
    cases hr : DocumentFrequencyTable.readLines idfOf input none [] with
    | error e =>
      rw [hr] at h
      cases h
    | ok m_entries =>
      rw [hr] at h
      simp only [Except.ok.injEq] at h
      subst h
      obtain ⟨lines, hin, hres, _, hchain, _⟩ := DocumentFrequencyTable_readLines_ok idfOf input
        none [] m_entries hr
      rw [List.nil_append] at hres
      have hfreq : m_entries.map (fun entry => entry.GetFrequency) =
          lines.map (fun line => line.frequency) := by
        rw [hres, List.map_map]
        rfl
      exact ⟨lines, hin, hres, hfreq, by rw [hfreq]; exact hchain⟩

/-- C25, witness: the lines `000000000000BEEF,1,0,0.5` and
`000000000000CAFE,1,0,0.6` fail with `FormatError`; in the other order they are
loaded, as two entries with the frequencies 0.6 and 0.5. -/
theorem C25_loader_rejects_ascending_witness :
    DocumentFrequencyTable.new (fun _ => 3)
      [some ⟨48879, 1, 0, Dbl.fin (5 / 10)⟩, some ⟨51966, 1, 0, Dbl.fin (6 / 10)⟩]
      = .error Error.FormatError ∧
    DocumentFrequencyTable.new (fun _ => 3)
      [some ⟨51966, 1, 0, Dbl.fin (6 / 10)⟩, some ⟨48879, 1, 0, Dbl.fin (5 / 10)⟩]
      = .ok ⟨[⟨⟨51966, 0, 3⟩, Dbl.fin (6 / 10)⟩, ⟨⟨48879, 0, 3⟩, Dbl.fin (5 / 10)⟩]⟩ := by
  constructor
  · exact (C25_loader_rejects_ascending (fun _ => 3)).1 []
      ⟨48879, 1, 0, Dbl.fin (5 / 10)⟩ ⟨51966, 1, 0, Dbl.fin (6 / 10)⟩ []
      (by simp only [Dbl.gt, Dbl.lt, decide_eq_true_eq]; norm_num)
  · simp only [DocumentFrequencyTable.new, DocumentFrequencyTable.readLines,
      DocumentFrequencyTable.Line.wellFormed, DocumentFrequencyTable.Line.toEntry,
      DocumentFrequencyTable.ascends,
      Dbl.ge, Dbl.le, Dbl.gt, Dbl.lt, Dbl.eq]
    norm_num

/-- C26: for every rows vector of at most 31 ranks with non-negative entries,
every finite density `d > 0` and every signal whose frequency at each rank `i`
of the vector is a finite value `f i`: without rounding, the memory cost that
`AnalyzeAlternate` returns is the sum over the ranks `i` of `rows[i]` times
`1 / 2^i` if `f i > d`, and times `f i / d` if not (so also at `f i = d`); and
for every rounding of the arithmetic it is what adding that cost of one row
once per row gives, from the highest rank to the lowest. -/
theorem C26_memory_cost_closed_form (T : TermModel) (rows : List Int) (d : ℚ) (signal : Dbl)
    (f : Nat → ℚ) (hlen : rows.length ≤ 31) (hrows : ∀ x ∈ rows, 0 ≤ x) (hd : 0 < d)
    (hf : ∀ i, i < rows.length → T.FrequencyAtRank signal i = Dbl.fin (f i)) :
    (AnalyzeAlternate DblArith.exact T rows (Dbl.fin d) signal).m_memoryCost =
      Dbl.fin (Finset.sum (Finset.range rows.length) (fun i =>
        ((rows.getD i 0 : Int) : ℚ) * (if f i > d then 1 / 2 ^ i else f i / d))) ∧
    ∀ A : DblArith,
      (AnalyzeAlternate A T rows (Dbl.fin d) signal).m_memoryCost =
        List.foldr (fun i m =>
          (fun x => A.add x (if Dbl.gt (T.FrequencyAtRank signal i) (Dbl.fin d) then
              A.div (Dbl.fin 1) (Dbl.fin (2 ^ i))
            else A.div (T.FrequencyAtRank signal i) (Dbl.fin d)))^[(rows.getD i 0).toNat] m)
          (Dbl.fin 0) (List.range rows.length) := by
  constructor
  · rw [AnalyzeAlternate_eq_final]
    show (AnalyzeAlternate.final DblArith.exact T rows (Dbl.fin d) signal).memoryCost = _
    unfold AnalyzeAlternate.final
    rw [AnalyzeAlternate_rankLoop_memoryCost_exact T rows d signal f (ne_of_gt hd) rows.length hf
      rows.length AnalyzeAlternate.initial 0 (le_refl _) rfl, zero_add]
    congr 1
    apply Finset.sum_congr rfl
    intro i hi
    have hlt : i < rows.length := Finset.mem_range.mp hi
    have hnn : 0 ≤ rows.getD i 0 := by
      rw [List.getD_eq_getElem?_getD, List.getElem?_eq_getElem hlt]
      exact hrows _ (List.getElem_mem hlt)
    have hcast : (((rows.getD i 0).toNat : Nat) : ℚ) = ((rows.getD i 0 : Int) : ℚ) := by
      rw [← Int.cast_natCast, Int.toNat_of_nonneg hnn]
    rw [hcast, shiftLeftOne_cast i (by omega)]
  · intro A
    rw [AnalyzeAlternate_eq_final]
    refine (AnalyzeAlternate_rankLoop_memoryCost A T rows (Dbl.fin d) signal rows.length
      AnalyzeAlternate.initial).trans ?_
    apply List.foldr_ext
    intro i hi m
    have hlt : i < rows.length := List.mem_range.mp hi
    rw [shiftLeftOne_cast i (by omega)]

/-- C26, witness: without rounding, with density 0.6 and signal 0.5, the
vector `[2, 3]` has the memory cost `2 * (0.5 / 0.6) + 3 * (1 / 2)`: the
frequency 0.5 at rank 0 is not above the density, the frequency 0.75 at rank 1
is. -/
theorem C26_memory_cost_closed_form_witness :
    (AnalyzeAlternate DblArith.exact specTermModel [2, 3] (Dbl.fin (6 / 10))
      (Dbl.fin (1 / 2))).m_memoryCost = Dbl.fin (19 / 6) := by
  rw [(C26_memory_cost_closed_form specTermModel [2, 3] (6 / 10) (Dbl.fin (1 / 2))
    (fun i => 1 - (1 - 1 / 2) ^ (2 ^ i)) (by decide) (by decide) (by norm_num)
    (by
      intro i _
      simp only [specTermModel, specFrequencyAtRank]
      norm_num)).1]
  simp only [List.length_cons, List.length_nil, Finset.sum_range_succ, Finset.sum_range_zero]
  norm_num

/-- C27: `AnalyzeAlternate` returns for a rows vector extended by `n` zeros at
the ranks above it the SNR, the scan cost and the memory cost that it returns
for the vector itself, for every `n`, density and signal, in each of two
cases: for every arithmetic, whatever it does with NaN, when no entry of the
vector is negative and one is not zero; and for every rows vector when NaN plus
anything is NaN, as in IEEE-754. -/
theorem C27_leading_empty_ranks (A : DblArith) (T : TermModel) (rows : List Int) (n : Nat)
    (density signal : Dbl)
    (h : ((∀ x ∈ rows, 0 ≤ x) ∧ ∃ x ∈ rows, x ≠ 0) ∨ ∀ x, A.add Dbl.nan x = Dbl.nan) :
    AnalyzeAlternate A T (rows ++ List.replicate n 0) density signal =
      AnalyzeAlternate A T rows density signal := by
  have hfinal : AnalyzeAlternate.final A T (rows ++ List.replicate n 0) density signal =
      AnalyzeAlternate.rankLoop A T rows density signal (rows.length + n)
        AnalyzeAlternate.initial := by
    unfold AnalyzeAlternate.final
    rw [List.length_append, List.length_replicate]
    exact AnalyzeAlternate_rankLoop_congr A T _ _ density signal
      (getD_append_zeros rows n) _ _
  rcases h with ⟨hrows, x0, hx0, hne⟩ | hadd
  · obtain ⟨x, y, hxy⟩ := AnalyzeAlternate_rankLoop_above_any A T rows density signal n
      AnalyzeAlternate.initial
    have hj : ∃ j, j < rows.length ∧ rows.getD j 0 ≠ 0 := by
      obtain ⟨j, hj, hget⟩ := List.getElem_of_mem hx0
      refine ⟨j, hj, ?_⟩
      rw [List.getD_eq_getElem?_getD, List.getElem?_eq_getElem hj]
      simp only [Option.getD_some]
      rw [hget]
      exact hne
    have hinit := AnalyzeAlternate_rankLoop_initial A T rows density signal hrows rows.length
      AnalyzeAlternate.initial x y rfl hj
    rw [AnalyzeAlternate_eq_final, AnalyzeAlternate_eq_final, hfinal, hxy, hinit]
    rfl
  · obtain ⟨x, hx⟩ := AnalyzeAlternate_rankLoop_above A T hadd rows density signal n
      AnalyzeAlternate.initial rfl
    obtain ⟨h1, h2, h3⟩ := AnalyzeAlternate_rankLoop_lastSignal A T hadd rows density signal
      rows.length AnalyzeAlternate.initial x rfl rfl
    rw [AnalyzeAlternate_eq_final, AnalyzeAlternate_eq_final, hfinal, hx, h1, h2, h3]
    rfl

/-- C27, witness: without rounding, with density 0.6 and signal 0.5, the
vector `[2, 3]` and the vector `[2, 3, 0, 0]` have the same metrics. -/
theorem C27_leading_empty_ranks_witness :
    AnalyzeAlternate DblArith.exact specTermModel [2, 3, 0, 0] (Dbl.fin (6 / 10))
        (Dbl.fin (1 / 2)) =
      AnalyzeAlternate DblArith.exact specTermModel [2, 3] (Dbl.fin (6 / 10))
        (Dbl.fin (1 / 2)) :=
  C27_leading_empty_ranks DblArith.exact specTermModel [2, 3] 2
    (Dbl.fin (6 / 10)) (Dbl.fin (1 / 2)) (Or.inl ⟨by decide, 2, by decide, by decide⟩)

/-- C28: for `TreatmentPrivateSharedRank0ToN` and an IDF class `idf` up to
`c_maxIdfX10Value` with frequency `f <= density`, where
`maxRank = min(ComputeMaxRank(f, 0.15), 6)`: the tabulated configuration holds
the entry `(0, 2)` and, for each rank `r` with `1 <= r < maxRank`, the entry
`(r, 1)`; every entry at rank 0 has count 2 and every entry at such a rank `r`
has count 1, whatever `FrequencyAtRank(f, r)` is. -/
theorem C28_PrivateSharedRank0ToN_intermediate_counts (T : TermModel) (density snr : Dbl)
    (variant : Int) (idf : Nat) (hidf : idf ≤ T.c_maxIdfX10Value)
    (hle : Dbl.le (T.IdfX10ToFrequency idf) density = true) :
    ∃ t c, TreatmentPrivateSharedRank0ToN.new T density snr variant = .ok t ∧
      t.m_configurations[idf]? = some c ∧
      (⟨0, 2⟩ : RowConfiguration.Entry) ∈ c ∧
      (∀ r : Nat, 1 ≤ r →
        r < min (T.ComputeMaxRank (T.IdfX10ToFrequency idf)
          TreatmentPrivateSharedRank0ToN.maxDensity) 6 →
        (⟨r, 1⟩ : RowConfiguration.Entry) ∈ c) ∧
      (∀ e ∈ c, e.rank = 0 → e.count = 2) ∧
      (∀ e ∈ c, 1 ≤ e.rank →
        e.rank < min (T.ComputeMaxRank (T.IdfX10ToFrequency idf)
          TreatmentPrivateSharedRank0ToN.maxDensity) 6 →
        e.count = 1) := by
  have hc := TreatmentPrivateSharedRank0ToN_configuration_eq T density snr idf
  simp only [Dbl.gt_false_of_le hle, Bool.false_eq_true, if_false] at hc
  obtain ⟨t, h1, h2⟩ := TreatmentPrivateSharedRank0ToN_new_entry T density snr variant idf hidf
    _ hc
  generalize min (T.ComputeMaxRank (T.IdfX10ToFrequency idf)
    TreatmentPrivateSharedRank0ToN.maxDensity) 6 = m at h2 ⊢
  refine ⟨t, _, h1, h2, ?_, ?_, ?_, ?_⟩
  · simp
  · intro r hr1 hrm
    simp only [List.mem_cons, List.mem_append, List.mem_reverse, List.mem_map,
      List.mem_range'_1, List.mem_singleton]
    right
    left
    exact ⟨r, ⟨hr1, by omega⟩, rfl⟩
  · intro e he h0
    simp only [List.mem_cons, List.mem_append, List.mem_reverse, List.mem_map,
      List.mem_range'_1, List.mem_singleton, List.not_mem_nil, or_false] at he
    rcases he with rfl | ⟨r, ⟨hr1, _⟩, rfl⟩ | rfl
    · simp only at h0
      omega
    · simp only at h0
      omega
    · rfl
  · intro e he h1 hm
    simp only [List.mem_cons, List.mem_append, List.mem_reverse, List.mem_map,
      List.mem_range'_1, List.mem_singleton, List.not_mem_nil, or_false] at he
    rcases he with rfl | ⟨r, _, rfl⟩ | rfl
    · simp only at hm
      omega
    · rfl
    · simp only at h1
      omega

/-- C28, witness: with density 0.1 and snr 10, IDF class 40 (frequency 0.0001)
has `maxRank = 6`, and its configuration holds `(0, 2)` and `(3, 1)`. -/
theorem C28_PrivateSharedRank0ToN_intermediate_counts_witness :
    ∃ t c, TreatmentPrivateSharedRank0ToN.new specTermModel (Dbl.fin (1 / 10)) (Dbl.fin 10) 0
        = .ok t ∧ t.m_configurations[40]? = some c ∧
      (⟨0, 2⟩ : RowConfiguration.Entry) ∈ c ∧ (⟨3, 1⟩ : RowConfiguration.Entry) ∈ c := by
  have hle : Dbl.le (specTermModel.IdfX10ToFrequency 40) (Dbl.fin (1 / 10)) = true := by
    rw [specIdfX10ToFrequency_40]
    simp only [Dbl.le, Dbl.lt, Dbl.eq, Bool.or_eq_true, decide_eq_true_eq]
    norm_num
  obtain ⟨t, c, h1, h2, h3, h4, _, _⟩ := C28_PrivateSharedRank0ToN_intermediate_counts
    specTermModel (Dbl.fin (1 / 10)) (Dbl.fin 10) 0 40 (by decide) hle
  rw [specIdfX10ToFrequency_40, specComputeMaxRank_40] at h4
  exact ⟨t, c, h1, h2, h3, h4 3 (by decide) (by decide)⟩

/-- C29: for `TreatmentPrivateSharedRank0ToN` and an IDF class `idf` up to
`c_maxIdfX10Value` with frequency `f <= density`,
`maxRank = min(ComputeMaxRank(f, 0.15), 6) >= 1` and
`k = ComputeRowCount(f, density, snr)`: the tabulated configuration starts with
the entry at `maxRank`, which is its only entry at that rank, and the count of
that entry is 1 if `FrequencyAtRank(f, maxRank) >= density` and
`max(k - 1 - maxRank, 1)` otherwise. -/
theorem C29_PrivateSharedRank0ToN_maxRank_count (T : TermModel) (density snr : Dbl)
    (variant : Int) (idf : Nat) (hidf : idf ≤ T.c_maxIdfX10Value)
    (hle : Dbl.le (T.IdfX10ToFrequency idf) density = true)
    (hm : 1 ≤ min (T.ComputeMaxRank (T.IdfX10ToFrequency idf)
      TreatmentPrivateSharedRank0ToN.maxDensity) 6) :
    ∃ t c, TreatmentPrivateSharedRank0ToN.new T density snr variant = .ok t ∧
      t.m_configurations[idf]? = some c ∧
      c.head? = some
        ⟨min (T.ComputeMaxRank (T.IdfX10ToFrequency idf)
            TreatmentPrivateSharedRank0ToN.maxDensity) 6,
          if Dbl.ge (T.FrequencyAtRank (T.IdfX10ToFrequency idf)
              (min (T.ComputeMaxRank (T.IdfX10ToFrequency idf)
                TreatmentPrivateSharedRank0ToN.maxDensity) 6)) density then 1
          else max (T.ComputeRowCount (T.IdfX10ToFrequency idf) density snr - 1 -
            ((min (T.ComputeMaxRank (T.IdfX10ToFrequency idf)
              TreatmentPrivateSharedRank0ToN.maxDensity) 6 : Nat) : Int)) 1⟩ ∧
      ∀ e ∈ c, e.rank = min (T.ComputeMaxRank (T.IdfX10ToFrequency idf)
          TreatmentPrivateSharedRank0ToN.maxDensity) 6 → c.head? = some e := by
  have hc := TreatmentPrivateSharedRank0ToN_configuration_eq T density snr idf
  simp only [Dbl.gt_false_of_le hle, Bool.false_eq_true, if_false] at hc
  obtain ⟨t, h1, h2⟩ := TreatmentPrivateSharedRank0ToN_new_entry T density snr variant idf hidf
    _ hc
  generalize min (T.ComputeMaxRank (T.IdfX10ToFrequency idf)
    TreatmentPrivateSharedRank0ToN.maxDensity) 6 = m at h2 hm ⊢
  have hmax : max 1 m = m := by omega
  rw [hmax] at h2
  refine ⟨t, _, h1, h2, ?_, ?_⟩
  · simp only [List.head?_cons, Option.some.injEq, RowConfiguration.Entry.mk.injEq, true_and]
    by_cases hf : Dbl.ge (T.FrequencyAtRank (T.IdfX10ToFrequency idf) m) density = true
    · rw [if_pos hf, if_pos hf]
    · rw [if_neg hf, if_neg hf]
      have hcast : (((m - 1 : Nat) : Nat) : Int) = (m : Int) - 1 := by omega
      rw [hcast]
      split_ifs with hn
      · rw [max_eq_left (by omega)]
        omega
      · rw [max_eq_right (by omega)]
  · intro e he hrank
    simp only [List.mem_cons, List.mem_append, List.mem_reverse, List.mem_map,
      List.mem_range'_1, List.mem_singleton, List.not_mem_nil, or_false] at he
    rcases he with rfl | ⟨r, ⟨_, hr⟩, rfl⟩ | rfl
    · rfl
    · simp only at hrank
      omega
    · simp only at hrank
      omega

/-- C29, witness: with density 0.1 and snr 10000, IDF class 13 (frequency about
0.0501) has `maxRank = 1` and `k = 5`, and its configuration starts with
`(1, 3)`. -/
theorem C29_PrivateSharedRank0ToN_maxRank_count_witness :
    ∃ t c, TreatmentPrivateSharedRank0ToN.new specTermModel (Dbl.fin (1 / 10)) (Dbl.fin 10000) 0
        = .ok t ∧ t.m_configurations[13]? = some c ∧ c.head? = some ⟨1, 3⟩ := by
  have hle : Dbl.le (specTermModel.IdfX10ToFrequency 13) (Dbl.fin (1 / 10)) = true := by
    rw [specIdfX10ToFrequency_13]
    simp only [Dbl.le, Dbl.lt, Dbl.eq, Bool.or_eq_true, decide_eq_true_eq]
    norm_num
  have hm : 1 ≤ min (specTermModel.ComputeMaxRank (specTermModel.IdfX10ToFrequency 13)
      TreatmentPrivateSharedRank0ToN.maxDensity) 6 := by
    rw [specIdfX10ToFrequency_13, specComputeMaxRank_13]
    decide
  obtain ⟨t, c, h1, h2, h3, _⟩ := C29_PrivateSharedRank0ToN_maxRank_count
    specTermModel (Dbl.fin (1 / 10)) (Dbl.fin 10000) 0 13 (by decide) hle hm
  refine ⟨t, c, h1, h2, ?_⟩
  have hf : Dbl.ge (specTermModel.FrequencyAtRank (Dbl.fin (5011872336 / 100000000000)) 1)
      (Dbl.fin (1 / 10)) = false := by
    simp only [specTermModel, specFrequencyAtRank, Dbl.ge, Dbl.le, Dbl.lt, Dbl.eq]
    norm_num
  rw [h3, specIdfX10ToFrequency_13, specComputeMaxRank_13, specComputeRowCount_13]
  simp only [Nat.min_def]
  rw [if_pos (by decide), hf]
  rfl

/-- C30: called with `-1 <= currentRank < rows.size()`, the search returns a
pair whose row vector has the length of `rows`, equals `rows` at every rank
above `currentRank`, is `>= rows` at every rank and, when `rows` holds only
zeros and `maxRowsPerRank >= 1`, is `<= maxRowsPerRank` at every rank. -/
theorem C30_search_frame_and_bound (A : DblArith) (T : TermModel)
    (frequency density snr : Dbl) (currentRank : Int) (rows : List Int) (maxRowsPerRank : Int)
    (h1 : -1 ≤ currentRank) (h2 : currentRank < rows.length) :
    ∃ cost r, Temp A T frequency density snr currentRank rows maxRowsPerRank = .ok (cost, r) ∧
      r.length = rows.length ∧
      (∀ j : Nat, currentRank < (j : Int) → r.getD j 0 = rows.getD j 0) ∧
      (∀ j : Nat, rows.getD j 0 ≤ r.getD j 0) ∧
      ((∀ x ∈ rows, x = 0) → 1 ≤ maxRowsPerRank → ∀ j : Nat, r.getD j 0 ≤ maxRowsPerRank) := by
  obtain ⟨cost, r, hT, hlen, hcand⟩ := Temp_returns_candidate A T frequency density snr
    currentRank rows maxRowsPerRank h1 h2
  have hout : ∀ j : Nat, ¬ j < rows.length → r.getD j 0 = 0 ∧ rows.getD j 0 = 0 := by
    intro j hj
    constructor
    · rw [List.getD_eq_getElem?_getD, List.getElem?_eq_none (by omega)]
      rfl
    · rw [List.getD_eq_getElem?_getD, List.getElem?_eq_none (by omega)]
      rfl
  refine ⟨cost, r, hT, hlen, ?_, ?_, ?_⟩
  · intro j hj
    by_cases hjl : j < rows.length
    · exact (hcand j hjl).1 hj
    · rw [(hout j hjl).1, (hout j hjl).2]
  · intro j
    by_cases hjl : j < rows.length
    · by_cases hjr : currentRank < (j : Int)
      · rw [(hcand j hjl).1 hjr]
      · have h := (hcand j hjl).2 (by omega)
        by_cases hf : Dbl.gt (T.FrequencyAtRank frequency j) density = true
        · rw [h.1 hf]
          omega
        · exact (h.2 (by simpa using hf)).1
    · rw [(hout j hjl).1, (hout j hjl).2]
  · intro hz hmax j
    have h0 : rows.getD j 0 = 0 := getD_of_all_zero rows hz j
    by_cases hjl : j < rows.length
    · by_cases hjr : currentRank < (j : Int)
      · rw [(hcand j hjl).1 hjr, h0]
        omega
      · have h := (hcand j hjl).2 (by omega)
        by_cases hf : Dbl.gt (T.FrequencyAtRank frequency j) density = true
        · rw [h.1 hf, h0]
          omega
        · have hb := (h.2 (by simpa using hf)).2
          rw [h0, max_eq_right (by omega)] at hb
          exact hb
    · rw [(hout j hjl).1]
      omega

/-- C30, witness: without rounding, with frequency 0.01, density 0.1 and snr
10, the search called at rank 0 on `[0, 0]` with at most 6 rows per rank
returns a vector of length 2 that has no row at rank 1 and at most 6 rows at
rank 0. -/
theorem C30_search_frame_and_bound_witness :
    ∃ cost r, Temp DblArith.exact specTermModel (Dbl.fin (1 / 100)) (Dbl.fin (1 / 10))
        (Dbl.fin 10) 0 [0, 0] 6 = .ok (cost, r) ∧
      r.length = 2 ∧ r.getD 1 0 = 0 ∧ 0 ≤ r.getD 0 0 ∧ r.getD 0 0 ≤ 6 := by
  obtain ⟨cost, r, hT, hlen, habove, hge, hle⟩ := C30_search_frame_and_bound DblArith.exact
    specTermModel (Dbl.fin (1 / 100)) (Dbl.fin (1 / 10)) (Dbl.fin 10) 0 [0, 0] 6
    (by decide) (by decide)
  exact ⟨cost, r, hT, hlen, habove 1 (by decide), hge 0,
    hle (by decide) (by decide) 0⟩

/-- C32: for every rows vector of at most 31 ranks with non-negative entries
and every density and signal, the scan cost that `AnalyzeAlternate` returns
does not exceed the sum over the ranks `i` of `rows[i] / 2^i` (it is at most
the sum, or NaN), for every arithmetic `A` that divides 1 by a power of two
exactly, whose weights `1 - pow(x, 64)` do not exceed 1, whose product of a
value that does not exceed 1 with the cost of a row does not exceed that cost,
and whose sums do not exceed the sum of two bounds, as long as the sum of the
bounds, counted in units of `2^-30`, stays below `B` units (IEEE-754 doubles
round in this way with `B = 2^53`, arithmetic without rounding does for every
`B`); without rounding, with a finite density and finite frequencies at the
ranks, the scan cost is a finite value that is at most the sum; and for every
arithmetic a vector with a single row, at its highest rank `r <= 30`, has the
scan cost `0 + 1 * (1 / 2^r)`: the row is charged with the weight 1 exactly. -/
theorem C32_scan_cost_bound (T : TermModel) (rows : List Int) (density signal : Dbl)
    (hlen : rows.length ≤ 31) (hrows : ∀ x ∈ rows, 0 ≤ x) :
    (∀ (A : DblArith) (B : Nat),
      (∀ i, i ≤ 30 → A.div (Dbl.fin 1) (Dbl.fin (2 ^ i)) = Dbl.fin (1 / 2 ^ i)) →
      (∀ x, Dbl.gt (A.sub (Dbl.fin 1) (A.pow x (Dbl.fin 64))) (Dbl.fin 1) = false) →
      (∀ (w : Dbl) (i : Nat), i ≤ 30 → Dbl.gt w (Dbl.fin 1) = false →
        Dbl.gt (A.mul w (Dbl.fin (1 / 2 ^ i))) (Dbl.fin (1 / 2 ^ i)) = false) →
      (∀ (a b : Dbl) (m n : Nat), m + n < B →
        Dbl.gt a (Dbl.fin ((m : ℚ) / 2 ^ 30)) = false →
        Dbl.gt b (Dbl.fin ((n : ℚ) / 2 ^ 30)) = false →
        Dbl.gt (A.add a b) (Dbl.fin (((m + n : Nat) : ℚ) / 2 ^ 30)) = false) →
      Finset.sum (Finset.range rows.length)
        (fun r => (rows.getD r 0).toNat * 2 ^ (30 - r)) < B →
      Dbl.gt (AnalyzeAlternate A T rows density signal).m_scanCost
        (Dbl.fin (Finset.sum (Finset.range rows.length) (fun i =>
          ((rows.getD i 0 : Int) : ℚ) / 2 ^ i))) = false) ∧
    (∀ (d : ℚ) (f : Nat → ℚ), density = Dbl.fin d →
      (∀ i, i < rows.length → T.FrequencyAtRank signal i = Dbl.fin (f i)) →
      ∃ c : ℚ, (AnalyzeAlternate DblArith.exact T rows density signal).m_scanCost =
          Dbl.fin c ∧
        c ≤ Finset.sum (Finset.range rows.length) (fun i =>
          ((rows.getD i 0 : Int) : ℚ) / 2 ^ i)) ∧
    ∀ (A : DblArith) (r : Nat), r ≤ 30 →
      (AnalyzeAlternate A T (List.replicate r 0 ++ [1]) density signal).m_scanCost =
        A.add (Dbl.fin 0) (A.mul (Dbl.fin 1) (A.div (Dbl.fin 1) (Dbl.fin (2 ^ r)))) := by
  refine ⟨?_, ?_, ?_⟩
  · intro A B hcost hweight hmul hadd hsum
    rw [AnalyzeAlternate_eq_final]
    show Dbl.gt (AnalyzeAlternate.final A T rows density signal).scanCost _ = false
    unfold AnalyzeAlternate.final
    have h := AnalyzeAlternate_rankLoop_scanCost_le A T rows density signal B hcost hweight hmul
      hadd rows.length AnalyzeAlternate.initial 0 hlen (by rw [Nat.zero_add]; exact hsum)
      (by simp [AnalyzeAlternate.initial, Dbl.gt, Dbl.lt])
      (by simp [AnalyzeAlternate.initial, Dbl.gt, Dbl.lt])
    rw [Nat.zero_add, rowCost_sum_scaled rows hrows rows.length hlen (le_refl _)] at h
    exact h
  · intro d f hd hf
    subst hd
    obtain ⟨c, hc, hle⟩ := AnalyzeAlternate_rankLoop_scanCost_exact T rows d signal f hrows
      rows.length hlen hf rows.length AnalyzeAlternate.initial 0 1 (le_refl _) rfl rfl
      (le_refl _) (Or.inl rfl)
    refine ⟨c, hc, ?_⟩
    rw [zero_add] at hle
    refine le_trans hle (le_of_eq ?_)
    apply Finset.sum_congr rfl
    intro i hi
    have hlt : i < rows.length := Finset.mem_range.mp hi
    have hnn : 0 ≤ rows.getD i 0 := by
      rw [List.getD_eq_getElem?_getD, List.getElem?_eq_getElem hlt]
      exact hrows _ (List.getElem_mem hlt)
    have hcast : (((rows.getD i 0).toNat : Nat) : ℚ) = ((rows.getD i 0 : Int) : ℚ) := by
      rw [← Int.cast_natCast, Int.toNat_of_nonneg hnn]
    rw [hcast, mul_one_div]
  · intro A r hr
    rw [AnalyzeAlternate_single_row_scanCost, shiftLeftOne_cast r (by omega)]

/-- C32, witness: with density 0.6 and signal 0.5, the scan cost of the vector
`[2, 3]` without rounding does not exceed `2 + 3 / 2` and is a finite value
that is at most `2 + 3 / 2`; arithmetic without rounding meets the four
conditions on the arithmetic, with `B = 2^53`. -/
theorem C32_scan_cost_bound_witness :
    Dbl.gt (AnalyzeAlternate DblArith.exact specTermModel [2, 3] (Dbl.fin (6 / 10))
        (Dbl.fin (1 / 2))).m_scanCost (Dbl.fin (7 / 2)) = false ∧
    ∃ c : ℚ, (AnalyzeAlternate DblArith.exact specTermModel [2, 3] (Dbl.fin (6 / 10))
        (Dbl.fin (1 / 2))).m_scanCost = Dbl.fin c ∧ c ≤ 7 / 2 := by
  have h := C32_scan_cost_bound specTermModel [2, 3] (Dbl.fin (6 / 10)) (Dbl.fin (1 / 2))
    (by decide) (by decide)
  have hsum : Finset.sum (Finset.range ([2, 3] : List Int).length) (fun i =>
      (((([2, 3] : List Int).getD i 0 : Int) : ℚ)) / 2 ^ i) = 7 / 2 := by
    simp only [List.length_cons, List.length_nil, Finset.sum_range_succ, Finset.sum_range_zero]
    norm_num
  rw [hsum] at h
  constructor
  · refine h.1 DblArith.exact (2 ^ 53)
      (fun i _ => by
        have h2 : (2 : ℚ) ^ i ≠ 0 := pow_ne_zero _ (by norm_num)
        simp [DblArith.exact, Dbl.div, h2])
      DblArith_exact_weight
      (fun w i _ hw => DblArith_exact_mul_le w _ (by positivity) hw)
      (fun a b m n _ ha hb => by
        have := DblArith_exact_add_le a b _ _ ha hb
        rw [Nat.cast_add, add_div]
        exact this)
      ?_
    have h2 : (2 : Int).toNat = 2 := rfl
    have h3 : (3 : Int).toNat = 3 := rfl
    simp only [List.length_cons, List.length_nil, Finset.sum_range_succ, Finset.sum_range_zero]
    norm_num
    rw [h2, h3]
    norm_num
  · exact h.2.1 (6 / 10) (fun i => 1 - (1 - 1 / 2) ^ (2 ^ i)) rfl
      (by
        intro i _
        simp only [specTermModel, specFrequencyAtRank]
        norm_num)

/-- C33: for `TreatmentPrivateSharedRank0And3` and an IDF class `idf` up to
`c_maxIdfX10Value` with frequency `f <= density` and
`k = ComputeRowCount(f, density, snr)`, the counts of the tabulated
configuration sum to 2 when `k <= 2`, to `k` when `k > 2` and
`FrequencyAtRank(f, 3) < density`, and to 3 when `k > 2` and
`FrequencyAtRank(f, 3) >= density`. -/
theorem C33_PrivateSharedRank0And3_total (T : TermModel) (density snr : Dbl) (variant : Int)
    (idf : Nat) (hidf : idf ≤ T.c_maxIdfX10Value)
    (hle : Dbl.le (T.IdfX10ToFrequency idf) density = true) :
    ∃ t c, TreatmentPrivateSharedRank0And3.new T density snr variant = .ok t ∧
      t.m_configurations[idf]? = some c ∧
      (T.ComputeRowCount (T.IdfX10ToFrequency idf) density snr ≤ 2 → c.totalCount = 2) ∧
      (T.ComputeRowCount (T.IdfX10ToFrequency idf) density snr > 2 →
        Dbl.lt (T.FrequencyAtRank (T.IdfX10ToFrequency idf) 3) density = true →
        c.totalCount = T.ComputeRowCount (T.IdfX10ToFrequency idf) density snr) ∧
      (T.ComputeRowCount (T.IdfX10ToFrequency idf) density snr > 2 →
        Dbl.ge (T.FrequencyAtRank (T.IdfX10ToFrequency idf) 3) density = true →
        c.totalCount = 3) := by
  have hc := TreatmentPrivateSharedRank0And3_configuration_eq T density snr idf
  simp only [Dbl.gt_false_of_le hle, Bool.false_eq_true, if_false] at hc
  obtain ⟨t, h1, h2⟩ := TreatmentPrivateSharedRank0And3_new_entry T density snr variant idf hidf
    _ hc
  refine ⟨t, _, h1, h2, ?_, ?_, ?_⟩
  · intro hk
    rw [if_neg (by omega)]
    rfl
  · intro hk hlt
    rw [if_pos hk, Dbl.ge_false_of_lt hlt]
    simp only [Bool.false_eq_true, if_false, RowConfiguration.totalCount, List.map_cons,
      List.map_nil, List.sum_cons, List.sum_nil]
    omega
  · intro hk hge
    rw [if_pos hk, if_pos hge]
    rfl

/-- C33, witness: with density 0.1 and snr 10000, IDF class 13 (frequency about
0.0501) needs `k = 5` rows and `FrequencyAtRank(f, 3)`, about 0.337, is not
below the density: the counts of its configuration sum to 3. -/
theorem C33_PrivateSharedRank0And3_total_witness :
    ∃ t c, TreatmentPrivateSharedRank0And3.new specTermModel (Dbl.fin (1 / 10)) (Dbl.fin 10000) 0
        = .ok t ∧ t.m_configurations[13]? = some c ∧ c.totalCount = 3 ∧
      specTermModel.ComputeRowCount (specTermModel.IdfX10ToFrequency 13) (Dbl.fin (1 / 10))
        (Dbl.fin 10000) = 5 := by
  have hle : Dbl.le (specTermModel.IdfX10ToFrequency 13) (Dbl.fin (1 / 10)) = true := by
    rw [specIdfX10ToFrequency_13]
    simp only [Dbl.le, Dbl.lt, Dbl.eq, Bool.or_eq_true, decide_eq_true_eq]
    norm_num
  have hk : specTermModel.ComputeRowCount (specTermModel.IdfX10ToFrequency 13)
      (Dbl.fin (1 / 10)) (Dbl.fin 10000) = 5 := by
    rw [specIdfX10ToFrequency_13, specComputeRowCount_13]
  have hf : Dbl.ge (specTermModel.FrequencyAtRank (specTermModel.IdfX10ToFrequency 13) 3)
      (Dbl.fin (1 / 10)) = true := by
    rw [specIdfX10ToFrequency_13]
    simp only [specTermModel, specFrequencyAtRank, Dbl.ge, Dbl.le, Dbl.lt, Dbl.eq]
    norm_num
  obtain ⟨t, c, h1, h2, _, _, h5⟩ := C33_PrivateSharedRank0And3_total specTermModel
    (Dbl.fin (1 / 10)) (Dbl.fin 10000) 0 13 (by decide) hle
  exact ⟨t, c, h1, h2, h5 (by rw [hk]; decide) hf, hk⟩

end BitFunnel
